import Mathlib

/-!
Verification of the regex-DFA engine (`automaton` crate): a shallow embedding of
`src/dfa.rs`, `src/automaton.rs` and `src/searcher.rs` in Lean 4, together with
proofs and refutations of the specified properties.

Characters are Unicode scalar values (`u32` in the source) and are modelled as
`Nat`.  Bytes are modelled as `Nat` (always `< 256` where it matters).
The helper crates/modules `char_map.rs`, `nfa.rs`, `transition.rs` and the
`ascii_set` crate are not part of this source snapshot; the functions taken from
them are modelled from the specification and carry a `Modelled from the spec:`
note in their doc comment.
-/

namespace RegexDfa

/-! ## Character ranges and character maps (`char_map.rs`, absent from src/) -/

/-- A closed interval of Unicode scalar values.
Modelled from the spec: "**Character range.** A closed interval `[start, end]`
of Unicode scalar values (`u32`)." (`CharRange` in the missing `char_map.rs`). -/
structure CharRange where
  start : Nat
  stop : Nat
deriving DecidableEq, Repr

/-- `CharRange::single` -/
def CharRange.single (c : Nat) : CharRange := ⟨c, c⟩

/-- Does the range contain the scalar `c`? -/
def CharRange.containsChar (r : CharRange) (c : Nat) : Bool :=
  r.start ≤ c && c ≤ r.stop

/-- Modelled from the spec: "**Character map.** An ordered sequence of
(range, value) pairs" (`CharMap<V>` in the missing `char_map.rs`). -/
abbrev CharMap (V : Type) : Type := List (CharRange × V)

/-- Modelled from the spec: "A *character set* is a character map whose value is
the unit." -/
abbrev CharSet : Type := CharMap Unit

/-- `CharMap::get`: the value attached to the first range containing `c`.
Modelled from the spec (lookup in an ordered sequence of (range, value) pairs). -/
def CharMap.get {V : Type} (cm : CharMap V) (c : Nat) : Option V :=
  match cm with
  | [] => none
  | (r, v) :: rest => if r.containsChar c then some v else CharMap.get rest c

/-- `CharMap::is_empty`. Modelled from the spec. -/
def CharMap.is_empty {V : Type} (cm : CharMap V) : Bool :=
  match cm with
  | [] => true
  | _ :: _ => false

/-- `CharMap::to_char_set`: forget the values. Modelled from the spec. -/
def CharMap.to_char_set {V : Type} (cm : CharMap V) : CharSet :=
  cm.map (fun rv => (rv.1, ()))

/-- `CharSet::contains`. Modelled from the spec. -/
def CharSet.contains (cs : CharSet) (c : Nat) : Bool :=
  cs.any (fun ru => ru.1.containsChar c)

/-- `CharMap::filter_values`. Modelled from the spec. -/
def CharMap.filter_values {V : Type} (cm : CharMap V) (p : V → Bool) : CharMap V :=
  cm.filter (fun rv => p rv.2)

/-- `CharMap::map_values`. Modelled from the spec. -/
def CharMap.map_values {V W : Type} (cm : CharMap V) (f : V → W) : CharMap W :=
  cm.map (fun rv => (rv.1, f rv.2))

/-- `CharSet::char_count`: total number of code points, counted range by range.
Modelled from the spec (on normalized sets this is the cardinality). -/
def CharSet.char_count (cs : CharSet) : Nat :=
  cs.foldr (fun ru acc => (ru.1.stop + 1 - ru.1.start) + acc) 0

/-- Intersection of two ranges, or `none` when empty. -/
def CharRange.intersectRange (r s : CharRange) : Option CharRange :=
  let lo := max r.start s.start
  let hi := min r.stop s.stop
  if lo ≤ hi then some ⟨lo, hi⟩ else none

/-- `CharSet::intersect`. Modelled from the spec: "intersect with a set". -/
def CharSet.intersect (cs other : CharSet) : CharSet :=
  cs.foldr
    (fun ru acc =>
      (other.filterMap (fun su => (ru.1.intersectRange su.1).map (fun t => (t, ())))) ++ acc)
    []

/-- `CharSet::is_ascii`: every member is an ASCII scalar.  Empty ranges do not
count. Modelled from the spec. -/
def CharSet.is_ascii (cs : CharSet) : Bool :=
  cs.all (fun ru => ru.1.stop < 128 || ru.1.stop < ru.1.start)

/-- First range of the set containing the scalar `c`, if any. -/
def CharSet.findCover (cs : CharSet) (c : Nat) : Option CharRange :=
  match cs with
  | [] => none
  | (r, _) :: rest => if r.containsChar c then some r else CharSet.findCover rest c

/-- Does the set contain every scalar in `[lo, hi]`?  Fuelled recursion: each
step jumps past one covering range, so the fuel only bounds the number of
ranges walked. -/
def CharSet.coversAux (cs : CharSet) : Nat → Nat → Nat → Bool
  | 0, _, _ => false
  | fuel + 1, lo, hi =>
    if hi < lo then true
    else
      match CharSet.findCover cs lo with
      | none => false
      | some r => CharSet.coversAux cs fuel (r.stop + 1) hi

/-- `CharSet::contains_non_ascii`.  Modelled from the spec: the self-loop set
"contains every non-ASCII code point" (all valid scalars from 128 up,
surrogates excluded). -/
def CharSet.contains_non_ascii (cs : CharSet) : Bool :=
  CharSet.coversAux cs 1114113 128 55295 && CharSet.coversAux cs 1114113 57344 1114111

/-! ## Accept conditions (`transition.rs`, absent from src/) -/

/-- Modelled from the spec: "**Accept condition.** A pair
`{ at_eoi: bool, at_char: CharSet }`." -/
structure Accept where
  at_eoi : Bool
  at_char : CharSet
deriving DecidableEq, Repr

/-- Modelled from the spec: the sentinel accept `never`
(`at_eoi=false, at_char=∅`). -/
def Accept.never : Accept := ⟨false, []⟩

/-- Modelled from the spec: the sentinel accept `always`
(`at_eoi=true, at_char=Σ`). -/
def Accept.always : Accept := ⟨true, [(⟨0, 1114111⟩, ())]⟩

/-- `Accept::is_never`; structural comparison with the `never` sentinel,
matching the structural equality used by the minimizer's hash map. -/
def Accept.is_never (a : Accept) : Bool := a == Accept.never

/-- Modelled from the spec: "An accept fires if the next input character
belongs to `at_char`, or if `at_eoi` holds and no character follows." -/
def Accept.accepts (a : Accept) (next : Option Nat) : Bool :=
  match next with
  | some c => CharSet.contains a.at_char c
  | none => a.at_eoi

/-! ## ASCII sets (`ascii_set` crate, external) and extended ASCII sets -/

/-- Modelled from the spec: "ASCII set: 128-bit bitset with byte-level
membership" (the external `ascii_set::AsciiSet`). -/
structure AsciiSet where
  bits : Nat
deriving DecidableEq, Repr

/-- `AsciiSet::contains_byte`: bit test; bytes `≥ 128` are never members of the
128-bit set. Modelled from the spec. -/
def AsciiSet.contains_byte (s : AsciiSet) (b : Nat) : Bool :=
  b < 128 && s.bits.testBit b

/-- `CharSet::to_ascii_set`: the 128-bit bitset of the ASCII members.
Modelled from the spec. -/
def CharSet.to_ascii_set (cs : CharSet) : AsciiSet :=
  ⟨(List.range 128).foldr (fun b acc => if cs.contains b then acc + 2 ^ b else acc) 0⟩

/-- A set of chars that either is entirely ASCII or else contains every
non-ASCII char (`searcher.rs`, `ExtAsciiSet`). -/
structure ExtAsciiSet where
  set : AsciiSet
  contains_non_ascii : Bool
deriving DecidableEq, Repr

/-- `ExtAsciiSet::contains_byte` (`searcher.rs` lines 35-41). -/
def ExtAsciiSet.contains_byte (s : ExtAsciiSet) (b : Nat) : Bool :=
  if s.contains_non_ascii then decide (b ≥ 128) || s.set.contains_byte b
  else s.set.contains_byte b

/-! ## The `LoopWhile` qualification test (`dfa.rs`) -/

/-- The common-character set `[0-9A-Za-z]` built inside `is_common`
(dfa.rs lines 600-608), hoisted to a shared definition. -/
def common_chars : CharSet := [(⟨48, 57⟩, ()), (⟨65, 90⟩, ()), (⟨97, 122⟩, ())]

/-- `is_common` (dfa.rs lines 600-608): does the set cover at least 3/4 of the
62 common characters? -/
def is_common (cs : CharSet) : Bool :=
  let common_chars_count := 10 + 26 + 26
  decide (CharSet.char_count (CharSet.intersect cs common_chars) ≥ common_chars_count * 3 / 4)

/-- `loop_optimization` (dfa.rs lines 584-594): given the transitions at state
`st_idx`, decide whether to insert a `LoopWhile` instruction; if so return the
lookup table and the remaining transitions. -/
def loop_optimization (cm : CharMap Nat) (st_idx : Nat) :
    Option (ExtAsciiSet × CharMap Nat) :=
  let loop_cs := CharMap.to_char_set (CharMap.filter_values cm (fun st => st == st_idx))
  if is_common loop_cs && (CharSet.is_ascii loop_cs || CharSet.contains_non_ascii loop_cs) then
    let set : ExtAsciiSet :=
      { set := CharSet.to_ascii_set loop_cs,
        contains_non_ascii := CharSet.contains_non_ascii loop_cs }
    some (set, CharMap.filter_values cm (fun st => st != st_idx))
  else none

/-! ## Byte iterator (`searcher.rs`) -/

/-- The state of `ByteIter` (`searcher.rs` lines 63-68).  The haystack is the
byte sequence of the input string. -/
structure ByteIter where
  input : List Nat
  byte : Nat
  pos : Nat
  state : Nat
deriving DecidableEq, Repr

/-- `ByteIter::new` (`searcher.rs` lines 71-82).  The source panics with
"can only use ASCII bytes" when `b ≥ 128`; the panic is modelled as `none`. -/
def ByteIter.new (s : List Nat) (b : Nat) (state : Nat) : Option ByteIter :=
  if b ≥ 128 then none
  else some { input := s, byte := b, pos := 0, state := state }

/-! ## Instructions and the program core (`dfa.rs`) -/

/-- `Inst` (dfa.rs lines 488-498).  A literal is its list of scalar values. -/
inductive Inst where
  | Literal : List Nat → Inst
  | Char : CharSet → Inst
  | Acc : Accept → Inst
  | Branch : CharMap Nat → Inst
  | LoopWhile : ExtAsciiSet → Inst
  | Reject : Inst
deriving DecidableEq, Repr

/-- The UTF-8 byte length of a scalar (`char::len_utf8`). -/
def utf8Len (c : Nat) : Nat :=
  if c < 128 then 1 else if c < 2048 then 2 else if c < 65536 then 3 else 4

/-- The UTF-8 byte length of a string, given as its list of scalars. -/
def strBytesLen (s : List Nat) : Nat := (s.map utf8Len).sum

/-- The instruction data of a `Program` (dfa.rs lines 502-507), without the
boxed runner. -/
structure Prog where
  insts : List Inst
  init_at_start : Option Nat
  init_after_char : CharMap Nat
  init_otherwise : Option Nat
deriving DecidableEq, Repr

/-- Does every UTF-8 byte of the scalar `c` belong to the extended set?  A
multi-byte scalar's bytes are all `≥ 128`, so for a non-ASCII scalar this is
`contains_non_ascii`; moreover the first failing byte of a failing scalar is
its first byte, so the byte-level scan in `shortest_match_from`'s `LoopWhile`
arm always stops at a character boundary and is modelled character by
character. -/
def ExtAsciiSet.containsCharBytes (set : ExtAsciiSet) (c : Nat) : Bool :=
  if c < 128 then set.contains_byte c else set.contains_non_ascii

/-- `Program::shortest_match_from` (dfa.rs lines 634-686), fuelled.  The input
is the list of scalars of the remaining string; `consumed` is the number of
bytes consumed so far, so that `some consumed` matches the source's pointer
difference.  An out-of-range instruction pointer (a panic in the source) and
fuel exhaustion (the source loop always terminates) both give `none`. -/
def shortestMatchFromAux (p : Prog) : Nat → List Nat → Nat → Nat → Option Nat
  | 0, _, _, _ => none
  | fuel + 1, s, state, consumed =>
    match p.insts.get? state with
    | none => none
    | some inst =>
      match inst with
      | .Reject => none
      | .Acc a =>
          if a.accepts s.head? then some consumed
          else shortestMatchFromAux p fuel s (state + 1) consumed
      | .Char cs =>
          match s with
          | c :: rest =>
              if cs.contains c then
                shortestMatchFromAux p fuel rest (state + 1) (consumed + utf8Len c)
              else none
          | [] => none
      | .Literal lit =>
          if lit.isPrefixOf s then
            shortestMatchFromAux p fuel (s.drop lit.length) (state + 1)
              (consumed + strBytesLen lit)
          else none
      | .Branch cm =>
          match s with
          | c :: rest =>
              match CharMap.get cm c with
              | some next => shortestMatchFromAux p fuel rest next (consumed + utf8Len c)
              | none => none
          | [] => none
      | .LoopWhile set =>
          let pre := s.takeWhile (fun c => ExtAsciiSet.containsCharBytes set c)
          if pre.length = s.length then none
          else
            shortestMatchFromAux p fuel (s.drop pre.length) (state + 1)
              (consumed + strBytesLen pre)

/-- Enough fuel for `shortestMatchFromAux`: between two input consumptions the
instruction pointer strictly increases. -/
def Prog.matchFuel (p : Prog) (s : List Nat) : Nat :=
  (s.length + 1) * (p.insts.length + 1) + 1

/-- `Program::shortest_match_from`: returns `some end` where `end` is the byte
index (into the given suffix) just after the end of the match. -/
def Prog.shortest_match_from (p : Prog) (s : List Nat) (state : Nat) : Option Nat :=
  shortestMatchFromAux p (Prog.matchFuel p s) s state 0

/-- `Program::state_after` (dfa.rs lines 763-765). -/
def Prog.state_after (p : Prog) (ch : Nat) : Option Nat :=
  Option.or (CharMap.get p.init_after_char ch) p.init_otherwise

/-- The character-walking loop of `SlowRunner::run` (dfa.rs lines 563-572);
`pos` is the byte position reached so far. -/
def slow_run_loop (p : Prog) (pos : Nat) : List Nat → Option (Nat × Nat)
  | [] => none
  | ch :: rest =>
    let pos2 := pos + utf8Len ch
    match Prog.state_after p ch with
    | some state =>
        match Prog.shortest_match_from p rest state with
        | some e => some (pos2, pos2 + e)
        | none => slow_run_loop p pos2 rest
    | none => slow_run_loop p pos2 rest

/-- `SlowRunner::run` (dfa.rs lines 550-575). -/
def slow_run (p : Prog) (s : List Nat) : Option (Nat × Nat) :=
  let first :=
    match p.init_at_start with
    | some state => Prog.shortest_match_from p s state
    | none => none
  match first with
  | some e => some (0, e)
  | none =>
    if p.init_otherwise.isNone && CharMap.is_empty p.init_after_char then none
    else slow_run_loop p 0 s

/-- `Program` (dfa.rs lines 502-508): the instruction data together with the
boxed runner; `Box<Runner>` is a closure and is modelled as a function from
the program data and the input to the optional match span. -/
structure Program where
  prog : Prog
  runner : Prog → List Nat → Option (Nat × Nat)

/-- `Program::shortest_match` (dfa.rs lines 713-715). -/
def Program.shortest_match (p : Program) (s : List Nat) : Option (Nat × Nat) :=
  p.runner p.prog s

/-- `Program::is_match` (dfa.rs lines 768-770). -/
def Program.is_match (p : Program) (s : List Nat) : Bool :=
  (Program.shortest_match p s).isSome

/-! ## The slow runner as the spec words it (for claim C2) -/

/-- For each character of the input, the byte position just after it, the
character itself, and the remaining input; `pos` is the byte position at which
the list starts.  Written for `slow_run_spec`. -/
def charEndPositions (pos : Nat) : List Nat → List (Nat × Nat × List Nat)
  | [] => []
  | c :: rest => (pos + utf8Len c, c, rest) :: charEndPositions (pos + utf8Len c) rest

/-- The slow runner as claim C2 words it: first attempt a match from offset 0
using `init_at_start`; if that fails and `init_otherwise` is `None` and
`init_after_char` is empty, return `None` without scanning the rest; otherwise
walk the input character by character and, after each character `c` ending at
byte position `p`, attempt a match from `p` using `init_after_char[c]` when
`c` is in that map and `init_otherwise` as the fallback, returning the first
such match as `(p, p + end)`. -/
def slow_run_spec (p : Prog) (s : List Nat) : Option (Nat × Nat) :=
  match p.init_at_start.bind (fun st => Prog.shortest_match_from p s st) with
  | some e => some (0, e)
  | none =>
    if p.init_otherwise.isNone && CharMap.is_empty p.init_after_char then none
    else
      (charEndPositions 0 s).findSome? fun t =>
        (Option.or (CharMap.get p.init_after_char t.2.1) p.init_otherwise).bind fun st =>
          (Prog.shortest_match_from p t.2.2 st).map fun e => (t.1, t.1 + e)

/-! ## More character-range algebra (modelled from the spec, `char_map.rs`) -/

/-- The pieces of `base` left after removing `r`.  An empty `r` removes
nothing. -/
def rangeSub1 (base r : CharRange) : List CharRange :=
  if r.stop < r.start then [base]
  else if r.stop < base.start || base.stop < r.start then [base]
  else
    (if base.start < r.start then [CharRange.mk base.start (r.start - 1)] else []) ++
    (if r.stop < base.stop then [CharRange.mk (r.stop + 1) base.stop] else [])

/-- Remove the range `r` from every range of `bases`. -/
def rangesSub (bases : List CharRange) (r : CharRange) : List CharRange :=
  bases.flatMap (fun b => rangeSub1 b r)

/-- `CharSet::negated`.  Modelled from the spec: "complement (over
`0..=0x10FFFF` but restricted to valid scalars)" — surrogates excluded. -/
def CharSet.negated (cs : CharSet) : CharSet :=
  (List.foldl rangesSub
      [CharRange.mk 0 55295, CharRange.mk 57344 1114111]
      (cs.map (fun ru => ru.1))).map (fun r => (r, ()))

/-- `CharMap::to_char_map` on a set: attach the value `v` to each range.
Modelled from the spec. -/
def CharSet.to_char_map (cs : CharSet) (v : Nat) : CharMap Nat :=
  cs.map (fun ru => (ru.1, v))

/-- Sorted insertion without duplicates, for canonical state sets (the model of
`bit_set::BitSet`, whose iteration is in ascending order). -/
def insSortedNat (x : Nat) : List Nat → List Nat
  | [] => [x]
  | y :: l => if x < y then x :: y :: l else if x = y then y :: l else y :: insSortedNat x l

/-- Canonical (sorted, duplicate-free) form of a list of naturals. -/
def mkSetNat (l : List Nat) : List Nat := l.foldr insSortedNat []

/-- The consecutive atoms determined by a sorted list of boundary points. -/
def atomsOf : List Nat → List CharRange
  | b1 :: b2 :: rest => CharRange.mk b1 (b2 - 1) :: atomsOf (b2 :: rest)
  | _ => []

/-- The input pairs with nonempty ranges. -/
def nePairs (pairs : List (CharRange × Nat)) : List (CharRange × Nat) :=
  pairs.filter (fun rt => decide (rt.1.start ≤ rt.1.stop))

/-- The sorted boundary points of a collection of ranges. -/
def refineBounds (pairs : List (CharRange × Nat)) : List Nat :=
  mkSetNat ((nePairs pairs).map (fun rt => rt.1.start)
    ++ (nePairs pairs).map (fun rt => rt.1.stop + 1))

/-- The labels of the ranges containing the atom starting at `a`. -/
def atomVals (pairs : List (CharRange × Nat)) (a : CharRange) : List Nat :=
  mkSetNat (((nePairs pairs).filter (fun rt => rt.1.containsChar a.start)).map (fun rt => rt.2))

/-- Range refinement (`CharMultiMap::group` / `collect_transition_pairs`, both
in missing modules).  Modelled from the spec: "The refinement operation
partitions a collection of possibly-overlapping ranges into disjoint atoms,
each labeled by the set of originating values". -/
def refineSets (pairs : List (CharRange × Nat)) : List (CharRange × List Nat) :=
  (atomsOf (refineBounds pairs)).filterMap (fun a =>
    if (atomVals pairs a).isEmpty then none else some (a, atomVals pairs a))

/-! ## Normalization of character maps (modelled from the spec) -/

/-- Insertion by range start (the sorting step of `CharMap::normalize`). -/
def insRangeSorted {V : Type} (x : CharRange × V) : List (CharRange × V) → List (CharRange × V)
  | [] => [x]
  | y :: l => if x.1.start ≤ y.1.start then x :: y :: l else y :: insRangeSorted x l

/-- Sort a character map by range start. -/
def CharMap.sortRanges {V : Type} (cm : CharMap V) : CharMap V :=
  cm.foldr insRangeSorted []

/-- Coalesce adjacent pairs with equal values and touching or overlapping
ranges; fuelled by the list length. -/
def mergeSortedAux {V : Type} [DecidableEq V] : Nat → List (CharRange × V) → List (CharRange × V)
  | 0, l => l
  | _, [] => []
  | _, [x] => [x]
  | fuel + 1, x :: y :: l =>
    if x.2 = y.2 ∧ y.1.start ≤ x.1.stop + 1 then
      mergeSortedAux fuel ((CharRange.mk x.1.start (max x.1.stop y.1.stop), x.2) :: l)
    else x :: mergeSortedAux fuel (y :: l)

/-- `CharMap::normalize`.  Modelled from the spec: "normalize (merge
equal-valued adjacent/overlapping ranges)" after sorting by `start`. -/
def CharMap.normalize {V : Type} [DecidableEq V] (cm : CharMap V) : CharMap V :=
  mergeSortedAux (cm.length + 1) (CharMap.sortRanges cm)

/-! ## The DFA (`dfa.rs`) -/

/-- `DfaState` (dfa.rs lines 54-58). -/
structure DfaState where
  transitions : CharMap Nat
  accept : Accept
deriving DecidableEq, Repr

instance : Inhabited DfaState := ⟨{ transitions := [], accept := Accept.never }⟩

/-- `Dfa` (dfa.rs lines 72-86). -/
structure Dfa where
  states : List DfaState
  init_at_start : Option Nat
  init_after_char : CharMap Nat
  init_otherwise : Option Nat
deriving DecidableEq, Repr

/-- `Dfa::num_states` (dfa.rs lines 100-102). -/
def Dfa.num_states (d : Dfa) : Nat := d.states.length

/-- The transitions of state `i` (out-of-range indices panic in the source;
they default to the empty map here). -/
def transAt (d : Dfa) (i : Nat) : CharMap Nat := (d.states.getD i default).transitions

/-- The accept value of state `i`. -/
def acceptAt (d : Dfa) (i : Nat) : Accept := (d.states.getD i default).accept

/-- The reversed transition list (`transitions_from` of the `Nfa` built by
`Dfa::reversed`, dfa.rs lines 293-307): all `(range, source)` pairs with a
transition `source → t`, sources in index order as the source pushes them. -/
def dfaRevTransAux (t idx : Nat) : List DfaState → List (CharRange × Nat)
  | [] => []
  | st :: rest =>
      st.transitions.filterMap (fun rt => if rt.2 = t then some (rt.1, idx) else none)
        ++ dfaRevTransAux t (idx + 1) rest

/-- The transitions entering state `t`, as stored at state `t` of the reversed
automaton. -/
def Dfa.reversedTransFrom (d : Dfa) (t : Nat) : List (CharRange × Nat) :=
  dfaRevTransAux t 0 d.states

/-- `Nfa::transitions` of the reversed automaton on a set of states (from the
missing `nfa.rs`).  Modelled from the spec: collect all outgoing transitions
from states in the set and refine their ranges into disjoint atoms, each with
its set of targets; the reversed automaton has no ε-transitions, so the
ε-closure step of the source is the identity here. -/
def Dfa.reversedTransSets (d : Dfa) (dist : List Nat) : List (CharRange × List Nat) :=
  refineSets (dist.flatMap (fun s => Dfa.reversedTransFrom d s))

/-! ## Minimization (`dfa.rs`) -/

/-- `BitSet::split` (dfa.rs lines 44-52): if the set has a non-trivial
intersection with `other`, the intersection and the difference. -/
def splitSet (part other : List Nat) : Option (List Nat × List Nat) :=
  if part.any (fun x => other.contains x) && !part.all (fun x => other.contains x) then
    some (part.filter (fun x => other.contains x), part.filter (fun x => !other.contains x))
  else none

/-- One refinement pass of `reject_partition` (dfa.rs lines 150-162): split
every part that the set `s` reveals to contain two classes. -/
def refinePartition (parts : List (List Nat)) (s : List Nat) : List (List Nat) :=
  parts.flatMap (fun part =>
    match splitSet part s with
    | some yy => [yy.1, yy.2]
    | none => [part])

/-- The rejected characters of state `idx`, as a map to `idx`
(dfa.rs lines 134-137). -/
def Dfa.rejects (d : Dfa) (idx : Nat) : CharMap Nat :=
  CharSet.to_char_map (CharSet.negated (CharMap.to_char_set (transAt d idx))) idx

/-- `Dfa::reject_partition` (dfa.rs lines 128-165): refine the given states by
their sets of rejected characters. -/
def Dfa.reject_partition (d : Dfa) (states : List Nat) : List (List Nat) :=
  if states.isEmpty then []
  else
    let all_rejects := states.flatMap (fun idx => Dfa.rejects d idx)
    let sets := (refineSets all_rejects).map (fun x => x.2)
    sets.foldl refinePartition [states]

/-- Insert a state index into the accept-keyed grouping; a `HashMap` in the
source (iteration order arbitrary there, insertion order here). -/
def addToPartition (assoc : List (Accept × List Nat)) (a : Accept) (idx : Nat) :
    List (Accept × List Nat) :=
  match assoc with
  | [] => [(a, [idx])]
  | (k, v) :: rest =>
      if k = a then (k, v ++ [idx]) :: rest else (k, v) :: addToPartition rest a idx

/-- Group the states by accept value, walking them in index order. -/
def apAssocAux (assoc : List (Accept × List Nat)) (idx : Nat) :
    List DfaState → List (Accept × List Nat)
  | [] => assoc
  | st :: rest => apAssocAux (addToPartition assoc st.accept idx) (idx + 1) rest

/-- `Dfa::accept_partition` (dfa.rs lines 273-286): the set of never-accepting
states, and the partition of the rest by accept value. -/
def Dfa.accept_partition (d : Dfa) : List Nat × List (List Nat) :=
  ((((apAssocAux [] 0 d.states).find?
        (fun kv => kv.1 == Accept.never)).map (fun kv => kv.2)).getD [],
    ((apAssocAux [] 0 d.states).filter
        (fun kv => !(Accept.is_never kv.1))).map (fun kv => kv.2))

/-- Insert into the distinguisher worklist (a `HashSet` in the source):
no duplicates. -/
def insertDist (dists : List (List Nat)) (x : List Nat) : List (List Nat) :=
  if dists.contains x then dists else dists ++ [x]

/-- The inner splitting pass of `Dfa::minimize` (dfa.rs lines 195-218) for one
preimage set `s`: rebuild the partition, maintaining the distinguisher
worklist. -/
def splitAgainst (s : List Nat) : List (List Nat) → List (List Nat) →
    (List (List Nat) × List (List Nat))
  | [], dists => ([], dists)
  | y :: rest, dists =>
    match splitSet y s with
    | some yy =>
        let dists2 :=
          if dists.contains y then
            insertDist (insertDist (dists.filter (fun z => z ≠ y)) yy.1) yy.2
          else if yy.1.length < yy.2.length then insertDist dists yy.1
          else insertDist dists yy.2
        let pd := splitAgainst s rest dists2
        (yy.1 :: yy.2 :: pd.1, pd.2)
    | none =>
        let pd := splitAgainst s rest dists
        (y :: pd.1, pd.2)

/-- Process one popped distinguisher (dfa.rs lines 186-218): refine the
partition by the preimage set of every atom entering the distinguisher. -/
def processDistinguisher (d : Dfa) (dist : List Nat)
    (partition dists : List (List Nat)) : List (List Nat) × List (List Nat) :=
  let sets := (Dfa.reversedTransSets d dist).map (fun x => x.2)
  List.foldl (fun pd s => splitAgainst s pd.1 pd.2) (partition, dists) sets

/-- The `while distinguishers.len() > 0` loop of `Dfa::minimize`
(dfa.rs lines 185-219), fuelled.  The source pops an arbitrary element of the
`HashSet`; this model pops the head of the worklist, a deterministic
refinement of that choice. -/
def minimizeLoop (d : Dfa) : Nat → List (List Nat) → List (List Nat) → List (List Nat)
  | 0, partition, _ => partition
  | fuel + 1, partition, dists =>
    match dists with
    | [] => partition
    | dist :: rest =>
        let pd := processDistinguisher d dist partition rest
        minimizeLoop d fuel pd.1 pd.2

/-- The state partition computed by `Dfa::minimize` (dfa.rs lines 170-219):
accept partition plus reject refinement of the never states, refined to a
fixed point by the distinguisher worklist. -/
def Dfa.minimizePartition (d : Dfa) : List (List Nat) :=
  let ap := Dfa.accept_partition d
  let initParts := ap.2 ++ Dfa.reject_partition d ap.1
  minimizeLoop d (4 * d.states.length + 4) initParts (initParts.foldl insertDist [])

/-- The `old_state_to_new` assignment loop (dfa.rs lines 225-235): each state
of each part is mapped to the part's position. -/
def oldToNewAux (i : Nat) (v : List Nat) : List (List Nat) → List Nat
  | [] => v
  | p :: rest => oldToNewAux (i + 1) (p.foldl (fun acc s => acc.set s i) v) rest

/-- The old-to-new state index map of `Dfa::minimize`. -/
def Dfa.old_state_to_new (d : Dfa) : List Nat :=
  oldToNewAux 0 (List.replicate d.states.length 0) (Dfa.minimizePartition d)

/-- `Dfa::minimize` (dfa.rs lines 170-262): one state per partition class,
represented by the class's least member (`BitSet` iteration is ascending),
transitions and the three initial entries renumbered, transition maps
normalized. -/
def Dfa.minimize (d : Dfa) : Dfa :=
  let parts := Dfa.minimizePartition d
  let map := Dfa.old_state_to_new d
  let mapF := fun s => map.getD s 0
  { states := parts.map (fun part =>
      { transitions :=
          CharMap.normalize ((transAt d (part.headD 0)).map (fun rt => (rt.1, mapF rt.2))),
        accept := acceptAt d (part.headD 0) }),
    init_at_start := d.init_at_start.map mapF,
    init_after_char := (d.init_after_char.map (fun rv => (rv.1, mapF rv.2))),
    init_otherwise := d.init_otherwise.map mapF }

/-! ## The bounded construction pipeline (for claim C1) -/

/-- `Error` (from the missing `error.rs`).  Modelled from the spec's error
taxonomy. -/
inductive Error where
  | SyntaxError : Error
  | TooBig : Error
  | InvalidAst : Error
deriving DecidableEq, Repr

/-- Modelled from the spec: `Nfa::determinize(max_states)` lives in the missing
`nfa.rs`; the DFA `d` that the subset construction would produce is taken as a
parameter, and the budget rule — "If the number of DFA states exceeds a
caller-supplied `max_states`, construction aborts with `TooBig`" — is applied
to it. -/
def determinizeBounded (d : Dfa) (max_states : Nat) : Except Error Dfa :=
  if d.states.length > max_states then Except.error Error.TooBig else Except.ok d

/-- `Dfa::from_regex_bounded` (dfa.rs lines 106-111), with the parsing and
determinization stages abstracted by the determinized DFA `d`: determinize
under the budget, then minimize. -/
def from_regex_bounded (d : Dfa) (max_states : Nat) : Except Error Dfa :=
  Except.map Dfa.minimize (determinizeBounded d max_states)

/-! ## Chain compilation (`dfa.rs`) -/

/-- `Dfa::single_target` (dfa.rs lines 357-369): the common target of all
transitions, if they agree. -/
def Dfa.single_target (l : List (CharRange × Nat)) : Option Nat :=
  match l with
  | [] => none
  | (_, t) :: rest => if rest.all (fun rt => rt.2 = t) then some t else none

/-- `Dfa::single_char` (dfa.rs lines 371-382): the single character consumed, when
there is exactly one width-one transition range. -/
def Dfa.single_char (l : List (CharRange × Nat)) : Option Nat :=
  match l with
  | [] => none
  | (r, _) :: rest => if r.start = r.stop ∧ rest.isEmpty then some r.start else none

/-- `Dfa::is_starting` (dfa.rs lines 410-414). -/
def Dfa.is_starting (d : Dfa) (st_idx : Nat) : Bool :=
  d.init_at_start == some st_idx
    || d.init_otherwise == some st_idx
    || d.init_after_char.any (fun rv => rv.2 = st_idx)

/-- `Dfa::is_chain_link` (dfa.rs lines 389-397): the state has a unique target
other than itself, which is not a starting state and has a unique source. -/
def Dfa.is_chain_link (d : Dfa) (st_idx : Nat) : Bool :=
  match Dfa.single_target (transAt d st_idx) with
  | some tgt =>
      tgt != st_idx
        && !(Dfa.is_starting d tgt)
        && (Dfa.single_target (Dfa.reversedTransFrom d tgt)).isSome
  | none => false

/-- `Dfa::is_chain_head` (dfa.rs lines 399-408). -/
def Dfa.is_chain_head (d : Dfa) (st_idx : Nat) : Bool :=
  let has_p :=
    match Dfa.single_target (Dfa.reversedTransFrom d st_idx) with
    | some p => Dfa.is_chain_link d p
    | none => false
  Dfa.is_starting d st_idx || !has_p

/-- The tail of `Dfa::build_chain` (dfa.rs lines 438-459): flush the pending
literal, emit the terminal accept, then a `Branch` (with the loop
optimization when nothing was emitted yet), or a `Reject` unless the chain
already ends in `Acc(always)`. -/
def buildChainFinish (d : Dfa) (ret : List Inst) (lit : List Nat) (st_idx : Nat) :
    List Inst :=
  let ret := if lit.isEmpty then ret else ret ++ [Inst.Literal lit]
  let ret :=
    if (acceptAt d st_idx).is_never then ret else ret ++ [Inst.Acc (acceptAt d st_idx)]
  if !(transAt d st_idx).isEmpty then
    if ret.isEmpty then
      match loop_optimization (transAt d st_idx) st_idx with
      | some st => ret ++ [Inst.LoopWhile st.1, Inst.Branch st.2]
      | none => ret ++ [Inst.Branch (transAt d st_idx)]
    else ret ++ [Inst.Branch (transAt d st_idx)]
  else if ret.getLast? ≠ some (Inst.Acc Accept.always) then ret ++ [Inst.Reject]
  else ret

/-- The `while self.is_chain_link` loop of `Dfa::build_chain`
(dfa.rs lines 416-436), fuelled; `ret` and `lit` are the accumulated
instructions and the pending literal.  The source walk always leaves the loop
(chains entered from heads are acyclic); on fuel exhaustion the terminal
emission runs at the current state. -/
def buildChainAux (d : Dfa) : Nat → List Inst → List Nat → Nat → List Inst
  | 0, ret, lit, st_idx => buildChainFinish d ret lit st_idx
  | fuel + 1, ret, lit, st_idx =>
    if Dfa.is_chain_link d st_idx then
      let ret :=
        if (acceptAt d st_idx).is_never then ret else ret ++ [Inst.Acc (acceptAt d st_idx)]
      match Dfa.single_char (transAt d st_idx) with
      | some ch =>
          buildChainAux d fuel ret (lit ++ [ch])
            ((Dfa.single_target (transAt d st_idx)).getD 0)
      | none =>
          let ret := if lit.isEmpty then ret else ret ++ [Inst.Literal lit]
          let ret := ret ++ [Inst.Char (CharMap.to_char_set (transAt d st_idx))]
          buildChainAux d fuel ret [] ((Dfa.single_target (transAt d st_idx)).getD 0)
    else buildChainFinish d ret lit st_idx

/-- `Dfa::build_chain` (dfa.rs lines 416-462). -/
def Dfa.build_chain (d : Dfa) (st_idx : Nat) : List Inst :=
  buildChainAux d (d.states.length + 1) [] [] st_idx

/-- The state at which the chain walk of `build_chain` stops. -/
def chainTerminalAux (d : Dfa) : Nat → Nat → Nat
  | 0, st_idx => st_idx
  | fuel + 1, st_idx =>
    if Dfa.is_chain_link d st_idx then
      chainTerminalAux d fuel ((Dfa.single_target (transAt d st_idx)).getD 0)
    else st_idx

/-- The terminal state of the chain headed at `st_idx`. -/
def Dfa.chain_terminal (d : Dfa) (st_idx : Nat) : Nat :=
  chainTerminalAux d (d.states.length + 1) st_idx

/-! ## The older NFA/DFA type (`automaton.rs`) -/

/-- `TransList` (from `transition.rs`, absent from src/): range-labelled
transitions plus ε-transitions.  Modelled from the spec: a state holds "a list
of range-labeled transitions `(CharRange, target)`" and "a set of
ε-transitions". -/
structure TransList where
  ranges : List (CharRange × Nat)
  eps : List Nat
deriving DecidableEq, Repr

/-- `State` (automaton.rs lines 24-27). -/
structure State where
  transitions : TransList
  accepting : Bool
deriving DecidableEq, Repr

instance : Inhabited State := ⟨{ transitions := { ranges := [], eps := [] }, accepting := false }⟩

/-- `State::new` (automaton.rs lines 30-35). -/
def State.new (accepting : Bool) : State :=
  { transitions := { ranges := [], eps := [] }, accepting := accepting }

/-- `Automaton` (automaton.rs lines 39-44). -/
structure Automaton where
  states : List State
  initial : Nat
deriving DecidableEq, Repr

/-- The reversed transition list of the state with index `t`: walking the
states from index `idx` up, each transition `(r, t)` of state `i` is pushed as
`(r, i)`, in the source's push order (outer loop over sources in index order,
inner loop in list order). -/
def revRangesToAux (t idx : Nat) : List State → List (CharRange × Nat)
  | [] => []
  | st :: rest =>
      st.transitions.ranges.filterMap (fun rt => if rt.2 = t then some (rt.1, idx) else none)
        ++ revRangesToAux t (idx + 1) rest

/-- The transitions of state `t` in the reversed automaton. -/
def revRangesTo (states : List State) (t : Nat) : List (CharRange × Nat) :=
  revRangesToAux t 0 states

/-- `Automaton::reversed` (automaton.rs lines 174-188): same accepting flags,
all transitions reversed, ε-transitions dropped; the initial state is the 0 set
by `with_capacity`.  A transition whose target is out of range makes the source
panic; such targets are ruled out by `targetsOk` below. -/
def Automaton.reversed (a : Automaton) : Automaton :=
  { states := (List.range a.states.length).map (fun t =>
      { transitions := { ranges := revRangesTo a.states t, eps := [] },
        accepting := (a.states.getD t default).accepting }),
    initial := 0 }

/-- All transition targets are in range — exactly the automata on which the
source's `reversed` does not panic. -/
def Automaton.targetsOk (a : Automaton) : Bool :=
  a.states.all (fun st => st.transitions.ranges.all (fun rt => rt.2 < a.states.length))

/-- The state at index `s`, defaulting to an empty non-accepting state. -/
def stateAtA (a : Automaton) (s : Nat) : State := a.states.getD s default

/-- The range-labelled transitions at index `s`. -/
def rangesAtA (a : Automaton) (s : Nat) : List (CharRange × Nat) :=
  (stateAtA a s).transitions.ranges

/-- The accepting flag at index `s`. -/
def accAtA (a : Automaton) (s : Nat) : Bool := (stateAtA a s).accepting

end RegexDfa

namespace RegexDfa

/-! ## Claim C9 -/

/-- C9: if `contains_non_ascii` is set then every byte `≥ 128` is a member of an
`ExtAsciiSet`; for bytes `< 128`, and for every byte when the flag is unset,
membership is decided by the 128-bit ASCII set alone. -/
theorem extAsciiSet_contains_byte_cases (e : ExtAsciiSet) (b : Nat) :
    (e.contains_non_ascii = true → 128 ≤ b → e.contains_byte b = true) ∧
    (b < 128 → e.contains_byte b = e.set.contains_byte b) ∧
    (e.contains_non_ascii = false → e.contains_byte b = e.set.contains_byte b) := by
  refine ⟨fun hna hb => ?_, fun hb => ?_, fun hna => ?_⟩
  · simp [ExtAsciiSet.contains_byte, hna, hb]
  · cases hna : e.contains_non_ascii with
    | false => simp [ExtAsciiSet.contains_byte, hna]
    | true =>
        simp [ExtAsciiSet.contains_byte, hna, Nat.not_le.mpr hb]
  · simp [ExtAsciiSet.contains_byte, hna]

/-- Witness for C9: a concrete extended set with the flag set contains
byte 200, even though its 128-bit part is empty. -/
theorem extAsciiSet_contains_byte_cases_witness :
    ExtAsciiSet.contains_byte ⟨⟨0⟩, true⟩ 200 = true :=
  (extAsciiSet_contains_byte_cases ⟨⟨0⟩, true⟩ 200).1 rfl (by decide)

/-! ## Claim C1 -/

/-- A determinized DFA that shrinks under minimization: states 1 and 2 are
equivalent (both accept always, no transitions), so 3 states minimize to 2. -/
def dfaShrink : Dfa :=
  { states := [
      { transitions := [(⟨97, 97⟩, 1), (⟨98, 98⟩, 2)], accept := Accept.never },
      { transitions := [], accept := Accept.always },
      { transitions := [], accept := Accept.always } ],
    init_at_start := some 0,
    init_after_char := [],
    init_otherwise := none }

/-- Counterexample to C1 as stated: the bound is enforced on the determinized
DFA before minimization, so for `dfaShrink` (3 states before minimization,
2 after) and budget 2 the construction aborts with `TooBig` even though the
minimized DFA has at most 2 states. -/
theorem from_regex_bounded_not_minimized_iff :
    ¬ ((from_regex_bounded dfaShrink 2).isOk = true ↔
        (Dfa.minimize dfaShrink).num_states ≤ 2) := by
  decide

/-- C1 (amended): `from_regex_bounded` succeeds exactly when the determinized,
pre-minimization DFA has at most `max_states` states: the budget is enforced
during determinization, before minimization ever runs. -/
theorem from_regex_bounded_isOk_iff (d : Dfa) (k : Nat) :
    (from_regex_bounded d k).isOk = true ↔ Dfa.num_states d ≤ k := by
  rw [from_regex_bounded, determinizeBounded, Dfa.num_states]
  by_cases h : d.states.length > k
  · rw [if_pos h]
    constructor
    · intro hok
      exact absurd hok (by simp [Except.map, Except.isOk, Except.toBool])
    · intro hle
      omega
  · rw [if_neg h]
    constructor
    · intro _
      omega
    · intro _
      simp [Except.map, Except.isOk, Except.toBool]

/-! ## Claim C5: partition invariants of the minimizer -/

/-- The partition invariants the minimizer maintains: every class holds only
valid state indices, classes are accept-uniform, pairwise disjoint, and cover
all states. -/
def PartInvP (d : Dfa) (parts : List (List Nat)) : Prop :=
  (∀ p ∈ parts, ∀ s ∈ p, s < d.states.length) ∧
  (∀ p ∈ parts, ∀ i ∈ p, ∀ j ∈ p, acceptAt d i = acceptAt d j) ∧
  parts.Pairwise (fun p q => ∀ s ∈ p, s ∉ q) ∧
  (∀ s, s < d.states.length → ∃ p, p ∈ parts ∧ s ∈ p)

/-- The partition component of `splitAgainst` is exactly `refinePartition`:
the worklist bookkeeping does not influence the splitting. -/
theorem splitAgainst_fst (s : List Nat) :
    ∀ (parts dists : List (List Nat)),
      (splitAgainst s parts dists).1 = refinePartition parts s := by
  intro parts
  induction parts with
  | nil => intro dists; rfl
  | cons y rest ih =>
      intro dists
      rw [splitAgainst, refinePartition, List.flatMap_cons]
      cases hy : splitSet y s with
      | none => simpa [refinePartition] using ih _
      | some yy => simpa [refinePartition] using ih _

/-- Every piece a class is split into is a subset of the class. -/
theorem splitPieces_sub (p s : List Nat) :
    ∀ x ∈ (match splitSet p s with
            | some yy => [yy.1, yy.2]
            | none => [p]),
      ∀ z ∈ x, z ∈ p := by
  cases hsp : splitSet p s with
  | none =>
      intro x hx
      simp only [List.mem_singleton] at hx
      subst hx
      exact fun z hz => hz
  | some yy =>
      rw [splitSet] at hsp
      split at hsp
      · cases hsp
        intro x hx
        simp only [List.mem_cons, List.not_mem_nil, or_false] at hx
        rcases hx with hx | hx <;> subst hx <;>
          exact fun z hz => List.mem_of_mem_filter hz
      · cases hsp

/-- Each refined class is a subset of an original class. -/
theorem refinePartition_sub (parts : List (List Nat)) (s : List Nat) :
    ∀ q ∈ refinePartition parts s, ∃ p ∈ parts, ∀ x ∈ q, x ∈ p := by
  intro q hq
  rw [refinePartition, List.mem_flatMap] at hq
  obtain ⟨p, hp, hq⟩ := hq
  exact ⟨p, hp, splitPieces_sub p s q hq⟩

/-- The two halves produced by a successful split are the two filters. -/
theorem splitSet_eq_some (p s : List Nat) (yy : List Nat × List Nat)
    (h : splitSet p s = some yy) :
    yy.1 = p.filter (fun z => s.contains z) ∧ yy.2 = p.filter (fun z => !s.contains z) := by
  rw [splitSet] at h
  split at h
  · cases h
    exact ⟨rfl, rfl⟩
  · cases h

/-- Every member of an original class lands in some refined class. -/
theorem refinePartition_cover (parts : List (List Nat)) (s : List Nat) :
    ∀ x p, p ∈ parts → x ∈ p → ∃ q ∈ refinePartition parts s, x ∈ q := by
  intro x p hp hx
  cases hsp : splitSet p s with
  | none =>
      refine ⟨p, ?_, hx⟩
      rw [refinePartition, List.mem_flatMap]
      exact ⟨p, hp, by rw [hsp]; simp⟩
  | some yy =>
      obtain ⟨h1, h2⟩ := splitSet_eq_some p s yy hsp
      by_cases hmem : s.contains x
      · refine ⟨yy.1, ?_, ?_⟩
        · rw [refinePartition, List.mem_flatMap]
          exact ⟨p, hp, by rw [hsp]; simp⟩
        · rw [h1, List.mem_filter]
          exact ⟨hx, hmem⟩
      · refine ⟨yy.2, ?_, ?_⟩
        · rw [refinePartition, List.mem_flatMap]
          exact ⟨p, hp, by rw [hsp]; simp⟩
        · rw [h2, List.mem_filter]
          refine ⟨hx, ?_⟩
          have hf : s.contains x = false := by
            simp only [Bool.not_eq_true] at hmem
            exact hmem
          simp only [hf, Bool.not_false]

/-- Refinement preserves pairwise disjointness. -/
theorem refinePartition_pairwise (parts : List (List Nat)) (s : List Nat)
    (h : parts.Pairwise (fun p q => ∀ x ∈ p, x ∉ q)) :
    (refinePartition parts s).Pairwise (fun p q => ∀ x ∈ p, x ∉ q) := by
  rw [refinePartition, List.pairwise_flatMap]
  constructor
  · intro p _
    cases hsp : splitSet p s with
    | none => simp
    | some yy =>
        rw [splitSet] at hsp
        split at hsp
        · cases hsp
          refine List.pairwise_cons.mpr ⟨?_, by simp⟩
          intro q hq x hx
          simp only [List.mem_cons, List.not_mem_nil, or_false] at hq
          subst hq
          rw [List.mem_filter] at hx
          rw [List.mem_filter]
          intro hcon
          rw [hx.2] at hcon
          exact absurd hcon.2 (by simp)
        · cases hsp
  · refine List.Pairwise.imp ?_ h
    intro p q hpq x hxp y hyq z hzx
    intro hzy
    exact hpq z (splitPieces_sub p s x hxp z hzx) (splitPieces_sub q s y hyq z hzy)

/-- Refinement preserves the whole invariant bundle. -/
theorem refinePartition_inv (d : Dfa) (parts : List (List Nat)) (s : List Nat)
    (h : PartInvP d parts) : PartInvP d (refinePartition parts s) := by
  obtain ⟨hb, hu, hdj, hc⟩ := h
  refine ⟨?_, ?_, refinePartition_pairwise parts s hdj, ?_⟩
  · intro q hq x hx
    obtain ⟨p, hp, hsub⟩ := refinePartition_sub parts s q hq
    exact hb p hp x (hsub x hx)
  · intro q hq i hi j hj
    obtain ⟨p, hp, hsub⟩ := refinePartition_sub parts s q hq
    exact hu p hp i (hsub i hi) j (hsub j hj)
  · intro x hx
    obtain ⟨p, hp, hxp⟩ := hc x hx
    obtain ⟨q, hq, hxq⟩ := refinePartition_cover parts s x p hp hxp
    exact ⟨q, hq, hxq⟩

/-- The invariant bundle survives the fold over all preimage sets of one
distinguisher. -/
theorem foldl_splitAgainst_inv (d : Dfa) (sets : List (List Nat)) :
    ∀ pd : List (List Nat) × List (List Nat), PartInvP d pd.1 →
      PartInvP d (List.foldl (fun pd s => splitAgainst s pd.1 pd.2) pd sets).1 := by
  induction sets with
  | nil => intro pd h; exact h
  | cons s ss ih =>
      intro pd h
      rw [List.foldl_cons]
      apply ih
      rw [splitAgainst_fst]
      exact refinePartition_inv d pd.1 s h

theorem processDistinguisher_inv (d : Dfa) (dist : List Nat)
    (partition dists : List (List Nat)) (h : PartInvP d partition) :
    PartInvP d (processDistinguisher d dist partition dists).1 := by
  rw [processDistinguisher]
  exact foldl_splitAgainst_inv d _ (partition, dists) h

theorem minimizeLoop_inv (d : Dfa) :
    ∀ fuel partition dists, PartInvP d partition →
      PartInvP d (minimizeLoop d fuel partition dists) := by
  intro fuel
  induction fuel with
  | zero => intro p dd h; exact h
  | succ n ih =>
      intro p dd h
      cases dd with
      | nil => exact h
      | cons dist rest => exact ih _ _ (processDistinguisher_inv d dist p rest h)

/-! ### The initial partition: accept grouping -/

/-- Keys appearing after an insertion are old keys or the inserted key. -/
theorem addToPartition_keys (assoc : List (Accept × List Nat)) (a : Accept) (idx : Nat) :
    ∀ kv ∈ addToPartition assoc a idx, kv.1 ∈ assoc.map (fun x => x.1) ∨ kv.1 = a := by
  induction assoc with
  | nil =>
      intro kv hkv
      simp only [addToPartition, List.mem_singleton] at hkv
      subst hkv
      exact Or.inr rfl
  | cons hd tl ih =>
      intro kv hkv
      rw [addToPartition] at hkv
      by_cases hk : hd.1 = a
      · rw [if_pos hk] at hkv
        rcases List.mem_cons.mp hkv with heq | hmem
        · rw [heq]
          exact Or.inl (List.mem_map.mpr ⟨hd, List.mem_cons_self hd tl, rfl⟩)
        · exact Or.inl (List.mem_map.mpr ⟨kv, List.mem_cons_of_mem hd hmem, rfl⟩)
      · rw [if_neg hk] at hkv
        rcases List.mem_cons.mp hkv with heq | hmem
        · rw [heq]
          exact Or.inl (List.mem_map.mpr ⟨hd, List.mem_cons_self hd tl, rfl⟩)
        · rcases ih kv hmem with h | h
          · obtain ⟨kv', hkv', hfst⟩ := List.mem_map.mp h
            exact Or.inl (List.mem_map.mpr ⟨kv', List.mem_cons_of_mem hd hkv', hfst⟩)
          · exact Or.inr h

/-- Insertion preserves distinctness of keys. -/
theorem addToPartition_pairwise (assoc : List (Accept × List Nat)) (a : Accept) (idx : Nat)
    (h : assoc.Pairwise (fun x y => x.1 ≠ y.1)) :
    (addToPartition assoc a idx).Pairwise (fun x y => x.1 ≠ y.1) := by
  induction assoc with
  | nil => simp [addToPartition]
  | cons hd tl ih =>
      rw [List.pairwise_cons] at h
      rw [addToPartition]
      by_cases hk : hd.1 = a
      · rw [if_pos hk]
        exact List.pairwise_cons.mpr ⟨h.1, h.2⟩
      · rw [if_neg hk]
        refine List.pairwise_cons.mpr ⟨?_, ih h.2⟩
        intro kv hkv
        rcases addToPartition_keys tl a idx kv hkv with hmem | hmem
        · rw [List.mem_map] at hmem
          obtain ⟨kv', hkv', hfst⟩ := hmem
          rw [← hfst]
          exact h.1 kv' hkv'
        · rw [hmem]
          exact hk

/-- Where each member of an updated class comes from. -/
theorem addToPartition_mem (assoc : List (Accept × List Nat)) (a : Accept) (idx : Nat) :
    ∀ kv ∈ addToPartition assoc a idx, ∀ i ∈ kv.2,
      (∃ kv' ∈ assoc, i ∈ kv'.2 ∧ kv'.1 = kv.1) ∨ (i = idx ∧ kv.1 = a) := by
  induction assoc with
  | nil =>
      intro kv hkv i hi
      simp only [addToPartition, List.mem_singleton] at hkv
      subst hkv
      simp only [List.mem_singleton] at hi
      exact Or.inr ⟨hi, rfl⟩
  | cons hd tl ih =>
      intro kv hkv i hi
      rw [addToPartition] at hkv
      by_cases hk : hd.1 = a
      · rw [if_pos hk] at hkv
        rcases List.mem_cons.mp hkv with hkv | hkv
        · subst hkv
          simp only [List.mem_append, List.mem_singleton] at hi
          rcases hi with hi | hi
          · exact Or.inl ⟨hd, List.mem_cons_self hd tl, hi, rfl⟩
          · exact Or.inr ⟨hi, hk⟩
        · exact Or.inl ⟨kv, List.mem_cons_of_mem hd hkv, hi, rfl⟩
      · rw [if_neg hk] at hkv
        rcases List.mem_cons.mp hkv with hkv | hkv
        · subst hkv
          exact Or.inl ⟨hd, List.mem_cons_self hd tl, hi, rfl⟩
        · rcases ih kv hkv i hi with ⟨kv', hkv', hik, hfst⟩ | hr
          · exact Or.inl ⟨kv', List.mem_cons_of_mem hd hkv', hik, hfst⟩
          · exact Or.inr hr

/-- Old members stay covered, and the inserted index is covered, after an
insertion. -/
theorem addToPartition_cover (assoc : List (Accept × List Nat)) (a : Accept) (idx : Nat) :
    (∀ kv' ∈ assoc, ∀ i ∈ kv'.2, ∃ kv ∈ addToPartition assoc a idx, i ∈ kv.2) ∧
      (∃ kv ∈ addToPartition assoc a idx, idx ∈ kv.2) := by
  induction assoc with
  | nil =>
      refine ⟨by simp, ?_⟩
      exact ⟨(a, [idx]), by simp [addToPartition]⟩
  | cons hd tl ih =>
      by_cases hk : hd.1 = a
      · constructor
        · intro kv' hkv' i hi
          rcases List.mem_cons.mp hkv' with heq | hmem
          · refine ⟨(hd.1, hd.2 ++ [idx]), ?_, ?_⟩
            · rw [addToPartition, if_pos hk]
              exact List.mem_cons_self _ _
            · rw [heq] at hi
              exact List.mem_append_left _ hi
          · refine ⟨kv', ?_, hi⟩
            rw [addToPartition, if_pos hk]
            exact List.mem_cons_of_mem _ hmem
        · refine ⟨(hd.1, hd.2 ++ [idx]), ?_, ?_⟩
          · rw [addToPartition, if_pos hk]
            exact List.mem_cons_self _ _
          · exact List.mem_append_right _ (List.mem_singleton.mpr rfl)
      · constructor
        · intro kv' hkv' i hi
          rcases List.mem_cons.mp hkv' with heq | hmem
          · refine ⟨hd, ?_, ?_⟩
            · rw [addToPartition, if_neg hk]
              exact List.mem_cons_self _ _
            · rw [heq] at hi
              exact hi
          · obtain ⟨kv, hkv, hik⟩ := ih.1 kv' hmem i hi
            refine ⟨kv, ?_, hik⟩
            rw [addToPartition, if_neg hk]
            exact List.mem_cons_of_mem _ hkv
        · obtain ⟨kv, hkv, hik⟩ := ih.2
          refine ⟨kv, ?_, hik⟩
          rw [addToPartition, if_neg hk]
          exact List.mem_cons_of_mem _ hkv

/-- The grouping traversal: all classes hold valid indices with accept equal to
the class key, all walked states are covered, and keys stay distinct. -/
theorem apAssocAux_inv (d : Dfa) :
    ∀ (sts : List DfaState) (idx : Nat) (assoc : List (Accept × List Nat)),
      d.states.drop idx = sts →
      idx ≤ d.states.length →
      (∀ kv ∈ assoc, ∀ i ∈ kv.2, i < idx ∧ acceptAt d i = kv.1) →
      (∀ i, i < idx → ∃ kv ∈ assoc, i ∈ kv.2) →
      assoc.Pairwise (fun x y => x.1 ≠ y.1) →
      ((∀ kv ∈ apAssocAux assoc idx sts, ∀ i ∈ kv.2,
          i < d.states.length ∧ acceptAt d i = kv.1) ∧
        (∀ i, i < d.states.length → ∃ kv ∈ apAssocAux assoc idx sts, i ∈ kv.2) ∧
        (apAssocAux assoc idx sts).Pairwise (fun x y => x.1 ≠ y.1)) := by
  intro sts
  induction sts with
  | nil =>
      intro idx assoc hdrop hle hmem hcov hpw
      have hlen : d.states.length ≤ idx := by
        have hh := congrArg List.length hdrop
        rw [List.length_drop] at hh
        simp only [List.length_nil] at hh
        omega
      have hidx : idx = d.states.length := Nat.le_antisymm hle hlen
      subst hidx
      exact ⟨hmem, hcov, hpw⟩
  | cons st rest ih =>
      intro idx assoc hdrop hle hmem hcov hpw
      have hidxlt : idx < d.states.length := by
        have hh := congrArg List.length hdrop
        rw [List.length_drop] at hh
        simp only [List.length_cons] at hh
        omega
      have hget : d.states[idx]? = some st := by
        rw [← List.head?_drop, hdrop]
        rfl
      have hacc : acceptAt d idx = st.accept := by
        rw [acceptAt, List.getD_eq_getElem?_getD, hget]
        rfl
      have hdrop2 : d.states.drop (idx + 1) = rest := by
        rw [← List.tail_drop, hdrop]
        rfl
      refine ih (idx + 1) (addToPartition assoc st.accept idx) hdrop2 hidxlt ?_ ?_
        (addToPartition_pairwise assoc st.accept idx hpw)
      · intro kv hkv i hi
        rcases addToPartition_mem assoc st.accept idx kv hkv i hi with
          ⟨kv', hkv', hik, hfst⟩ | ⟨hie, hka⟩
        · obtain ⟨hlt, haeq⟩ := hmem kv' hkv' i hik
          exact ⟨Nat.lt_succ_of_lt hlt, hfst ▸ haeq⟩
        · refine ⟨by omega, ?_⟩
          rw [hie, hacc, hka]
      · intro i hilt
        rcases Nat.lt_succ_iff_lt_or_eq.mp hilt with hi | hi
        · obtain ⟨kv, hkv, hik⟩ := hcov i hi
          exact (addToPartition_cover assoc st.accept idx).1 kv hkv i hik
        · rw [hi]
          exact (addToPartition_cover assoc st.accept idx).2

/-- Distinct keys make class entries unique per key. -/
theorem assoc_key_unique {assoc : List (Accept × List Nat)}
    (h : assoc.Pairwise (fun x y => x.1 ≠ y.1)) :
    ∀ kv1 ∈ assoc, ∀ kv2 ∈ assoc, kv1.1 = kv2.1 → kv1 = kv2 := by
  induction assoc with
  | nil => simp
  | cons hd tl ih =>
      rw [List.pairwise_cons] at h
      intro kv1 h1 kv2 h2 hk
      rcases List.mem_cons.mp h1 with e1 | m1 <;> rcases List.mem_cons.mp h2 with e2 | m2
      · rw [e1, e2]
      · rw [e1] at hk
        exact absurd hk (h.1 kv2 m2)
      · rw [e2] at hk
        exact absurd hk.symm (h.1 kv1 m1)
      · exact ih h.2 kv1 m1 kv2 m2 hk

/-- A fold of refinement passes keeps classes inside `nevers`, pairwise
disjoint, and covering `nevers`. -/
theorem foldl_refine_props (nevers : List Nat) (sets : List (List Nat)) :
    ∀ parts,
      (∀ p ∈ parts, ∀ i ∈ p, i ∈ nevers) →
      parts.Pairwise (fun p q => ∀ s ∈ p, s ∉ q) →
      (∀ i ∈ nevers, ∃ p ∈ parts, i ∈ p) →
      ((∀ p ∈ sets.foldl refinePartition parts, ∀ i ∈ p, i ∈ nevers) ∧
        (sets.foldl refinePartition parts).Pairwise (fun p q => ∀ s ∈ p, s ∉ q) ∧
        (∀ i ∈ nevers, ∃ p ∈ sets.foldl refinePartition parts, i ∈ p)) := by
  induction sets with
  | nil => intro parts h1 h2 h3; exact ⟨h1, h2, h3⟩
  | cons s ss ih =>
      intro parts h1 h2 h3
      rw [List.foldl_cons]
      refine ih (refinePartition parts s) ?_ (refinePartition_pairwise parts s h2) ?_
      · intro p hp i hi
        obtain ⟨q, hq, hsub⟩ := refinePartition_sub parts s p hp
        exact h1 q hq i (hsub i hi)
      · intro i hi
        obtain ⟨p, hp, hip⟩ := h3 i hi
        exact refinePartition_cover parts s i p hp hip

/-- `reject_partition` only refines the never set: classes are inside it,
pairwise disjoint, and cover it. -/
theorem reject_partition_props (d : Dfa) (nevers : List Nat) :
    (∀ p ∈ Dfa.reject_partition d nevers, ∀ i ∈ p, i ∈ nevers) ∧
      (Dfa.reject_partition d nevers).Pairwise (fun p q => ∀ s ∈ p, s ∉ q) ∧
      (∀ i ∈ nevers, ∃ p ∈ Dfa.reject_partition d nevers, i ∈ p) := by
  rw [Dfa.reject_partition]
  by_cases hne : nevers.isEmpty
  · rw [if_pos hne]
    have hnil : nevers = [] := by
      cases nevers with
      | nil => rfl
      | cons a l => simp [List.isEmpty] at hne
    subst hnil
    exact ⟨by simp, by simp, by simp⟩
  · rw [if_neg hne]
    refine foldl_refine_props nevers _ [nevers] ?_ ?_ ?_
    · intro p hp i hi
      simp only [List.mem_singleton] at hp
      subst hp
      exact hi
    · simp
    · intro i hi
      exact ⟨nevers, List.mem_singleton.mpr rfl, hi⟩

/-- Boolean equality on `Accept` is propositional equality. -/
theorem accept_beq_eq {a b : Accept} (h : (a == b) = true) : a = b :=
  of_decide_eq_true h

/-- The never class holds valid never-accepting states. -/
theorem accept_partition_nevers (d : Dfa) :
    ∀ i ∈ (Dfa.accept_partition d).1,
      i < d.states.length ∧ acceptAt d i = Accept.never := by
  have hfin := apAssocAux_inv d d.states 0 [] (by simp) (Nat.zero_le _)
    (by simp) (by simp) (by simp)
  intro i hi
  rw [Dfa.accept_partition] at hi
  dsimp only at hi
  cases hf : List.find? (fun kv => kv.1 == Accept.never) (apAssocAux [] 0 d.states) with
  | none => rw [hf] at hi; simp at hi
  | some kv0 =>
      rw [hf] at hi
      simp at hi
      have hkey : kv0.1 = Accept.never := by
        have hh := List.find?_some hf
        simpa using hh
      have hmem := hfin.1 kv0 (List.mem_of_find?_eq_some hf) i hi
      exact ⟨hmem.1, by rw [hmem.2, hkey]⟩

/-- Each non-never class comes from an assoc entry with a non-never key, and
its members all accept with that key. -/
theorem accept_partition_others (d : Dfa) :
    ∀ v ∈ (Dfa.accept_partition d).2,
      ∃ kv, kv ∈ apAssocAux [] 0 d.states ∧ kv.2 = v ∧ kv.1 ≠ Accept.never ∧
        ∀ i ∈ v, i < d.states.length ∧ acceptAt d i = kv.1 := by
  have hfin := apAssocAux_inv d d.states 0 [] (by simp) (Nat.zero_le _)
    (by simp) (by simp) (by simp)
  intro v hv
  rw [Dfa.accept_partition] at hv
  simp only [List.mem_map] at hv
  obtain ⟨kv, hkv, hsnd⟩ := hv
  have hmem := List.mem_of_mem_filter hkv
  have hpred := List.of_mem_filter hkv
  simp only [Accept.is_never, Bool.not_eq_true'] at hpred
  have hkey : kv.1 ≠ Accept.never := by
    intro hcon
    rw [hcon] at hpred
    simp at hpred
  refine ⟨kv, hmem, hsnd, hkey, ?_⟩
  intro i hi
  rw [← hsnd] at hi
  exact hfin.1 kv hmem i hi

/-- Every valid state is in the never class or in a non-never class. -/
theorem accept_partition_cover (d : Dfa) :
    ∀ i, i < d.states.length →
      i ∈ (Dfa.accept_partition d).1 ∨ ∃ v ∈ (Dfa.accept_partition d).2, i ∈ v := by
  have hfin := apAssocAux_inv d d.states 0 [] (by simp) (Nat.zero_le _)
    (by simp) (by simp) (by simp)
  intro i hi
  obtain ⟨kv, hkv, hik⟩ := hfin.2.1 i hi
  by_cases hkey : kv.1 = Accept.never
  · left
    rw [Dfa.accept_partition]
    simp only
    have hsome : (List.find? (fun kv => kv.1 == Accept.never)
        (apAssocAux [] 0 d.states)).isSome = true := by
      rw [List.find?_isSome]
      exact ⟨kv, hkv, by simp [hkey]⟩
    cases hf : List.find? (fun kv => kv.1 == Accept.never) (apAssocAux [] 0 d.states) with
    | none => rw [hf] at hsome; simp at hsome
    | some kv0 =>
        have hkey0 : kv0.1 = Accept.never := by
          have hh := List.find?_some hf
          simpa using hh
        have heq : kv = kv0 := assoc_key_unique hfin.2.2 kv hkv kv0
          (List.mem_of_find?_eq_some hf) (by rw [hkey, hkey0])
        simp only [Option.map_some', Option.getD_some]
        rw [← heq]
        exact hik
  · right
    rw [Dfa.accept_partition]
    simp only
    refine ⟨kv.2, ?_, hik⟩
    rw [List.mem_map]
    refine ⟨kv, ?_, rfl⟩
    rw [List.mem_filter]
    refine ⟨hkv, ?_⟩
    simp only [Accept.is_never, Bool.not_eq_true']
    exact decide_eq_false hkey

/-- The initial partition of the minimizer satisfies the invariant bundle. -/
theorem initParts_inv (d : Dfa) :
    PartInvP d ((Dfa.accept_partition d).2
      ++ Dfa.reject_partition d (Dfa.accept_partition d).1) := by
  obtain ⟨hrsub, hrpw, hrcov⟩ := reject_partition_props d (Dfa.accept_partition d).1
  have hnev := accept_partition_nevers d
  have hoth := accept_partition_others d
  refine ⟨?_, ?_, ?_, ?_⟩
  · intro p hp s hs
    rcases List.mem_append.mp hp with hp | hp
    · obtain ⟨kv, _, _, _, hprop⟩ := hoth p hp
      exact (hprop s hs).1
    · exact (hnev s (hrsub p hp s hs)).1
  · intro p hp i hi j hj
    rcases List.mem_append.mp hp with hp | hp
    · obtain ⟨kv, _, _, _, hprop⟩ := hoth p hp
      rw [(hprop i hi).2, (hprop j hj).2]
    · rw [(hnev i (hrsub p hp i hi)).2, (hnev j (hrsub p hp j hj)).2]
  · rw [List.pairwise_append]
    refine ⟨?_, hrpw, ?_⟩
    · -- two distinct non-never classes are disjoint: keys differ
      have hfin := apAssocAux_inv d d.states 0 [] (by simp) (Nat.zero_le _)
        (by simp) (by simp) (by simp)
      rw [Dfa.accept_partition]
      simp only
      rw [List.pairwise_map]
      have hpwf : (List.filter (fun kv => !(Accept.is_never kv.1))
          (apAssocAux [] 0 d.states)).Pairwise (fun x y => x.1 ≠ y.1) :=
        List.Pairwise.filter _ hfin.2.2
      refine List.Pairwise.imp_of_mem ?_ hpwf
      intro a b ha hb hne s hsa hsb
      have hma := hfin.1 a (List.mem_of_mem_filter ha) s hsa
      have hmb := hfin.1 b (List.mem_of_mem_filter hb) s hsb
      exact hne (by rw [← hma.2, ← hmb.2])
    · intro p hp q hq s hsp hsq
      obtain ⟨kv, _, _, hkey, hprop⟩ := hoth p hp
      have hs1 : acceptAt d s = kv.1 := (hprop s hsp).2
      have hs2 : acceptAt d s = Accept.never := (hnev s (hrsub q hq s hsq)).2
      exact hkey (by rw [← hs1, hs2])
  · intro s hs
    rcases accept_partition_cover d s hs with hsn | ⟨v, hv, hsv⟩
    · obtain ⟨p, hp, hip⟩ := hrcov s hsn
      exact ⟨p, List.mem_append_right _ hp, hip⟩
    · exact ⟨v, List.mem_append_left _ hv, hsv⟩

/-- The computed minimizer partition satisfies the invariant bundle. -/
theorem minimizePartition_inv (d : Dfa) : PartInvP d (Dfa.minimizePartition d) := by
  rw [Dfa.minimizePartition]
  exact minimizeLoop_inv d _ _ _ (initParts_inv d)

/-- Writing a class: members read back the written index, others are
untouched. -/
theorem foldl_set_getD (p : List Nat) :
    ∀ (v : List Nat) (i s : Nat),
      (p.foldl (fun acc x => acc.set x i) v).getD s 0
        = if s ∈ p ∧ s < v.length then i else v.getD s 0 := by
  induction p with
  | nil =>
      intro v i s
      rw [if_neg (by simp)]
      rfl
  | cons x p ih =>
      intro v i s
      rw [List.foldl_cons, ih]
      rw [List.length_set]
      by_cases hp : s ∈ p ∧ s < v.length
      · rw [if_pos hp, if_pos ⟨List.mem_cons_of_mem x hp.1, hp.2⟩]
      · rw [if_neg hp]
        rw [List.getD_eq_getElem?_getD, List.getElem?_set, List.getD_eq_getElem?_getD]
        by_cases hx : x = s
        · subst hx
          by_cases hlen : x < v.length
          · rw [if_pos rfl, if_pos hlen, if_pos ⟨List.mem_cons_self x p, hlen⟩]
            rfl
          · rw [if_pos rfl, if_neg hlen, if_neg (fun hc => hlen hc.2),
              List.getElem?_eq_none (Nat.le_of_not_lt hlen)]
        · rw [if_neg hx]
          by_cases hmem : s ∈ x :: p ∧ s < v.length
          · exact absurd ⟨(List.mem_cons.mp hmem.1).resolve_left
              (fun hc => hx hc.symm), hmem.2⟩ hp
          · rw [if_neg hmem]

/-- The class-assignment length never changes. -/
theorem foldl_set_length (p : List Nat) :
    ∀ (v : List Nat) (i : Nat),
      (p.foldl (fun acc x => acc.set x i) v).length = v.length := by
  induction p with
  | nil => intro v i; rfl
  | cons x p ih =>
      intro v i
      rw [List.foldl_cons, ih, List.length_set]

/-- States in no remaining class keep their current assignment. -/
theorem oldToNewAux_not_mem (parts : List (List Nat)) :
    ∀ (i : Nat) (v : List Nat) (s : Nat),
      (∀ p ∈ parts, s ∉ p) →
      (oldToNewAux i v parts).getD s 0 = v.getD s 0 := by
  induction parts with
  | nil => intro i v s _; rfl
  | cons p rest ih =>
      intro i v s h
      rw [oldToNewAux, ih]
      · rw [foldl_set_getD,
          if_neg (fun hc => h p (List.mem_cons_self p rest) hc.1)]
      · intro q hq
        exact h q (List.mem_cons_of_mem p hq)

/-- A state of the `j`-th class is assigned index `i + j` when the classes are
pairwise disjoint. -/
theorem oldToNewAux_mem (parts : List (List Nat)) :
    ∀ (i : Nat) (v : List Nat) (s j : Nat) (p : List Nat),
      parts[j]? = some p → s ∈ p → s < v.length →
      parts.Pairwise (fun p q => ∀ x ∈ p, x ∉ q) →
      (oldToNewAux i v parts).getD s 0 = i + j := by
  induction parts with
  | nil => intro i v s j p hj; simp at hj
  | cons p0 rest ih =>
      intro i v s j p hj hs hlen hpw
      rw [List.pairwise_cons] at hpw
      cases j with
      | zero =>
          simp only [List.getElem?_cons_zero, Option.some.injEq] at hj
          subst hj
          rw [oldToNewAux, oldToNewAux_not_mem]
          · rw [foldl_set_getD, if_pos ⟨hs, hlen⟩]
            omega
          · intro q hq hmem
            exact hpw.1 q hq s hs hmem
      | succ j =>
          simp only [List.getElem?_cons_succ] at hj
          have hres := ih (i + 1) (p0.foldl (fun acc x => acc.set x i) v) s j p hj hs
            (by rw [foldl_set_length]; exact hlen) hpw.2
          rw [oldToNewAux, hres]
          omega

/-- C5: any two states of `D` that `Dfa::minimize` maps to the same state of
the minimized DFA have structurally equal `Accept` values (the initial
partition groups states by `Accept` and refinement only ever splits classes).
-/
theorem minimize_same_class_same_accept (d : Dfa) (s1 s2 : Nat)
    (h1 : s1 < Dfa.num_states d) (h2 : s2 < Dfa.num_states d)
    (heq : (Dfa.old_state_to_new d).getD s1 0 = (Dfa.old_state_to_new d).getD s2 0) :
    acceptAt d s1 = acceptAt d s2 := by
  rw [Dfa.num_states] at h1 h2
  obtain ⟨hb, hu, hpw, hcov⟩ := minimizePartition_inv d
  obtain ⟨p1, hp1, hs1⟩ := hcov s1 h1
  obtain ⟨p2, hp2, hs2⟩ := hcov s2 h2
  obtain ⟨j1, hj1⟩ := List.mem_iff_getElem?.mp hp1
  obtain ⟨j2, hj2⟩ := List.mem_iff_getElem?.mp hp2
  rw [Dfa.old_state_to_new,
    oldToNewAux_mem (Dfa.minimizePartition d) 0 _ s1 j1 p1 hj1 hs1
      (by rw [List.length_replicate]; exact h1) hpw,
    oldToNewAux_mem (Dfa.minimizePartition d) 0 _ s2 j2 p2 hj2 hs2
      (by rw [List.length_replicate]; exact h2) hpw] at heq
  have hjj : j1 = j2 := by omega
  subst hjj
  rw [hj1] at hj2
  cases hj2
  exact hu p1 hp1 s1 hs1 s2 hs2

/-- Witness for C5: in `dfaShrink`, states 1 and 2 are mapped to the same
minimized state, and indeed their accepts agree. -/
theorem minimize_same_class_same_accept_witness :
    acceptAt dfaShrink 1 = acceptAt dfaShrink 2 :=
  minimize_same_class_same_accept dfaShrink 1 2 (by decide) (by decide) (by decide)

/-! ## Claim C3: shape of compiled chains -/

/-- A non-terminal (fall-through) instruction: not a `Branch`, not a
`Reject`. -/
def goodMid (x : Inst) : Prop := (∀ cm, x ≠ Inst.Branch cm) ∧ x ≠ Inst.Reject

/-- The claim C3 shape of an emitted instruction list `out` with terminal
state `term`. -/
def chainShape (d : Dfa) (out : List Inst) (term : Nat) : Prop :=
  out ≠ [] ∧
    (∀ x ∈ out.dropLast, goodMid x) ∧
    ((∃ cm, out.getLast? = some (Inst.Branch cm)) ∨
      out.getLast? = some Inst.Reject ∨
      out.getLast? = some (Inst.Acc Accept.always)) ∧
    ((∃ cm, out.getLast? = some (Inst.Branch cm)) ↔ transAt d term ≠ []) ∧
    (out.getLast? = some Inst.Reject ↔
      (transAt d term = [] ∧ acceptAt d term ≠ Accept.always))

/-- The loop invariant on the accumulators: everything emitted so far falls
through, and with no pending literal the last emitted instruction is a
`Char` (or nothing). -/
def chainAcc (ret : List Inst) (lit : List Nat) : Prop :=
  (∀ x ∈ ret, goodMid x) ∧
    (lit = [] → ret = [] ∨ ∃ cs, ret.getLast? = some (Inst.Char cs))

theorem buildChainFinish_spec (d : Dfa) (ret : List Inst) (lit : List Nat) (st : Nat)
    (hacc : chainAcc ret lit) :
    chainShape d (buildChainFinish d ret lit st) st := by
  obtain ⟨hmid, hlast⟩ := hacc
  rw [buildChainFinish]
  set ret1 := if lit.isEmpty then ret else ret ++ [Inst.Literal lit] with hret1
  set ret2 := if (acceptAt d st).is_never then ret1 else ret1 ++ [Inst.Acc (acceptAt d st)]
    with hret2
  have hmid1 : ∀ x ∈ ret1, goodMid x := by
    rw [hret1]
    split
    · exact hmid
    · intro x hx
      rcases List.mem_append.mp hx with hx | hx
      · exact hmid x hx
      · rw [List.mem_singleton.mp hx]
        exact ⟨fun cm h => Inst.noConfusion h, fun h => Inst.noConfusion h⟩
  have hmid2 : ∀ x ∈ ret2, goodMid x := by
    rw [hret2]
    split
    · exact hmid1
    · intro x hx
      rcases List.mem_append.mp hx with hx | hx
      · exact hmid1 x hx
      · rw [List.mem_singleton.mp hx]
        exact ⟨fun cm h => Inst.noConfusion h, fun h => Inst.noConfusion h⟩
  have hkey : ret2.getLast? = some (Inst.Acc Accept.always) ↔
      acceptAt d st = Accept.always := by
    constructor
    · intro h
      rw [hret2] at h
      by_cases hnev : (acceptAt d st).is_never
      · rw [if_pos hnev] at h
        rw [hret1] at h
        by_cases hlit : lit.isEmpty
        · rw [if_pos hlit] at h
          have hl : lit = [] := by
            cases lit with
            | nil => rfl
            | cons a l => simp [List.isEmpty] at hlit
          rcases hlast hl with hnil | ⟨cs, hcs⟩
          · rw [hnil] at h
            exact absurd h (by simp)
          · rw [hcs] at h
            exact absurd (Option.some.inj h) (fun hh => Inst.noConfusion hh)
        · rw [if_neg hlit, List.getLast?_concat] at h
          exact absurd (Option.some.inj h) (fun hh => Inst.noConfusion hh)
      · rw [if_neg hnev, List.getLast?_concat] at h
        exact Inst.Acc.inj (Option.some.inj h)
    · intro h
      have hnev : ¬ (acceptAt d st).is_never := by
        rw [h]
        decide
      rw [hret2, if_neg hnev, List.getLast?_concat, h]
  by_cases htr : (transAt d st).isEmpty
  · -- terminal without outgoing transitions
    have htr' : transAt d st = [] := by
      cases htrl : transAt d st with
      | nil => rfl
      | cons a l => rw [htrl] at htr; simp [List.isEmpty] at htr
    rw [if_neg (by rw [htr]; decide)]
    by_cases hlast2 : ret2.getLast? = some (Inst.Acc Accept.always)
    · rw [if_neg (by rw [hlast2]; simp)]
      have hne : ret2 ≠ [] := by
        intro hnil
        rw [hnil] at hlast2
        exact absurd hlast2 (by simp)
      refine ⟨hne, ?_, Or.inr (Or.inr hlast2), ?_, ?_⟩
      · intro x hx
        exact hmid2 x (List.dropLast_sublist ret2 |>.mem hx)
      · constructor
        · intro ⟨cm, hcm⟩
          rw [hlast2] at hcm
          exact absurd (Option.some.inj hcm) (fun hh => Inst.noConfusion hh)
        · intro hcon
          exact absurd htr' hcon
      · constructor
        · intro hcm
          rw [hlast2] at hcm
          exact absurd (Option.some.inj hcm) (fun hh => Inst.noConfusion hh)
        · intro ⟨_, hcon⟩
          exact absurd (hkey.mp hlast2) hcon
    · rw [if_pos (by simpa using hlast2)]
      refine ⟨by simp, ?_, Or.inr (Or.inl (List.getLast?_concat _)), ?_, ?_⟩
      · intro x hx
        rw [List.dropLast_concat] at hx
        exact hmid2 x hx
      · rw [List.getLast?_concat]
        constructor
        · intro ⟨cm, hcm⟩
          exact absurd (Option.some.inj hcm) (fun hh => Inst.noConfusion hh)
        · intro hcon
          exact absurd htr' hcon
      · rw [List.getLast?_concat]
        constructor
        · intro _
          exact ⟨htr', fun hcon => hlast2 (hkey.mpr hcon)⟩
        · intro _
          rfl
  · -- terminal with outgoing transitions: ends in a Branch
    rw [if_pos (by simpa using htr)]
    have htr' : transAt d st ≠ [] := by
      intro hnil
      rw [hnil] at htr
      exact htr rfl
    by_cases hempty : ret2.isEmpty
    · rw [if_pos hempty]
      have hnil2 : ret2 = [] := by
        cases hr : ret2 with
        | nil => rfl
        | cons a l => rw [hr] at hempty; simp [List.isEmpty] at hempty
      cases hopt : loop_optimization (transAt d st) st with
      | some stp =>
          rw [hnil2]
          refine ⟨by simp, ?_, Or.inl ⟨stp.2, by simp⟩, ?_, ?_⟩
          · intro x hx
            simp only [List.nil_append] at hx
            have : x ∈ [Inst.LoopWhile stp.1] := by
              simpa using hx
            rw [List.mem_singleton.mp this]
            exact ⟨fun cm h => Inst.noConfusion h, fun h => Inst.noConfusion h⟩
          · simp only [List.nil_append]
            constructor
            · intro _
              exact htr'
            · intro _
              exact ⟨stp.2, by rfl⟩
          · simp only [List.nil_append]
            constructor
            · intro hcm
              simp at hcm
            · intro ⟨hcon, _⟩
              exact absurd hcon htr'
      | none =>
          rw [hnil2]
          refine ⟨by simp, by simp, Or.inl ⟨transAt d st, by simp⟩, ?_, ?_⟩
          · simp only [List.nil_append]
            constructor
            · intro _
              exact htr'
            · intro _
              exact ⟨transAt d st, by rfl⟩
          · simp only [List.nil_append]
            constructor
            · intro hcm
              simp at hcm
            · intro ⟨hcon, _⟩
              exact absurd hcon htr'
    · rw [if_neg hempty]
      refine ⟨by simp, ?_, Or.inl ⟨transAt d st, List.getLast?_concat _⟩, ?_, ?_⟩
      · intro x hx
        rw [List.dropLast_concat] at hx
        exact hmid2 x hx
      · rw [List.getLast?_concat]
        exact ⟨fun _ => htr', fun _ => ⟨transAt d st, rfl⟩⟩
      · rw [List.getLast?_concat]
        constructor
        · intro hcm
          exact absurd (Option.some.inj hcm) (fun hh => Inst.noConfusion hh)
        · intro ⟨hcon, _⟩
          exact absurd hcon htr'

theorem buildChainAux_spec (d : Dfa) :
    ∀ (fuel : Nat) (ret : List Inst) (lit : List Nat) (st : Nat),
      chainAcc ret lit →
      chainShape d (buildChainAux d fuel ret lit st) (chainTerminalAux d fuel st) := by
  intro fuel
  induction fuel with
  | zero =>
      intro ret lit st hacc
      exact buildChainFinish_spec d ret lit st hacc
  | succ n ih =>
      intro ret lit st hacc
      rw [buildChainAux, chainTerminalAux]
      by_cases hlink : Dfa.is_chain_link d st
      · rw [if_pos hlink, if_pos hlink]
        dsimp only
        have hmid' : ∀ x ∈ (if (acceptAt d st).is_never then ret
            else ret ++ [Inst.Acc (acceptAt d st)]), goodMid x := by
          split
          · exact hacc.1
          · intro x hx
            rcases List.mem_append.mp hx with hx | hx
            · exact hacc.1 x hx
            · rw [List.mem_singleton.mp hx]
              exact ⟨fun cm h => Inst.noConfusion h, fun h => Inst.noConfusion h⟩
        cases hsc : Dfa.single_char (transAt d st) with
        | some ch =>
            refine ih _ (lit ++ [ch]) _ ⟨hmid', ?_⟩
            intro h
            exact absurd h (by simp)
        | none =>
            refine ih _ [] _ ⟨?_, ?_⟩
            · intro x hx
              rcases List.mem_append.mp hx with hx | hx
              · rcases List.mem_append.mp (by
                    revert hx
                    split
                    · intro hx
                      exact List.mem_append_left _ hx
                    · intro hx
                      exact hx) with hx2 | hx2
                · exact hmid' x hx2
                · rw [List.mem_singleton.mp hx2]
                  exact ⟨fun cm h => Inst.noConfusion h, fun h => Inst.noConfusion h⟩
              · rw [List.mem_singleton.mp hx]
                exact ⟨fun cm h => Inst.noConfusion h, fun h => Inst.noConfusion h⟩
            · intro _
              exact Or.inr ⟨_, List.getLast?_concat _⟩
      · rw [if_neg hlink, if_neg hlink]
        exact buildChainFinish_spec d ret lit st hacc

/-- C3: for every DFA and every start state, the instruction list produced by
`Dfa::build_chain` is nonempty, contains `Branch` and `Reject` only as its
final instruction, ends in a `Branch` exactly when the terminal state of the
chain has outgoing transitions, otherwise in `Reject` or in `Acc(always)`, and
the trailing `Reject` appears exactly when the terminal state has no outgoing
transitions and its accept is not `always` (so the last emitted instruction is
not `Acc(always)`). -/
theorem build_chain_shape (d : Dfa) (st : Nat) :
    chainShape d (Dfa.build_chain d st) (Dfa.chain_terminal d st) := by
  rw [Dfa.build_chain, Dfa.chain_terminal]
  refine buildChainAux_spec d (d.states.length + 1) [] [] st ⟨by simp, ?_⟩
  intro _
  exact Or.inl rfl

/-! ## Claim C4: size of the minimized automaton -/

/-- Each entry after an insertion is an old entry, the fresh singleton class,
or an old class of the same key with the new index appended. -/
theorem addToPartition_shape (assoc : List (Accept × List Nat)) (a : Accept) (idx : Nat) :
    ∀ kv ∈ addToPartition assoc a idx,
      kv ∈ assoc ∨ kv = (a, [idx]) ∨ ∃ v, (kv.1, v) ∈ assoc ∧ kv.2 = v ++ [idx] := by
  induction assoc with
  | nil =>
      intro kv hkv
      simp only [addToPartition, List.mem_singleton] at hkv
      exact Or.inr (Or.inl hkv)
  | cons hd tl ih =>
      intro kv hkv
      rw [addToPartition] at hkv
      by_cases hk : hd.1 = a
      · rw [if_pos hk] at hkv
        rcases List.mem_cons.mp hkv with heq | hmem
        · refine Or.inr (Or.inr ⟨hd.2, ?_, ?_⟩)
          · rw [heq]
            exact List.mem_cons_self hd tl
          · rw [heq]
        · exact Or.inl (List.mem_cons_of_mem hd hmem)
      · rw [if_neg hk] at hkv
        rcases List.mem_cons.mp hkv with heq | hmem
        · rw [heq]
          exact Or.inl (List.mem_cons_self hd tl)
        · rcases ih kv hmem with h | h | ⟨v, hv, hsnd⟩
          · exact Or.inl (List.mem_cons_of_mem hd h)
          · exact Or.inr (Or.inl h)
          · exact Or.inr (Or.inr ⟨v, List.mem_cons_of_mem hd hv, hsnd⟩)

/-- All classes built by the grouping traversal are nonempty and
duplicate-free. -/
theorem apAssocAux_nodup :
    ∀ (sts : List DfaState) (idx : Nat) (assoc : List (Accept × List Nat)),
      (∀ kv ∈ assoc, ∀ i ∈ kv.2, i < idx) →
      (∀ kv ∈ assoc, kv.2 ≠ [] ∧ kv.2.Nodup) →
      ∀ kv ∈ apAssocAux assoc idx sts, kv.2 ≠ [] ∧ kv.2.Nodup := by
  intro sts
  induction sts with
  | nil =>
      intro idx assoc _ hnd kv hkv
      exact hnd kv hkv
  | cons st rest ih =>
      intro idx assoc hbd hnd
      refine ih (idx + 1) (addToPartition assoc st.accept idx) ?_ ?_
      · intro kv hkv i hi
        rcases addToPartition_mem assoc st.accept idx kv hkv i hi with
          ⟨kv', hkv', hik, _⟩ | ⟨hie, _⟩
        · exact Nat.lt_succ_of_lt (hbd kv' hkv' i hik)
        · omega
      · intro kv hkv
        rcases addToPartition_shape assoc st.accept idx kv hkv with h | h | ⟨v, hv, hsnd⟩
        · exact hnd kv h
        · rw [h]
          exact ⟨by simp, List.nodup_singleton idx⟩
        · rw [hsnd]
          constructor
          · simp
          · rw [← List.concat_eq_append]
            refine List.Nodup.concat ?_ (hnd (kv.1, v) hv).2
            intro hmem
            exact absurd (hbd (kv.1, v) hv idx hmem) (Nat.lt_irrefl idx)

/-- Every refined class is an original class or one of its two split
filters. -/
theorem refinePartition_pieces (parts : List (List Nat)) (s : List Nat) :
    ∀ q ∈ refinePartition parts s,
      ∃ p ∈ parts, q = p ∨ q = p.filter (fun z => s.contains z) ∨
        q = p.filter (fun z => !s.contains z) := by
  intro q hq
  rw [refinePartition, List.mem_flatMap] at hq
  obtain ⟨p, hp, hq⟩ := hq
  refine ⟨p, hp, ?_⟩
  cases hsp : splitSet p s with
  | none =>
      rw [hsp] at hq
      simp only [List.mem_singleton] at hq
      exact Or.inl hq
  | some yy =>
      rw [hsp] at hq
      obtain ⟨h1, h2⟩ := splitSet_eq_some p s yy hsp
      simp only [List.mem_cons, List.not_mem_nil, or_false] at hq
      rcases hq with hq | hq
      · exact Or.inr (Or.inl (by rw [hq, h1]))
      · exact Or.inr (Or.inr (by rw [hq, h2]))

/-- A successful split means the splitter set cuts the class properly. -/
theorem splitSet_some_cond (p s : List Nat) (yy : List Nat × List Nat)
    (h : splitSet p s = some yy) :
    (p.any (fun x => s.contains x) && !p.all (fun x => s.contains x)) = true := by
  rw [splitSet] at h
  split at h
  · assumption
  · cases h

/-- Refinement never creates an empty class. -/
theorem refinePartition_nonempty (parts : List (List Nat)) (s : List Nat)
    (h : ∀ p ∈ parts, p ≠ []) :
    ∀ q ∈ refinePartition parts s, q ≠ [] := by
  intro q hq
  rw [refinePartition, List.mem_flatMap] at hq
  obtain ⟨p, hp, hq⟩ := hq
  cases hsp : splitSet p s with
  | none =>
      rw [hsp] at hq
      simp only [List.mem_singleton] at hq
      rw [hq]
      exact h p hp
  | some yy =>
      rw [hsp] at hq
      obtain ⟨h1, h2⟩ := splitSet_eq_some p s yy hsp
      have hcond := splitSet_some_cond p s yy hsp
      rw [Bool.and_eq_true] at hcond
      simp only [List.mem_cons, List.not_mem_nil, or_false] at hq
      rcases hq with hq | hq
      · rw [hq, h1]
        obtain ⟨x, hx, hcx⟩ := List.any_eq_true.mp hcond.1
        intro hnil
        exact absurd (List.mem_filter.mpr ⟨hx, hcx⟩) (by rw [hnil]; simp)
      · rw [hq, h2]
        have hall : ¬ (p.all (fun x => s.contains x) = true) := by
          intro hcon
          rw [hcon] at hcond
          exact absurd hcond.2 (by simp)
        rw [List.all_eq_true] at hall
        push_neg at hall
        obtain ⟨x, hx, hcx⟩ := hall
        intro hnil
        simp only [Bool.not_eq_true] at hcx
        refine absurd (List.mem_filter.mpr ⟨hx, ?_⟩) (by rw [hnil]; simp)
        simp only [hcx, Bool.not_false]

/-- Nonemptiness of classes survives a fold of refinement passes. -/
theorem foldl_refine_nonempty (sets : List (List Nat)) :
    ∀ parts, (∀ p ∈ parts, p ≠ []) →
      ∀ q ∈ sets.foldl refinePartition parts, q ≠ [] := by
  induction sets with
  | nil => intro parts h q hq; exact h q hq
  | cons s ss ih =>
      intro parts h q hq
      rw [List.foldl_cons] at hq
      exact ih _ (refinePartition_nonempty parts s h) q hq

/-- Duplicate-freedom of classes survives a fold of refinement passes. -/
theorem foldl_refine_nodup (sets : List (List Nat)) :
    ∀ parts, (∀ p ∈ parts, p.Nodup) →
      ∀ q ∈ sets.foldl refinePartition parts, q.Nodup := by
  induction sets with
  | nil => intro parts h q hq; exact h q hq
  | cons s ss ih =>
      intro parts h q hq
      rw [List.foldl_cons] at hq
      refine ih _ ?_ q hq
      intro r hr
      obtain ⟨p2, hp2, hcase⟩ := refinePartition_pieces parts s r hr
      rcases hcase with hc | hc | hc <;> rw [hc]
      · exact h p2 hp2
      · exact List.Nodup.filter _ (h p2 hp2)
      · exact List.Nodup.filter _ (h p2 hp2)

/-- The class-size invariant bundle: classes are nonempty, duplicate-free,
bounded, and pairwise disjoint. -/
def PartInvQ (n : Nat) (parts : List (List Nat)) : Prop :=
  (∀ p ∈ parts, p ≠ [] ∧ p.Nodup ∧ ∀ s ∈ p, s < n) ∧
    parts.Pairwise (fun p q => ∀ x ∈ p, x ∉ q)

theorem refinePartition_invQ (n : Nat) (parts : List (List Nat)) (s : List Nat)
    (h : PartInvQ n parts) : PartInvQ n (refinePartition parts s) := by
  obtain ⟨hall, hpw⟩ := h
  constructor
  · intro q hq
    obtain ⟨p, hp, hcase⟩ := refinePartition_pieces parts s q hq
    obtain ⟨hne, hnd, hbd⟩ := hall p hp
    refine ⟨refinePartition_nonempty parts s (fun p hp => (hall p hp).1) q hq, ?_, ?_⟩
    · rcases hcase with hc | hc | hc <;> rw [hc]
      · exact hnd
      · exact List.Nodup.filter _ hnd
      · exact List.Nodup.filter _ hnd
    · intro x hx
      obtain ⟨p2, hp2, hsub⟩ := refinePartition_sub parts s q hq
      exact (hall p2 hp2).2.2 x (hsub x hx)
  · exact refinePartition_pairwise parts s hpw

theorem foldl_splitAgainst_invQ (n : Nat) (sets : List (List Nat)) :
    ∀ pd : List (List Nat) × List (List Nat), PartInvQ n pd.1 →
      PartInvQ n (List.foldl (fun pd s => splitAgainst s pd.1 pd.2) pd sets).1 := by
  induction sets with
  | nil => intro pd h; exact h
  | cons s ss ih =>
      intro pd h
      rw [List.foldl_cons]
      apply ih
      rw [splitAgainst_fst]
      exact refinePartition_invQ n pd.1 s h

theorem minimizeLoop_invQ (d : Dfa) (n : Nat) :
    ∀ fuel partition dists, PartInvQ n partition →
      PartInvQ n (minimizeLoop d fuel partition dists) := by
  intro fuel
  induction fuel with
  | zero => intro p dd h; exact h
  | succ m ih =>
      intro p dd h
      cases dd with
      | nil => exact h
      | cons dist rest =>
          refine ih _ _ ?_
          rw [processDistinguisher]
          exact foldl_splitAgainst_invQ n _ (p, rest) h

/-- The minimizer partition satisfies the class-size invariants. -/
theorem minimizePartition_invQ (d : Dfa) :
    PartInvQ d.states.length (Dfa.minimizePartition d) := by
  have hfin := apAssocAux_inv d d.states 0 [] (by simp) (Nat.zero_le _)
    (by simp) (by simp) (by simp)
  have hnd := apAssocAux_nodup d.states 0 [] (by simp) (by simp)
  obtain ⟨hb0, hu0, hpw0, hcov0⟩ := initParts_inv d
  rw [Dfa.minimizePartition]
  refine minimizeLoop_invQ d _ _ _ _ ⟨?_, hpw0⟩
  intro p hp
  refine ⟨?_, ?_, hb0 p hp⟩
  · -- nonempty
    rcases List.mem_append.mp hp with hp2 | hp2
    · rw [Dfa.accept_partition] at hp2
      dsimp only at hp2
      rw [List.mem_map] at hp2
      obtain ⟨kv, hkv, hsnd⟩ := hp2
      rw [← hsnd]
      exact (hnd kv (List.mem_of_mem_filter hkv)).1
    · -- reject classes
      rw [Dfa.reject_partition] at hp2
      by_cases hne : (Dfa.accept_partition d).1.isEmpty
      · rw [if_pos hne] at hp2
        simp at hp2
      · rw [if_neg hne] at hp2
        have hstart : ∀ q ∈ [(Dfa.accept_partition d).1], q ≠ [] := by
          intro q hq
          rw [List.mem_singleton.mp hq]
          intro hnil
          rw [hnil] at hne
          exact hne rfl
        dsimp only at hp2
        exact foldl_refine_nonempty _ _ hstart p hp2
  · -- nodup
    rcases List.mem_append.mp hp with hp2 | hp2
    · rw [Dfa.accept_partition] at hp2
      dsimp only at hp2
      rw [List.mem_map] at hp2
      obtain ⟨kv, hkv, hsnd⟩ := hp2
      rw [← hsnd]
      exact (hnd kv (List.mem_of_mem_filter hkv)).2
    · rw [Dfa.reject_partition] at hp2
      by_cases hne : (Dfa.accept_partition d).1.isEmpty
      · rw [if_pos hne] at hp2
        simp at hp2
      · rw [if_neg hne] at hp2
        have hnevnd : (Dfa.accept_partition d).1.Nodup := by
          rw [Dfa.accept_partition]
          dsimp only
          cases hf : List.find? (fun kv => kv.1 == Accept.never) (apAssocAux [] 0 d.states) with
          | none => simp
          | some kv0 =>
              simp only [Option.map_some', Option.getD_some]
              exact (hnd kv0 (List.mem_of_find?_eq_some hf)).2
        have hstart : ∀ q ∈ [(Dfa.accept_partition d).1], q.Nodup := by
          intro q hq
          rw [List.mem_singleton.mp hq]
          exact hnevnd
        dsimp only at hp2
        exact foldl_refine_nodup _ _ hstart p hp2

/-- Nonempty, duplicate-free, bounded and pairwise-disjoint classes number at
most `n`. -/
theorem parts_length_le (n : Nat) (parts : List (List Nat))
    (hall : ∀ p ∈ parts, p ≠ [] ∧ p.Nodup ∧ ∀ s ∈ p, s < n)
    (hpw : parts.Pairwise (fun p q => ∀ x ∈ p, x ∉ q)) :
    parts.length ≤ n := by
  have hflat_nd : parts.flatten.Nodup := by
    rw [List.nodup_flatten]
    constructor
    · intro l hl
      exact (hall l hl).2.1
    · refine List.Pairwise.imp ?_ hpw
      intro p q hpq x hxp hxq
      exact hpq x hxp hxq
  have hflat_bd : ∀ x ∈ parts.flatten, x < n := by
    intro x hx
    rw [List.mem_flatten] at hx
    obtain ⟨l, hl, hxl⟩ := hx
    exact (hall l hl).2.2 x hxl
  have hlen1 : parts.length ≤ parts.flatten.length := by
    rw [List.length_flatten]
    have : ∀ l ∈ parts.map List.length, 1 ≤ l := by
      intro l hl
      rw [List.mem_map] at hl
      obtain ⟨p, hp, hpl⟩ := hl
      rw [← hpl]
      cases hq : p with
      | nil => exact absurd hq (hall p hp).1
      | cons a t => simp
    calc parts.length = (parts.map List.length).length := by rw [List.length_map]
    _ ≤ (parts.map List.length).sum := List.length_le_sum_of_one_le _ this
  have hlen2 : parts.flatten.length ≤ n := by
    have h1 : parts.flatten.toFinset.card = parts.flatten.length :=
      List.toFinset_card_of_nodup hflat_nd
    have h2 : parts.flatten.toFinset ⊆ Finset.range n := by
      intro x hx
      rw [List.mem_toFinset] at hx
      rw [Finset.mem_range]
      exact hflat_bd x hx
    have h3 := Finset.card_le_card h2
    rw [h1, Finset.card_range] at h3
    exact h3
  omega

/-- The minimized automaton never has more states than the input automaton. -/
theorem minimize_num_states_le (d : Dfa) :
    (Dfa.minimize d).num_states ≤ d.num_states := by
  have hq := minimizePartition_invQ d
  have hlen : (Dfa.minimize d).num_states = (Dfa.minimizePartition d).length := by
    rw [Dfa.minimize, Dfa.num_states]
    simp [List.length_map]
  rw [hlen, Dfa.num_states]
  exact parts_length_le d.states.length (Dfa.minimizePartition d) hq.1 hq.2

/-- A `Dfa` value with overlapping transition ranges (representable by the
source's `Dfa` type, on which `minimize` runs without panicking): all states
accept always, and the overlaps make the preimage-based splits of the
minimizer non-congruent. -/
def dfaNondet : Dfa :=
  { states := [
      { transitions := [(⟨100, 102⟩, 1), (⟨99, 101⟩, 0)], accept := Accept.always },
      { transitions := [(⟨100, 101⟩, 1), (⟨99, 101⟩, 0)], accept := Accept.always },
      { transitions := [(⟨100, 102⟩, 1), (⟨99, 99⟩, 0)], accept := Accept.always },
      { transitions := [(⟨100, 100⟩, 1), (⟨99, 101⟩, 0)], accept := Accept.always } ],
    init_at_start := some 0,
    init_after_char := [],
    init_otherwise := none }

/-- Counterexample to C4 as stated: on `dfaNondet` the first minimization
yields 3 states and the second merges two of them, so re-minimizing changes
the state count. -/
theorem minimize_minimize_count_ne :
    (Dfa.minimize (Dfa.minimize dfaNondet)).num_states ≠
      (Dfa.minimize dfaNondet).num_states := by
  decide

/-! ## Claim C7 -/

/-- Occurrence count of a reversed transition, written recursively so that all
counting lemmas below are instance-free. -/
def cntRT (x : CharRange × Nat) : List (CharRange × Nat) → Nat
  | [] => 0
  | y :: l => cntRT x l + if y = x then 1 else 0

theorem cntRT_eq_count (x : CharRange × Nat) (l : List (CharRange × Nat)) :
    cntRT x l = @List.count _ instBEqOfDecidableEq x l := by
  induction l with
  | nil => rfl
  | cons y l ih =>
      rw [cntRT, @List.count_cons _ instBEqOfDecidableEq x y l, ih]
      have hbe : (@BEq.beq _ instBEqOfDecidableEq y x) = decide (y = x) := rfl
      rw [hbe]
      by_cases h : y = x
      · rw [if_pos h, if_pos (by simpa using h)]
      · rw [if_neg h, if_neg (by simpa using h)]

theorem perm_of_cntRT {l1 l2 : List (CharRange × Nat)}
    (h : ∀ x, cntRT x l1 = cntRT x l2) : l1.Perm l2 := by
  rw [List.perm_iff_count]
  intro a
  rw [← cntRT_eq_count, ← cntRT_eq_count]
  exact h a

theorem cntRT_append (x : CharRange × Nat) (l1 l2 : List (CharRange × Nat)) :
    cntRT x (l1 ++ l2) = cntRT x l1 + cntRT x l2 := by
  induction l1 with
  | nil => simp [cntRT]
  | cons y l1 ih =>
      rw [List.cons_append, cntRT, cntRT, ih]
      omega

theorem cntRT_eq_zero (x : CharRange × Nat) (l : List (CharRange × Nat))
    (h : x ∉ l) : cntRT x l = 0 := by
  induction l with
  | nil => rfl
  | cons y l ih =>
      have hyx : ¬ y = x := by
        intro he
        subst he
        exact h (List.mem_cons_self y l)
      rw [cntRT, ih (fun hm => h (List.mem_cons_of_mem y hm)), if_neg hyx]

theorem cntRT_filterMap_rev (t idx : Nat) (r : CharRange) (u : Nat)
    (l : List (CharRange × Nat)) :
    cntRT (r, u) (l.filterMap (fun rt => if rt.2 = t then some (rt.1, idx) else none))
      = if u = idx then cntRT (r, t) l else 0 := by
  induction l with
  | nil => simp [cntRT]
  | cons hd tl ih =>
    obtain ⟨rr, tgt⟩ := hd
    by_cases htgt : tgt = t
    · subst htgt
      have hstep : (((rr, tgt) :: tl).filterMap
            (fun rt => if rt.2 = tgt then some (rt.1, idx) else none))
          = (rr, idx) ::
              tl.filterMap (fun rt => if rt.2 = tgt then some (rt.1, idx) else none) := by
        simp [List.filterMap_cons]
      rw [hstep, cntRT, ih]
      conv_rhs => rw [cntRT]
      by_cases hu : u = idx
      · subst hu
        rw [if_pos rfl, if_pos rfl]
        by_cases hr : rr = r
        · subst hr
          rw [if_pos rfl, if_pos rfl]
        · rw [if_neg (fun he => hr (congrArg Prod.fst he)),
            if_neg (fun he => hr (congrArg Prod.fst he))]
      · rw [if_neg hu, if_neg hu,
          if_neg (fun he : (rr, idx) = (r, u) => hu (congrArg Prod.snd he).symm)]
    · have hstep : (((rr, tgt) :: tl).filterMap
            (fun rt => if rt.2 = t then some (rt.1, idx) else none))
          = tl.filterMap (fun rt => if rt.2 = t then some (rt.1, idx) else none) := by
        simp [List.filterMap_cons, htgt]
      rw [hstep, ih]
      conv_rhs => rw [cntRT]
      by_cases hu : u = idx
      · rw [if_pos hu, if_pos hu,
          if_neg (fun he : (rr, tgt) = (r, t) => htgt (congrArg Prod.snd he))]
        omega
      · rw [if_neg hu, if_neg hu]

theorem cntRT_revRangesToAux (sts : List State) (t : Nat) (r : CharRange) :
    ∀ idx u, cntRT (r, u) (revRangesToAux t idx sts)
      = if idx ≤ u then cntRT (r, t) ((sts.getD (u - idx) default).transitions.ranges)
        else 0 := by
  induction sts with
  | nil =>
      intro idx u
      simp [revRangesToAux, List.getD, cntRT, default]
  | cons st rest ih =>
      intro idx u
      rw [revRangesToAux, cntRT_append, cntRT_filterMap_rev, ih (idx + 1) u]
      rcases Nat.lt_trichotomy u idx with hlt | heq | hgt
      · rw [if_neg (Nat.ne_of_lt hlt), if_neg (by omega), if_neg (by omega)]
      · subst heq
        rw [if_pos rfl, if_neg (by omega), if_pos (Nat.le_refl _)]
        simp
      · rw [if_neg (Nat.ne_of_gt hgt), if_pos (by omega), if_pos (by omega)]
        have huu : u - idx = (u - (idx + 1)) + 1 := by omega
        rw [huu]
        simp [List.getD]

theorem cntRT_revRangesTo (sts : List State) (t : Nat) (r : CharRange) (u : Nat) :
    cntRT (r, u) (revRangesTo sts t)
      = cntRT (r, t) ((sts.getD u default).transitions.ranges) := by
  rw [revRangesTo, cntRT_revRangesToAux sts t r 0 u, if_pos (Nat.zero_le u)]
  simp

theorem reversed_length (a : Automaton) :
    a.reversed.states.length = a.states.length := by
  simp [Automaton.reversed]

theorem reversed_rangesAtA (a : Automaton) (s : Nat) :
    rangesAtA a.reversed s
      = if s < a.states.length then revRangesTo a.states s else [] := by
  unfold rangesAtA stateAtA Automaton.reversed
  rw [List.getD_eq_getElem?_getD, List.getElem?_map]
  by_cases hs : s < a.states.length
  · rw [if_pos hs, List.getElem?_range hs]
    rfl
  · rw [if_neg hs, List.getElem?_eq_none (by simpa using Nat.le_of_not_lt hs)]
    rfl

theorem reversed_accAtA (a : Automaton) (s : Nat) :
    accAtA a.reversed s = accAtA a s := by
  unfold accAtA stateAtA Automaton.reversed
  rw [List.getD_eq_getElem?_getD, List.getElem?_map]
  by_cases hs : s < a.states.length
  · rw [List.getElem?_range hs]
    rfl
  · have h1 : a.states.length ≤ s := Nat.le_of_not_lt hs
    rw [List.getElem?_eq_none (by simpa using h1),
      List.getD_eq_getElem?_getD, List.getElem?_eq_none h1]
    rfl

/-- C7: reversal is an involution.  For every automaton whose transition
targets are in range (out-of-range targets make the source panic), reversing
twice yields, at every state index, the same multiset of range-labelled
transitions as the original, and the same accepting flag. -/
theorem reversed_reversed_perm (a : Automaton) (h : a.targetsOk = true) (s : Nat) :
    accAtA a.reversed.reversed s = accAtA a s ∧
      (rangesAtA a.reversed.reversed s).Perm (rangesAtA a s) := by
  constructor
  · rw [reversed_accAtA, reversed_accAtA]
  · apply perm_of_cntRT
    intro x
    obtain ⟨r, u⟩ := x
    rw [reversed_rangesAtA, reversed_length]
    by_cases hs : s < a.states.length
    · rw [if_pos hs, cntRT_revRangesTo]
      by_cases hu : u < a.states.length
      · have hform : (a.reversed.states.getD u default).transitions.ranges
            = rangesAtA a.reversed u := rfl
        rw [hform, reversed_rangesAtA, if_pos hu, cntRT_revRangesTo]
        rfl
      · -- `u` out of range: both sides count zero
        have hu2 : a.states.length ≤ u := Nat.le_of_not_lt hu
        have hleft : (a.reversed.states.getD u default).transitions.ranges = [] := by
          rw [List.getD_eq_getElem?_getD,
            List.getElem?_eq_none (by rw [reversed_length]; exact hu2)]
          rfl
        rw [hleft]
        have hright : cntRT (r, u) (rangesAtA a s) = 0 := by
          apply cntRT_eq_zero
          intro hmem
          have hst : a.states.getD s default ∈ a.states := by
            rw [List.getD_eq_getElem?_getD]
            cases hgs : a.states[s]? with
            | none => exact absurd (List.getElem?_eq_none_iff.mp hgs) (Nat.not_le.mpr hs)
            | some v =>
                simp only [hgs, Option.getD_some]
                exact List.getElem?_mem hgs
          have hbd := (List.all_eq_true.mp ((List.all_eq_true.mp h) _ hst)) _ hmem
          simp only [decide_eq_true_eq] at hbd
          omega
        rw [hright]
        rfl
    · rw [if_neg hs]
      have hs2 : a.states.length ≤ s := Nat.le_of_not_lt hs
      have hright : rangesAtA a s = [] := by
        unfold rangesAtA stateAtA
        rw [List.getD_eq_getElem?_getD, List.getElem?_eq_none hs2]
        rfl
      rw [hright]

/-- Witness for C7: the two-state even-number-of-bs automaton from the source's
tests, checked at state 0. -/
theorem reversed_reversed_perm_witness :
    (Automaton.targetsOk
        { states :=
            [ { transitions := { ranges := [(⟨97, 97⟩, 0), (⟨98, 98⟩, 1)], eps := [] },
                accepting := true },
              { transitions := { ranges := [(⟨97, 97⟩, 1), (⟨98, 98⟩, 0)], eps := [] },
                accepting := false } ],
          initial := 0 } = true) ∧
      (accAtA (Automaton.reversed (Automaton.reversed
          { states :=
              [ { transitions := { ranges := [(⟨97, 97⟩, 0), (⟨98, 98⟩, 1)], eps := [] },
                  accepting := true },
                { transitions := { ranges := [(⟨97, 97⟩, 1), (⟨98, 98⟩, 0)], eps := [] },
                  accepting := false } ],
            initial := 0 })) 0 = accAtA
          { states :=
              [ { transitions := { ranges := [(⟨97, 97⟩, 0), (⟨98, 98⟩, 1)], eps := [] },
                  accepting := true },
                { transitions := { ranges := [(⟨97, 97⟩, 1), (⟨98, 98⟩, 0)], eps := [] },
                  accepting := false } ],
            initial := 0 } 0 ∧
        (rangesAtA (Automaton.reversed (Automaton.reversed
            { states :=
                [ { transitions := { ranges := [(⟨97, 97⟩, 0), (⟨98, 98⟩, 1)], eps := [] },
                    accepting := true },
                  { transitions := { ranges := [(⟨97, 97⟩, 1), (⟨98, 98⟩, 0)], eps := [] },
                    accepting := false } ],
              initial := 0 })) 0).Perm (rangesAtA
            { states :=
                [ { transitions := { ranges := [(⟨97, 97⟩, 0), (⟨98, 98⟩, 1)], eps := [] },
                    accepting := true },
                  { transitions := { ranges := [(⟨97, 97⟩, 1), (⟨98, 98⟩, 0)], eps := [] },
                    accepting := false } ],
              initial := 0 } 0)) :=
  ⟨by decide, reversed_reversed_perm _ (by decide) 0⟩

/-! ## Claim C2 -/

/-- The character walk of the slow runner visits exactly the positions
`charEndPositions` lists, trying `init_after_char[c]` with `init_otherwise` as
fallback at each. -/
theorem slow_run_loop_eq (p : Prog) (s : List Nat) (pos : Nat) :
    slow_run_loop p pos s =
      (charEndPositions pos s).findSome? (fun t =>
        (Option.or (CharMap.get p.init_after_char t.2.1) p.init_otherwise).bind fun st =>
          (Prog.shortest_match_from p t.2.2 st).map fun e => (t.1, t.1 + e)) := by
  induction s generalizing pos with
  | nil => rfl
  | cons c rest ih =>
    rw [slow_run_loop, charEndPositions, List.findSome?]
    cases hst : Prog.state_after p c with
    | none =>
        rw [Prog.state_after] at hst
        simp [hst, ih]
    | some st =>
        rw [Prog.state_after] at hst
        cases hm : Prog.shortest_match_from p rest st with
        | none => simp [hst, hm, ih]
        | some e => simp [hst, hm]

/-- C2: for every program data and input, the slow runner first attempts a
match from offset 0 using `init_at_start`; if that fails and `init_otherwise`
is `None` and `init_after_char` is empty it returns `None` without scanning the
rest; otherwise it walks the input character by character and, after each
character `c` ending at byte position `p`, attempts a match from `p` using
`init_after_char[c]` when `c` is in that map and `init_otherwise` as the
fallback, returning the first such match as `(p, p + end)`. -/
theorem slow_run_eq_spec (p : Prog) (s : List Nat) :
    slow_run p s = slow_run_spec p s := by
  unfold slow_run slow_run_spec
  cases hinit : p.init_at_start with
  | none =>
      simp only [Option.none_bind]
      split
      · rfl
      · exact slow_run_loop_eq p s 0
  | some st =>
      simp only [Option.some_bind]
      cases hm : Prog.shortest_match_from p s st with
      | none =>
          simp only [hm]
          split
          · rfl
          · exact slow_run_loop_eq p s 0
      | some e => simp [hm]

/-! ## Claim C8 -/

/-- C8: `Program::is_match` returns true exactly when
`Program::shortest_match` returns `Some`. -/
theorem is_match_iff_shortest_match (p : Program) (s : List Nat) :
    Program.is_match p s = true ↔ (Program.shortest_match p s).isSome = true :=
  Iff.rfl

/-! ## Claim C6 -/

/-- C6: `loop_optimization` returns `Some` — so a `LoopWhile` instruction is
emitted — exactly when the character set looping back to `st_idx`, intersected
with the 62-character common set `[0-9A-Za-z]`, contains at least 46 code
points, and that looping set is either entirely ASCII or contains every
non-ASCII code point. -/
theorem loop_optimization_iff (cm : CharMap Nat) (st_idx : Nat) :
    (loop_optimization cm st_idx).isSome = true ↔
      (46 ≤ CharSet.char_count (CharSet.intersect
            (CharMap.to_char_set (CharMap.filter_values cm (fun st => st == st_idx)))
            common_chars) ∧
        (CharSet.is_ascii
            (CharMap.to_char_set (CharMap.filter_values cm (fun st => st == st_idx))) = true ∨
          CharSet.contains_non_ascii
            (CharMap.to_char_set (CharMap.filter_values cm (fun st => st == st_idx))) = true)) := by
  unfold loop_optimization is_common
  dsimp only
  split
  · rename_i h
    simp only [Option.isSome_some, true_iff]
    rw [Bool.and_eq_true, Bool.or_eq_true, decide_eq_true_iff] at h
    exact ⟨h.1, h.2⟩
  · rename_i h
    simp only [Option.isSome_none, Bool.false_eq_true, false_iff]
    rw [Bool.and_eq_true, Bool.or_eq_true, decide_eq_true_iff] at h
    exact fun hc => h ⟨hc.1, hc.2⟩

/-! ## Claim C10 -/

/-- C10: `ByteIter::new(s, b, state)` panics (modelled as `none`) exactly when
`b ≥ 128`; for ASCII `b` it returns an iterator whose search starts at
position 0 of `s`. -/
theorem byteIter_new_spec (s : List Nat) (b : Nat) (state : Nat) :
    (ByteIter.new s b state = none ↔ 128 ≤ b) ∧
    (b < 128 →
      ByteIter.new s b state = some { input := s, byte := b, pos := 0, state := state }) := by
  constructor
  · constructor
    · intro h
      by_contra hb
      simp [ByteIter.new, hb] at h
    · intro hb
      simp [ByteIter.new, hb]
  · intro hb
    simp [ByteIter.new, Nat.not_le.mpr hb]

/-- Witness for C10: for the ASCII byte 97 the iterator is built, starting at
position 0. -/
theorem byteIter_new_spec_witness :
    ByteIter.new [97, 98] 97 5 = some { input := [97, 98], byte := 97, pos := 0, state := 5 } :=
  (byteIter_new_spec [97, 98] 97 5).2 (by decide)

end RegexDfa

namespace RegexDfa

/-! ## Toward minimization idempotence on deterministic DFAs -/

/-- A transition map is deterministic: any two overlapping ranges agree on the
target.  Determinization produces such maps; the `Dfa` type does not enforce
this. -/
def DetMap (cm : CharMap Nat) : Prop :=
  ∀ rt1 ∈ cm, ∀ rt2 ∈ cm,
    max rt1.1.start rt2.1.start ≤ min rt1.1.stop rt2.1.stop → rt1.2 = rt2.2

instance (cm : CharMap Nat) : Decidable (DetMap cm) := by
  rw [DetMap]
  infer_instance

/-- A deterministic DFA value: every state's transition map is
deterministic. -/
def Dfa.Det (d : Dfa) : Prop := ∀ st ∈ d.states, DetMap st.transitions

instance (d : Dfa) : Decidable (Dfa.Det d) := by
  rw [Dfa.Det]
  infer_instance

/-- Every transition target is a real state index. -/
def TargetsOk (d : Dfa) : Prop :=
  ∀ st ∈ d.states, ∀ rt ∈ st.transitions, rt.2 < d.states.length

instance (d : Dfa) : Decidable (TargetsOk d) := by
  rw [TargetsOk]
  infer_instance

/-- Determinism as a statement about characters. -/
theorem detMap_same_char (cm : CharMap Nat) (hdet : DetMap cm)
    (rt1 : CharRange × Nat) (h1 : rt1 ∈ cm) (rt2 : CharRange × Nat) (h2 : rt2 ∈ cm)
    (c : Nat) (hc1 : rt1.1.containsChar c = true) (hc2 : rt2.1.containsChar c = true) :
    rt1.2 = rt2.2 := by
  rw [CharRange.containsChar, Bool.and_eq_true, decide_eq_true_eq,
    decide_eq_true_eq] at hc1 hc2
  exact hdet rt1 h1 rt2 h2 (by omega)

/-- The per-state form of determinism, including out-of-range states. -/
theorem det_transAt (d : Dfa) (hdet : Dfa.Det d) (i : Nat) : DetMap (transAt d i) := by
  rw [transAt]
  by_cases hi : i < d.states.length
  · rw [List.getD_eq_getElem d.states default hi]
    exact hdet d.states[i] (List.getElem_mem hi)
  · rw [List.getD_eq_default d.states default (by omega)]
    intro rt1 h1
    cases h1

/-- The per-state form of target soundness, including out-of-range states. -/
theorem targetsOk_transAt (d : Dfa) (h : TargetsOk d) (i : Nat) :
    ∀ rt ∈ transAt d i, rt.2 < d.states.length := by
  rw [transAt]
  by_cases hi : i < d.states.length
  · rw [List.getD_eq_getElem d.states default hi]
    exact h d.states[i] (List.getElem_mem hi)
  · rw [List.getD_eq_default d.states default (by omega)]
    intro rt1 h1
    cases h1

/-- The one-step transition function: target of the first range containing
`c`, as `CharMap::get` computes it. -/
def step (d : Dfa) (p c : Nat) : Option Nat := CharMap.get (transAt d p) c

theorem charMap_get_eq_none_iff {V : Type} (cm : CharMap V) (c : Nat) :
    CharMap.get cm c = none ↔ ∀ rt ∈ cm, rt.1.containsChar c = false := by
  induction cm with
  | nil => simp [CharMap.get]
  | cons rt rest ih =>
      rw [CharMap.get]
      by_cases hc : rt.1.containsChar c
      · rw [if_pos hc]
        simp only [List.mem_cons]
        constructor
        · intro h
          cases h
        · intro h
          have := h rt (Or.inl rfl)
          rw [hc] at this
          cases this
      · rw [if_neg hc, ih]
        simp only [Bool.not_eq_true] at hc
        constructor
        · intro h rt2 hrt2
          rcases List.mem_cons.mp hrt2 with he | hm
          · rw [he]
            exact hc
          · exact h rt2 hm
        · intro h rt2 hm
          exact h rt2 (List.mem_cons_of_mem rt hm)

theorem charMap_get_mem {V : Type} (cm : CharMap V) (c : Nat) (v : V)
    (h : CharMap.get cm c = some v) :
    ∃ rt ∈ cm, rt.1.containsChar c = true ∧ rt.2 = v := by
  induction cm with
  | nil => cases h
  | cons rt rest ih =>
      rw [CharMap.get] at h
      by_cases hc : rt.1.containsChar c
      · rw [if_pos hc] at h
        exact ⟨rt, List.mem_cons_self rt rest, hc, Option.some.inj h⟩
      · rw [if_neg hc] at h
        obtain ⟨rt2, hm, hc2, hv⟩ := ih h
        exact ⟨rt2, List.mem_cons_of_mem rt hm, hc2, hv⟩

/-- Under determinism, `get` returns exactly the target of any range
containing the character. -/
theorem charMap_get_det (cm : CharMap Nat) (hdet : DetMap cm) (c : Nat)
    (rt : CharRange × Nat) (hmem : rt ∈ cm) (hc : rt.1.containsChar c = true) :
    CharMap.get cm c = some rt.2 := by
  cases hg : CharMap.get cm c with
  | none =>
      rw [charMap_get_eq_none_iff] at hg
      rw [hg rt hmem] at hc
      cases hc
  | some v =>
      obtain ⟨rt2, hm2, hc2, hv⟩ := charMap_get_mem cm c v hg
      rw [detMap_same_char cm hdet rt2 hm2 rt hmem c hc2 hc] at hv
      rw [hv]

/-! ### Sorted duplicate-free sets of naturals (`mkSetNat`) -/

theorem mem_insSortedNat (x : Nat) (l : List Nat) (y : Nat) :
    y ∈ insSortedNat x l ↔ y = x ∨ y ∈ l := by
  induction l with
  | nil => simp [insSortedNat]
  | cons z l ih =>
      rw [insSortedNat]
      by_cases h1 : x < z
      · rw [if_pos h1]
        simp
      · rw [if_neg h1]
        by_cases h2 : x = z
        · rw [if_pos h2]
          subst h2
          simp only [List.mem_cons]
          constructor
          · intro h
            exact Or.inr h
          · intro h
            rcases h with h | h
            · rw [h]; exact Or.inl rfl
            · exact h
        · rw [if_neg h2]
          simp only [List.mem_cons, ih]
          constructor
          · intro h
            rcases h with h | h | h
            · exact Or.inr (Or.inl h)
            · exact Or.inl h
            · exact Or.inr (Or.inr h)
          · intro h
            rcases h with h | h | h
            · exact Or.inr (Or.inl h)
            · exact Or.inl h
            · exact Or.inr (Or.inr h)

theorem sorted_insSortedNat (x : Nat) (l : List Nat)
    (h : l.Sorted (· < ·)) : (insSortedNat x l).Sorted (· < ·) := by
  induction l with
  | nil => simp [insSortedNat]
  | cons z l ih =>
      rw [List.sorted_cons] at h
      rw [insSortedNat]
      by_cases h1 : x < z
      · rw [if_pos h1]
        rw [List.sorted_cons]
        refine ⟨?_, List.sorted_cons.mpr h⟩
        intro b hb
        rcases List.mem_cons.mp hb with he | hm
        · rw [he]; exact h1
        · exact Nat.lt_trans h1 (h.1 b hm)
      · rw [if_neg h1]
        by_cases h2 : x = z
        · rw [if_pos h2]
          exact List.sorted_cons.mpr h
        · rw [if_neg h2]
          rw [List.sorted_cons]
          constructor
          · intro b hb
            rcases (mem_insSortedNat x l b).mp hb with he | hm
            · rw [he]
              omega
            · exact h.1 b hm
          · exact ih h.2

theorem sorted_mkSetNat (l : List Nat) : (mkSetNat l).Sorted (· < ·) := by
  induction l with
  | nil => simp [mkSetNat]
  | cons x l ih => exact sorted_insSortedNat x (mkSetNat l) ih

theorem mem_mkSetNat (l : List Nat) (y : Nat) : y ∈ mkSetNat l ↔ y ∈ l := by
  induction l with
  | nil => simp [mkSetNat]
  | cons x l ih =>
      rw [mkSetNat, List.foldr_cons]
      rw [show List.foldr insSortedNat [] l = mkSetNat l from rfl]
      rw [mem_insSortedNat, ih]
      simp

end RegexDfa

namespace RegexDfa

/-! ### Exactness of the range refinement -/

theorem atomsOf_spec (bounds : List Nat) (hs : bounds.Sorted (· < ·)) :
    ∀ α ∈ atomsOf bounds,
      α.start ∈ bounds ∧ α.stop + 1 ∈ bounds ∧ α.start ≤ α.stop ∧
        ∀ b ∈ bounds, ¬(α.start < b ∧ b ≤ α.stop) := by
  induction bounds with
  | nil => simp [atomsOf]
  | cons b1 rest ih =>
      cases rest with
      | nil => simp [atomsOf]
      | cons b2 rest2 =>
          rw [List.sorted_cons] at hs
          intro α hα
          rw [atomsOf] at hα
          rcases List.mem_cons.mp hα with he | hm
          · have hb12 : b1 < b2 := hs.1 b2 (List.mem_cons_self b2 rest2)
            rw [he]
            refine ⟨List.mem_cons_self _ _, ?_, by dsimp only; omega, ?_⟩
            · have hb2e : b2 - 1 + 1 = b2 := by omega
              dsimp only
              rw [hb2e]
              exact List.mem_cons_of_mem _ (List.mem_cons_self b2 rest2)
            · intro b hb hcon
              obtain ⟨hgt, hle⟩ := hcon
              dsimp only at hgt hle
              rcases List.mem_cons.mp hb with he2 | hm2
              · omega
              · rcases List.mem_cons.mp hm2 with he3 | hm3
                · omega
                · have hsc := List.sorted_cons.mp hs.2
                  have hbgt : b2 < b := hsc.1 b hm3
                  omega
          · obtain ⟨h1, h2, h3, h4⟩ := ih hs.2 α hm
            refine ⟨List.mem_cons_of_mem _ h1, List.mem_cons_of_mem _ h2, h3, ?_⟩
            intro b hb hcon
            rcases List.mem_cons.mp hb with he2 | hm2
            · -- b = b1 is below every element of the tail, in particular α.start
              have hstart : b1 < α.start := by
                rcases List.mem_cons.mp h1 with hs1 | hm1
                · rw [hs1]
                  exact hs.1 b2 (List.mem_cons_self b2 rest2)
                · exact hs.1 α.start (List.mem_cons_of_mem b2 hm1)
              omega
            · exact h4 b hm2 hcon

theorem atomsOf_cover (bounds : List Nat) (hs : bounds.Sorted (· < ·)) :
    ∀ c b0 b1, b0 ∈ bounds → b0 ≤ c → b1 ∈ bounds → c < b1 →
      ∃ α ∈ atomsOf bounds, α.start ≤ c ∧ c ≤ α.stop := by
  induction bounds with
  | nil => simp
  | cons x rest ih =>
      cases rest with
      | nil =>
          intro c b0 b1 h0 hle h1 hgt
          rw [List.mem_singleton.mp h0] at hle
          rw [List.mem_singleton.mp h1] at hgt
          omega
      | cons y rest2 =>
          rw [List.sorted_cons] at hs
          intro c b0 b1 h0 hle h1 hgt
          by_cases hcy : c < y
          · refine ⟨⟨x, y - 1⟩, ?_, ?_, ?_⟩
            · rw [atomsOf]
              exact List.mem_cons_self _ _
            · -- b0 ≤ c and b0 is x or at least y
              dsimp only
              rcases List.mem_cons.mp h0 with he | hm
              · omega
              · have hyb : y ≤ b0 := by
                  rcases List.mem_cons.mp hm with he2 | hm2
                  · omega
                  · have hsc := List.sorted_cons.mp hs.2
                    exact Nat.le_of_lt (hsc.1 b0 hm2)
                omega
            · dsimp only
              omega
          · -- c ≥ y: recurse into the tail
            have h1m : b1 ∈ y :: rest2 := by
              rcases List.mem_cons.mp h1 with he | hm
              · have : x < y := hs.1 y (List.mem_cons_self y rest2)
                omega
              · exact hm
            obtain ⟨α, hα, hc1, hc2⟩ := ih hs.2 c y b1
              (List.mem_cons_self y rest2) (by omega) h1m hgt
            refine ⟨α, ?_, hc1, hc2⟩
            rw [atomsOf]
            exact List.mem_cons_of_mem _ hα

theorem sorted_refineBounds (pairs : List (CharRange × Nat)) :
    (refineBounds pairs).Sorted (· < ·) :=
  sorted_mkSetNat _

theorem start_mem_refineBounds (pairs : List (CharRange × Nat))
    (rt : CharRange × Nat) (h : rt ∈ nePairs pairs) :
    rt.1.start ∈ refineBounds pairs := by
  rw [refineBounds, mem_mkSetNat, List.mem_append]
  exact Or.inl (List.mem_map.mpr ⟨rt, h, rfl⟩)

theorem stop_mem_refineBounds (pairs : List (CharRange × Nat))
    (rt : CharRange × Nat) (h : rt ∈ nePairs pairs) :
    rt.1.stop + 1 ∈ refineBounds pairs := by
  rw [refineBounds, mem_mkSetNat, List.mem_append]
  exact Or.inr (List.mem_map.mpr ⟨rt, h, rfl⟩)

/-- Within an atom, membership in any participating range is constant. -/
theorem refine_atom_exact (pairs : List (CharRange × Nat)) (α : CharRange)
    (hα : α ∈ atomsOf (refineBounds pairs)) (c : Nat)
    (hc1 : α.start ≤ c) (hc2 : c ≤ α.stop) :
    ∀ rt ∈ nePairs pairs, rt.1.containsChar c = rt.1.containsChar α.start := by
  intro rt hrt
  obtain ⟨hm1, hm2, hss, hgap⟩ := atomsOf_spec _ (sorted_refineBounds pairs) α hα
  have hb1 := start_mem_refineBounds pairs rt hrt
  have hb2 := stop_mem_refineBounds pairs rt hrt
  have g1 := hgap _ hb1
  have g2 := hgap _ hb2
  rw [CharRange.containsChar, CharRange.containsChar]
  by_cases h1 : rt.1.start ≤ c ∧ c ≤ rt.1.stop
  · have : rt.1.start ≤ α.start ∧ α.start ≤ rt.1.stop := by
      constructor
      · by_contra hcon
        push_neg at hcon
        omega
      · omega
    rw [decide_eq_true h1.1, decide_eq_true h1.2,
      decide_eq_true this.1, decide_eq_true this.2]
  · by_cases h2 : rt.1.start ≤ α.start ∧ α.start ≤ rt.1.stop
    · exfalso
      apply h1
      constructor
      · omega
      · by_contra hcon
        push_neg at hcon
        omega
    · have e1 : (decide (rt.1.start ≤ c) && decide (c ≤ rt.1.stop)) = false := by
        by_cases hA : rt.1.start ≤ c
        · have hB : ¬ c ≤ rt.1.stop := fun hB => h1 ⟨hA, hB⟩
          rw [decide_eq_false hB, Bool.and_false]
        · rw [decide_eq_false hA, Bool.false_and]
      have e2 : (decide (rt.1.start ≤ α.start) && decide (α.start ≤ rt.1.stop)) = false := by
        by_cases hA : rt.1.start ≤ α.start
        · have hB : ¬ α.start ≤ rt.1.stop := fun hB => h2 ⟨hA, hB⟩
          rw [decide_eq_false hB, Bool.and_false]
        · rw [decide_eq_false hA, Bool.false_and]
      rw [e1, e2]

end RegexDfa

namespace RegexDfa

theorem refineSets_mem_elim (pairs : List (CharRange × Nat)) (α : CharRange)
    (vals : List Nat) (h : (α, vals) ∈ refineSets pairs) :
    α ∈ atomsOf (refineBounds pairs) ∧ vals = atomVals pairs α := by
  rw [refineSets, List.mem_filterMap] at h
  obtain ⟨a, ha, hf⟩ := h
  split at hf
  · cases hf
  · have hp := Option.some.inj hf
    have h1 : a = α := congrArg Prod.fst hp
    have h2 : atomVals pairs a = vals := congrArg Prod.snd hp
    subst h1
    exact ⟨ha, h2.symm⟩

theorem mem_atomVals (pairs : List (CharRange × Nat)) (α : CharRange) (v : Nat) :
    v ∈ atomVals pairs α ↔
      ∃ rt ∈ nePairs pairs, rt.1.containsChar α.start = true ∧ rt.2 = v := by
  rw [atomVals, mem_mkSetNat, List.mem_map]
  constructor
  · intro hv
    obtain ⟨rt, hrt, hveq⟩ := hv
    have hm := List.mem_filter.mp hrt
    exact ⟨rt, hm.1, hm.2, hveq⟩
  · intro hv
    obtain ⟨rt, hrt, hc, hveq⟩ := hv
    exact ⟨rt, List.mem_filter.mpr ⟨hrt, hc⟩, hveq⟩

theorem mem_nePairs_iff (pairs : List (CharRange × Nat)) (rt : CharRange × Nat) :
    rt ∈ nePairs pairs ↔ rt ∈ pairs ∧ rt.1.start ≤ rt.1.stop := by
  rw [nePairs, List.mem_filter]
  simp

theorem containsChar_mem_nePairs (pairs : List (CharRange × Nat))
    (rt : CharRange × Nat) (hrt : rt ∈ pairs) (c : Nat)
    (hc : rt.1.containsChar c = true) : rt ∈ nePairs pairs := by
  rw [mem_nePairs_iff]
  refine ⟨hrt, ?_⟩
  rw [CharRange.containsChar, Bool.and_eq_true, decide_eq_true_eq, decide_eq_true_eq] at hc
  omega

/-- Semantic characterization of a refinement atom's label set: within the
atom, the labels are exactly the labels of all ranges containing any of its
characters. -/
theorem refineSets_target_iff (pairs : List (CharRange × Nat)) (α : CharRange)
    (vals : List Nat) (h : (α, vals) ∈ refineSets pairs)
    (c : Nat) (hc1 : α.start ≤ c) (hc2 : c ≤ α.stop) (v : Nat) :
    v ∈ vals ↔ ∃ rt ∈ pairs, rt.1.containsChar c = true ∧ rt.2 = v := by
  obtain ⟨hα, hvals⟩ := refineSets_mem_elim pairs α vals h
  rw [hvals, mem_atomVals]
  constructor
  · intro hex
    obtain ⟨rt, hrt, hcs, hv⟩ := hex
    refine ⟨rt, ((mem_nePairs_iff pairs rt).mp hrt).1, ?_, hv⟩
    rw [refine_atom_exact pairs α hα c hc1 hc2 rt hrt]
    exact hcs
  · intro hex
    obtain ⟨rt, hrt, hcc, hv⟩ := hex
    have hne : rt ∈ nePairs pairs := containsChar_mem_nePairs pairs rt hrt c hcc
    refine ⟨rt, hne, ?_, hv⟩
    rw [← refine_atom_exact pairs α hα c hc1 hc2 rt hne]
    exact hcc

/-- Every character covered by some range lies inside an atom of the
refinement. -/
theorem refineSets_cover (pairs : List (CharRange × Nat)) (c : Nat)
    (rt : CharRange × Nat) (hrt : rt ∈ pairs) (hc : rt.1.containsChar c = true) :
    ∃ αv ∈ refineSets pairs, αv.1.start ≤ c ∧ c ≤ αv.1.stop := by
  have hne : rt ∈ nePairs pairs := containsChar_mem_nePairs pairs rt hrt c hc
  have hcb : rt.1.start ≤ c ∧ c ≤ rt.1.stop := by
    rw [CharRange.containsChar, Bool.and_eq_true, decide_eq_true_eq, decide_eq_true_eq] at hc
    exact hc
  obtain ⟨α, hα, h1, h2⟩ := atomsOf_cover _ (sorted_refineBounds pairs) c
    rt.1.start (rt.1.stop + 1) (start_mem_refineBounds pairs rt hne) hcb.1
    (stop_mem_refineBounds pairs rt hne) (by omega)
  have hmemv : rt.2 ∈ atomVals pairs α := by
    rw [mem_atomVals]
    refine ⟨rt, hne, ?_, rfl⟩
    rw [← refine_atom_exact pairs α hα c h1 h2 rt hne]
    exact hc
  refine ⟨(α, atomVals pairs α), ?_, h1, h2⟩
  rw [refineSets, List.mem_filterMap]
  refine ⟨α, hα, ?_⟩
  rw [if_neg ?_]
  intro hcon
  cases hav : atomVals pairs α with
  | nil => rw [hav] at hmemv; cases hmemv
  | cons a l => rw [hav] at hcon; simp [List.isEmpty] at hcon

end RegexDfa

namespace RegexDfa

/-! ## Semantics of set complement (`CharSet::negated`) -/

theorem containsChar_iff (r : CharRange) (c : Nat) :
    r.containsChar c = true ↔ r.start ≤ c ∧ c ≤ r.stop := by
  rw [CharRange.containsChar, Bool.and_eq_true, decide_eq_true_eq, decide_eq_true_eq]

theorem containsChar_false_iff (r : CharRange) (c : Nat) :
    r.containsChar c = false ↔ ¬(r.start ≤ c ∧ c ≤ r.stop) := by
  rw [← Bool.not_eq_true, containsChar_iff]

/-- A scalar is covered by the subtraction `base \ r` exactly when it is in
`base` and not in `r`. -/
theorem mem_rangeSub1_iff (base r : CharRange) (c : Nat) :
    (∃ b ∈ rangeSub1 base r, b.containsChar c = true) ↔
      base.containsChar c = true ∧ r.containsChar c = false := by
  rw [rangeSub1]
  split_ifs with h1 h2 h3 h4
  · simp only [List.mem_singleton, exists_eq_left, containsChar_iff,
      containsChar_false_iff]
    omega
  · simp only [Bool.or_eq_true, decide_eq_true_eq] at h2
    simp only [List.mem_singleton, exists_eq_left, containsChar_iff,
      containsChar_false_iff]
    omega
  · simp only [Bool.or_eq_true, decide_eq_true_eq, not_or, not_lt] at h2
    simp only [List.mem_append, List.mem_singleton, containsChar_iff,
      containsChar_false_iff]
    constructor
    · intro hex
      obtain ⟨b, hb, hc⟩ := hex
      cases hb with
      | inl hb => subst hb; dsimp only at hc; omega
      | inr hb => subst hb; dsimp only at hc; omega
    · intro hc
      by_cases hlt : c < r.start
      · exact ⟨⟨base.start, r.start - 1⟩, Or.inl rfl, by dsimp only; omega⟩
      · exact ⟨⟨r.stop + 1, base.stop⟩, Or.inr rfl, by dsimp only; omega⟩
  · simp only [Bool.or_eq_true, decide_eq_true_eq, not_or, not_lt] at h2
    simp only [List.mem_append, List.mem_singleton, List.not_mem_nil, or_false,
      containsChar_iff, containsChar_false_iff]
    constructor
    · intro hex
      obtain ⟨b, hb, hc⟩ := hex
      subst hb
      dsimp only at hc
      omega
    · intro hc
      exact ⟨⟨base.start, r.start - 1⟩, rfl, by dsimp only; omega⟩
  · simp only [Bool.or_eq_true, decide_eq_true_eq, not_or, not_lt] at h2
    simp only [List.mem_append, List.not_mem_nil, false_or, List.mem_singleton,
      containsChar_iff, containsChar_false_iff]
    constructor
    · intro hex
      obtain ⟨b, hb, hc⟩ := hex
      subst hb
      dsimp only at hc
      omega
    · intro hc
      exact ⟨⟨r.stop + 1, base.stop⟩, rfl, by dsimp only; omega⟩
  · simp only [Bool.or_eq_true, decide_eq_true_eq, not_or, not_lt] at h2
    simp only [List.append_nil, List.not_mem_nil, false_and, exists_false,
      false_iff, containsChar_iff, containsChar_false_iff]
    intro hb
    omega

theorem mem_rangesSub_iff (bases : List CharRange) (r : CharRange) (c : Nat) :
    (∃ b ∈ rangesSub bases r, b.containsChar c = true) ↔
      (∃ b ∈ bases, b.containsChar c = true) ∧ r.containsChar c = false := by
  rw [rangesSub]
  constructor
  · intro hex
    obtain ⟨b, hb, hc⟩ := hex
    rw [List.mem_flatMap] at hb
    obtain ⟨base, hbase, hbm⟩ := hb
    have := (mem_rangeSub1_iff base r c).mp ⟨b, hbm, hc⟩
    exact ⟨⟨base, hbase, this.1⟩, this.2⟩
  · intro hex
    obtain ⟨⟨base, hbase, hbc⟩, hrc⟩ := hex
    obtain ⟨b, hbm, hc⟩ := (mem_rangeSub1_iff base r c).mpr ⟨hbc, hrc⟩
    exact ⟨b, List.mem_flatMap.mpr ⟨base, hbase, hbm⟩, hc⟩

theorem foldl_rangesSub_iff (rs : List CharRange) (init : List CharRange) (c : Nat) :
    (∃ b ∈ List.foldl rangesSub init rs, b.containsChar c = true) ↔
      (∃ b ∈ init, b.containsChar c = true) ∧
        ∀ r ∈ rs, r.containsChar c = false := by
  induction rs generalizing init with
  | nil => simp
  | cons r rs ih =>
      rw [List.foldl_cons, ih, mem_rangesSub_iff]
      constructor
      · intro hx
        refine ⟨hx.1.1, ?_⟩
        intro r' hr'
        cases hr' with
        | head => exact hx.1.2
        | tail _ hm => exact hx.2 r' hm
      · intro hx
        exact ⟨⟨hx.1, hx.2 r (List.mem_cons_self r rs)⟩,
          fun r' hr' => hx.2 r' (List.mem_cons_of_mem r hr')⟩

/-- The valid Unicode scalar values: the surrogate gap is excluded. -/
def validScalar (c : Nat) : Prop :=
  c ≤ 55295 ∨ (57344 ≤ c ∧ c ≤ 1114111)

instance (c : Nat) : Decidable (validScalar c) := by
  rw [validScalar]
  infer_instance

/-- `CharSet::negated` semantics: a scalar is in the complement exactly when
it is a valid scalar not in the set. -/
theorem negated_contains_iff (cs : CharSet) (c : Nat) :
    CharSet.contains (CharSet.negated cs) c = true ↔
      validScalar c ∧ CharSet.contains cs c = false := by
  rw [CharSet.negated, CharSet.contains, List.any_eq_true]
  constructor
  · intro hex
    obtain ⟨ru, hru, hc⟩ := hex
    rw [List.mem_map] at hru
    obtain ⟨b, hb, hbe⟩ := hru
    have hb' : b.containsChar c = true := by rw [← hbe] at hc; exact hc
    have := (foldl_rangesSub_iff _ _ c).mp ⟨b, hb, hb'⟩
    obtain ⟨⟨b0, hb0, hb0c⟩, hall⟩ := this
    constructor
    · rw [containsChar_iff] at hb0c
      simp only [List.mem_cons, List.not_mem_nil, or_false] at hb0
      rw [validScalar]
      cases hb0 with
      | inl h => subst h; dsimp only at hb0c; omega
      | inr h => subst h; dsimp only at hb0c; omega
    · rw [CharSet.contains]
      simp only [List.any_eq_false]
      intro ru hru
      have : ru.1 ∈ cs.map (fun ru => ru.1) := List.mem_map.mpr ⟨ru, hru, rfl⟩
      rw [hall ru.1 this]
      simp
  · intro hx
    obtain ⟨hv, hnc⟩ := hx
    have hinit : ∃ b ∈ [CharRange.mk 0 55295, CharRange.mk 57344 1114111],
        b.containsChar c = true := by
      rw [validScalar] at hv
      cases hv with
      | inl h =>
          exact ⟨CharRange.mk 0 55295, List.mem_cons_self _ _, by
            rw [containsChar_iff]; dsimp only; omega⟩
      | inr h =>
          refine ⟨CharRange.mk 57344 1114111, ?_, by rw [containsChar_iff]; dsimp only; omega⟩
          exact List.mem_cons_of_mem _ (List.mem_cons_self _ _)
    have hall : ∀ r ∈ cs.map (fun ru => ru.1), r.containsChar c = false := by
      intro r hr
      rw [List.mem_map] at hr
      obtain ⟨ru, hru, hre⟩ := hr
      rw [CharSet.contains, List.any_eq_false] at hnc
      have := hnc ru hru
      rw [← hre]
      rw [← Bool.not_eq_true]
      exact this
    obtain ⟨b, hb, hbc⟩ := (foldl_rangesSub_iff _ _ c).mpr ⟨hinit, hall⟩
    exact ⟨(b, ()), List.mem_map.mpr ⟨b, hb, rfl⟩, hbc⟩

end RegexDfa

namespace RegexDfa

/-! ### Semantics of `Dfa::rejects` -/

/-- A set forgets values; its containment test sees exactly the ranges. -/
theorem to_char_set_contains_false_iff {V : Type} (m : CharMap V) (c : Nat) :
    CharSet.contains (CharMap.to_char_set m) c = false ↔ CharMap.get m c = none := by
  rw [charMap_get_eq_none_iff, CharMap.to_char_set, CharSet.contains, List.any_eq_false]
  constructor
  · intro h rt hrt
    have := h (rt.1, ()) (List.mem_map.mpr ⟨rt, hrt, rfl⟩)
    simpa using this
  · intro h ru hru
    rw [List.mem_map] at hru
    obtain ⟨rt, hrt, hre⟩ := hru
    have := h rt hrt
    rw [← hre]
    simpa using this

/-- The reject map of state `idx` holds exactly the valid scalars with no
outgoing transition, each labeled `idx`. -/
theorem rejects_mem_iff (d : Dfa) (idx c v : Nat) :
    (∃ rt ∈ Dfa.rejects d idx, rt.1.containsChar c = true ∧ rt.2 = v) ↔
      v = idx ∧ validScalar c ∧ CharMap.get (transAt d idx) c = none := by
  rw [Dfa.rejects, CharSet.to_char_map]
  constructor
  · intro hex
    obtain ⟨rt, hrt, hc, hv⟩ := hex
    rw [List.mem_map] at hrt
    obtain ⟨ru, hru, hre⟩ := hrt
    have hc' : ru.1.containsChar c = true := by rw [← hre] at hc; exact hc
    have hneg : CharSet.contains
        (CharSet.negated (CharMap.to_char_set (transAt d idx))) c = true := by
      rw [CharSet.contains, List.any_eq_true]
      exact ⟨ru, hru, hc'⟩
    rw [negated_contains_iff, to_char_set_contains_false_iff] at hneg
    have hvidx : v = idx := by rw [← hre] at hv; exact hv.symm ▸ hv
    refine ⟨?_, hneg.1, hneg.2⟩
    rw [← hv, ← hre]
  · intro hx
    obtain ⟨hv, hvs, hnone⟩ := hx
    have hneg : CharSet.contains
        (CharSet.negated (CharMap.to_char_set (transAt d idx))) c = true := by
      rw [negated_contains_iff, to_char_set_contains_false_iff]
      exact ⟨hvs, hnone⟩
    rw [CharSet.contains, List.any_eq_true] at hneg
    obtain ⟨ru, hru, hc⟩ := hneg
    exact ⟨(ru.1, idx), List.mem_map.mpr ⟨ru, hru, rfl⟩, hc, hv.symm⟩

/-! ### Semantics of `CharMap::normalize` -/

/-- `c` is covered with value `v` somewhere in the map. -/
def coverVal {V : Type} (m : CharMap V) (c : Nat) (v : V) : Prop :=
  ∃ rt ∈ m, rt.1.containsChar c = true ∧ rt.2 = v

theorem coverVal_of_perm {V : Type} {m m' : CharMap V} (h : m.Perm m')
    (c : Nat) (v : V) : coverVal m c v ↔ coverVal m' c v := by
  rw [coverVal, coverVal]
  constructor <;> intro hx <;> obtain ⟨rt, h1, h2⟩ := hx
  · exact ⟨rt, h.mem_iff.mp h1, h2⟩
  · exact ⟨rt, h.mem_iff.mpr h1, h2⟩

theorem coverVal_cons {V : Type} (a : CharRange × V) (m : CharMap V)
    (c : Nat) (v : V) :
    coverVal (a :: m) c v ↔
      (a.1.containsChar c = true ∧ a.2 = v) ∨ coverVal m c v := by
  rw [coverVal, coverVal]
  constructor
  · intro hx
    obtain ⟨rt, h1, h2⟩ := hx
    rcases List.mem_cons.mp h1 with he | hm
    · subst he; exact Or.inl h2
    · exact Or.inr ⟨rt, hm, h2⟩
  · intro hx
    rcases hx with h | ⟨rt, hm, h2⟩
    · exact ⟨a, List.mem_cons_self a m, h⟩
    · exact ⟨rt, List.mem_cons_of_mem a hm, h2⟩

theorem insRangeSorted_perm {V : Type} (x : CharRange × V) (l : List (CharRange × V)) :
    (insRangeSorted x l).Perm (x :: l) := by
  induction l with
  | nil => exact List.Perm.refl _
  | cons y l ih =>
      rw [insRangeSorted]
      split_ifs with h
      · exact List.Perm.refl _
      · exact (ih.cons y).trans (List.Perm.swap x y l)

theorem sortRanges_perm {V : Type} (m : CharMap V) : (CharMap.sortRanges m).Perm m := by
  rw [CharMap.sortRanges]
  induction m with
  | nil => exact List.Perm.refl _
  | cons x l ih =>
      rw [List.foldr_cons]
      exact (insRangeSorted_perm x _).trans (ih.cons x)

theorem mem_insRangeSorted {V : Type} (x z : CharRange × V) (l : List (CharRange × V)) :
    z ∈ insRangeSorted x l ↔ z = x ∨ z ∈ l := by
  rw [(insRangeSorted_perm x l).mem_iff]
  simp

theorem sorted_insRangeSorted {V : Type} (x : CharRange × V) (l : List (CharRange × V))
    (h : l.Pairwise (fun a b => a.1.start ≤ b.1.start)) :
    (insRangeSorted x l).Pairwise (fun a b => a.1.start ≤ b.1.start) := by
  induction l with
  | nil => simp [insRangeSorted]
  | cons y l ih =>
      rw [List.pairwise_cons] at h
      rw [insRangeSorted]
      split_ifs with hle
      · rw [List.pairwise_cons]
        refine ⟨?_, List.pairwise_cons.mpr h⟩
        intro b hb
        rcases List.mem_cons.mp hb with he | hm
        · rw [he]; exact hle
        · exact le_trans hle (h.1 b hm)
      · rw [List.pairwise_cons]
        refine ⟨?_, ih h.2⟩
        intro b hb
        rcases (mem_insRangeSorted x b l).mp hb with he | hm
        · rw [he]; omega
        · exact h.1 b hm

theorem sorted_sortRanges {V : Type} (m : CharMap V) :
    (CharMap.sortRanges m).Pairwise (fun a b => a.1.start ≤ b.1.start) := by
  rw [CharMap.sortRanges]
  induction m with
  | nil => simp
  | cons x l ih =>
      rw [List.foldr_cons]
      exact sorted_insRangeSorted x _ ih

theorem mergeSortedAux_zero {V : Type} [DecidableEq V] (l : List (CharRange × V)) :
    mergeSortedAux 0 l = l := by
  match l with
  | [] => rfl
  | [x] => rfl
  | x :: y :: l => rfl

theorem mergeSortedAux_succ_cons {V : Type} [DecidableEq V] (fuel : Nat)
    (x y : CharRange × V) (l : List (CharRange × V)) :
    mergeSortedAux (fuel + 1) (x :: y :: l) =
      if x.2 = y.2 ∧ y.1.start ≤ x.1.stop + 1 then
        mergeSortedAux fuel ((CharRange.mk x.1.start (max x.1.stop y.1.stop), x.2) :: l)
      else x :: mergeSortedAux fuel (y :: l) := rfl

/-- Merging adjacent equal-valued ranges of a start-sorted list preserves the
covered (scalar, value) pairs. -/
theorem mergeSortedAux_cover {V : Type} [DecidableEq V] (c : Nat) (v : V) :
    ∀ (fuel : Nat) (l : List (CharRange × V)),
      l.Pairwise (fun a b => a.1.start ≤ b.1.start) →
      (coverVal (mergeSortedAux fuel l) c v ↔ coverVal l c v) := by
  intro fuel
  induction fuel with
  | zero => intro l _; rw [mergeSortedAux_zero]
  | succ fuel ih =>
      intro l hs
      match l with
      | [] => exact Iff.rfl
      | [x] => exact Iff.rfl
      | x :: y :: l =>
          rw [mergeSortedAux_succ_cons]
          rw [List.pairwise_cons] at hs
          have hxy : x.1.start ≤ y.1.start := hs.1 y (List.mem_cons_self y l)
          split_ifs with h
          · have hsorted' : ((CharRange.mk x.1.start (max x.1.stop y.1.stop), x.2) :: l).Pairwise
                (fun a b => a.1.start ≤ b.1.start) := by
              rw [List.pairwise_cons]
              refine ⟨?_, (List.pairwise_cons.mp hs.2).2⟩
              intro b hb
              dsimp only
              exact hs.1 b (List.mem_cons_of_mem y hb)
            rw [ih _ hsorted']
            rw [coverVal_cons, coverVal_cons, coverVal_cons]
            have hcc : (CharRange.mk x.1.start (max x.1.stop y.1.stop)).containsChar c = true ↔
                x.1.containsChar c = true ∨ y.1.containsChar c = true := by
              rw [containsChar_iff, containsChar_iff, containsChar_iff]
              dsimp only
              omega
            constructor
            · intro hx
              rcases hx with ⟨hc1, hv1⟩ | hcv
              · dsimp only at hc1 hv1
                rcases hcc.mp hc1 with hcx | hcy
                · exact Or.inl ⟨hcx, hv1⟩
                · exact Or.inr (Or.inl ⟨hcy, h.1 ▸ hv1⟩)
              · exact Or.inr (Or.inr hcv)
            · intro hx
              rcases hx with ⟨hc1, hv1⟩ | ⟨hc1, hv1⟩ | hcv
              · exact Or.inl ⟨hcc.mpr (Or.inl hc1), hv1⟩
              · exact Or.inl ⟨hcc.mpr (Or.inr hc1), h.1.symm ▸ hv1⟩
              · exact Or.inr hcv
          · rw [coverVal_cons, coverVal_cons, ih _ hs.2]

theorem normalize_cover {V : Type} [DecidableEq V] (m : CharMap V) (c : Nat) (v : V) :
    coverVal (CharMap.normalize m) c v ↔ coverVal m c v := by
  rw [CharMap.normalize, mergeSortedAux_cover c v _ _ (sorted_sortRanges m)]
  exact coverVal_of_perm (sortRanges_perm m) c v

theorem detMap_coverVal_unique (m : CharMap Nat) (hdet : DetMap m) (c v1 v2 : Nat)
    (h1 : coverVal m c v1) (h2 : coverVal m c v2) : v1 = v2 := by
  obtain ⟨rt1, hm1, hc1, hv1⟩ := h1
  obtain ⟨rt2, hm2, hc2, hv2⟩ := h2
  rw [← hv1, ← hv2]
  exact detMap_same_char m hdet rt1 hm1 rt2 hm2 c hc1 hc2

theorem detMap_of_cover_equiv (m m' : CharMap Nat) (hdet : DetMap m)
    (heq : ∀ c v, coverVal m' c v ↔ coverVal m c v) : DetMap m' := by
  intro rt1 h1 rt2 h2 hov
  have hc1 : rt1.1.containsChar (max rt1.1.start rt2.1.start) = true := by
    rw [containsChar_iff]; omega
  have hc2 : rt2.1.containsChar (max rt1.1.start rt2.1.start) = true := by
    rw [containsChar_iff]; omega
  exact detMap_coverVal_unique m hdet _ _ _
    ((heq _ _).mp ⟨rt1, h1, hc1, rfl⟩) ((heq _ _).mp ⟨rt2, h2, hc2, rfl⟩)

theorem get_eq_of_cover_equiv (m m' : CharMap Nat) (hdet : DetMap m)
    (heq : ∀ c v, coverVal m' c v ↔ coverVal m c v) (c : Nat) :
    CharMap.get m' c = CharMap.get m c := by
  have hdet' := detMap_of_cover_equiv m m' hdet heq
  cases hg : CharMap.get m c with
  | none =>
      cases hg' : CharMap.get m' c with
      | none => rfl
      | some v =>
          obtain ⟨rt, hm, hc, hv⟩ := charMap_get_mem m' c v hg'
          obtain ⟨rt2, hm2, hc2, hv2⟩ := (heq c v).mp ⟨rt, hm, hc, hv⟩
          rw [charMap_get_eq_none_iff] at hg
          rw [hg rt2 hm2] at hc2
          cases hc2
  | some v =>
      obtain ⟨rt, hm, hc, hv⟩ := charMap_get_mem m c v hg
      obtain ⟨rt2, hm2, hc2, hv2⟩ := (heq c v).mpr ⟨rt, hm, hc, hv⟩
      rw [charMap_get_det m' hdet' c rt2 hm2 hc2, hv2]

theorem get_normalize (m : CharMap Nat) (hdet : DetMap m) (c : Nat) :
    CharMap.get (CharMap.normalize m) c = CharMap.get m c :=
  get_eq_of_cover_equiv m _ hdet (fun c v => normalize_cover m c v) c

theorem detMap_normalize (m : CharMap Nat) (hdet : DetMap m) :
    DetMap (CharMap.normalize m) :=
  detMap_of_cover_equiv m _ hdet (fun c v => normalize_cover m c v)

theorem charMap_get_map (m : CharMap Nat) (f : Nat → Nat) (c : Nat) :
    CharMap.get (m.map (fun rt => (rt.1, f rt.2))) c = (CharMap.get m c).map f := by
  induction m with
  | nil => rfl
  | cons rt rest ih =>
      rw [List.map_cons, CharMap.get, CharMap.get]
      by_cases hc : rt.1.containsChar c
      · rw [if_pos hc, if_pos hc]
        rfl
      · rw [if_neg hc, if_neg hc]
        exact ih

theorem detMap_map (m : CharMap Nat) (f : Nat → Nat) (hdet : DetMap m) :
    DetMap (m.map (fun rt => (rt.1, f rt.2))) := by
  intro rt1 h1 rt2 h2 hov
  rw [List.mem_map] at h1 h2
  obtain ⟨a1, ha1, he1⟩ := h1
  obtain ⟨a2, ha2, he2⟩ := h2
  rw [← he1, ← he2] at hov ⊢
  dsimp only at hov ⊢
  rw [hdet a1 ha1 a2 ha2 hov]

theorem mergeSortedAux_values {V : Type} [DecidableEq V] :
    ∀ (fuel : Nat) (l : List (CharRange × V)), ∀ rt ∈ mergeSortedAux fuel l,
      ∃ rt0 ∈ l, rt.2 = rt0.2 := by
  intro fuel
  induction fuel with
  | zero => intro l rt h; rw [mergeSortedAux_zero] at h; exact ⟨rt, h, rfl⟩
  | succ fuel ih =>
      intro l rt h
      match l with
      | [] => cases h
      | [x] => exact ⟨rt, h, rfl⟩
      | x :: y :: l =>
          rw [mergeSortedAux_succ_cons] at h
          split_ifs at h with hcond
          · obtain ⟨rt0, hm0, hv0⟩ := ih _ rt h
            rcases List.mem_cons.mp hm0 with he | hm
            · refine ⟨x, List.mem_cons_self x _, ?_⟩
              rw [hv0, he]
            · exact ⟨rt0, List.mem_cons_of_mem x (List.mem_cons_of_mem y hm), hv0⟩
          · rcases List.mem_cons.mp h with he | hm
            · exact ⟨x, List.mem_cons_self x _, by rw [he]⟩
            · obtain ⟨rt0, hm0, hv0⟩ := ih _ rt hm
              exact ⟨rt0, List.mem_cons_of_mem x hm0, hv0⟩

theorem normalize_values {V : Type} [DecidableEq V] (m : CharMap V) :
    ∀ rt ∈ CharMap.normalize m, ∃ rt0 ∈ m, rt.2 = rt0.2 := by
  intro rt h
  rw [CharMap.normalize] at h
  obtain ⟨rt0, hm0, hv0⟩ := mergeSortedAux_values _ _ rt h
  exact ⟨rt0, (sortRanges_perm m).mem_iff.mp hm0, hv0⟩

end RegexDfa

namespace RegexDfa

/-! ### Observational equivalence of states (partial bisimilarity) -/

/-- Lift a relation on states to optional states: `none` (no transition) is
related only to `none`. -/
def relO (R : Nat → Nat → Prop) : Option Nat → Option Nat → Prop
  | none, none => True
  | some t1, some t2 => R t1 t2
  | _, _ => False

theorem relO_cases (R : Nat → Nat → Prop) (o1 o2 : Option Nat) (h : relO R o1 o2) :
    (o1 = none ∧ o2 = none) ∨
      ∃ t1 t2, o1 = some t1 ∧ o2 = some t2 ∧ R t1 t2 := by
  match o1, o2 with
  | none, none => exact Or.inl ⟨rfl, rfl⟩
  | some t1, some t2 => exact Or.inr ⟨t1, t2, rfl, rfl, h⟩
  | none, some t2 => exact (h : False).elim
  | some t1, none => exact (h : False).elim

/-- `n`-step observational equivalence: same accept condition and matching
transitions, to depth `n`.  Two states are related only if they have
transitions on exactly the same characters, mirroring the minimizer's
reject-set refinement. -/
def eqvN (d : Dfa) : Nat → Nat → Nat → Prop
  | 0, _, _ => True
  | n + 1, p, q =>
      acceptAt d p = acceptAt d q ∧
        ∀ c, relO (eqvN d n) (step d p c) (step d q c)

theorem eqvN_succ_def (d : Dfa) (n p q : Nat) :
    eqvN d (n + 1) p q =
      (acceptAt d p = acceptAt d q ∧
        ∀ c, relO (eqvN d n) (step d p c) (step d q c)) := rfl

/-- Full observational equivalence. -/
def eqv (d : Dfa) (p q : Nat) : Prop := ∀ n, eqvN d n p q

theorem eqvN_refl (d : Dfa) : ∀ n p, eqvN d n p p := by
  intro n
  induction n with
  | zero => intro p; exact trivial
  | succ n ih =>
      intro p
      rw [eqvN_succ_def]
      refine ⟨rfl, fun c => ?_⟩
      cases step d p c with
      | none => exact trivial
      | some t => exact ih t

theorem eqvN_symm (d : Dfa) : ∀ n p q, eqvN d n p q → eqvN d n q p := by
  intro n
  induction n with
  | zero => intro p q _; exact trivial
  | succ n ih =>
      intro p q h
      rw [eqvN_succ_def] at h ⊢
      refine ⟨h.1.symm, fun c => ?_⟩
      rcases relO_cases _ _ _ (h.2 c) with ⟨h1, h2⟩ | ⟨t1, t2, h1, h2, hr⟩
      · rw [h1, h2]
        exact trivial
      · rw [h1, h2]
        exact ih t1 t2 hr

theorem eqvN_trans (d : Dfa) : ∀ n p q r, eqvN d n p q → eqvN d n q r → eqvN d n p r := by
  intro n
  induction n with
  | zero => intro p q r _ _; exact trivial
  | succ n ih =>
      intro p q r h1 h2
      rw [eqvN_succ_def] at h1 h2 ⊢
      refine ⟨h1.1.trans h2.1, fun c => ?_⟩
      rcases relO_cases _ _ _ (h1.2 c) with ⟨ha, hb⟩ | ⟨t1, t2, ha, hb, hr⟩ <;>
        rcases relO_cases _ _ _ (h2.2 c) with ⟨hc, hd⟩ | ⟨t3, t4, hc, hd, hr2⟩
      · rw [ha, hd]
        exact trivial
      · rw [hb] at hc
        cases hc
      · rw [hb] at hc
        cases hc
      · rw [ha, hd]
        rw [hb] at hc
        have ht : t2 = t3 := Option.some.inj hc
        rw [ht] at hr
        exact ih t1 t3 t4 hr hr2

theorem eqv_refl (d : Dfa) (p : Nat) : eqv d p p := fun n => eqvN_refl d n p

theorem eqv_symm (d : Dfa) (p q : Nat) (h : eqv d p q) : eqv d q p :=
  fun n => eqvN_symm d n p q (h n)

theorem eqv_accept (d : Dfa) (p q : Nat) (h : eqv d p q) :
    acceptAt d p = acceptAt d q := by
  have h1 := h 1
  rw [eqvN_succ_def] at h1
  exact h1.1

theorem eqv_step (d : Dfa) (p q : Nat) (h : eqv d p q) (c : Nat) :
    (step d p c = none ∧ step d q c = none) ∨
      ∃ t1 t2, step d p c = some t1 ∧ step d q c = some t2 ∧ eqv d t1 t2 := by
  have h1 := h 1
  rw [eqvN_succ_def] at h1
  rcases relO_cases _ _ _ (h1.2 c) with hn | ⟨t1, t2, he1, he2, _⟩
  · exact Or.inl hn
  · refine Or.inr ⟨t1, t2, he1, he2, fun n => ?_⟩
    have hs := h (n + 1)
    rw [eqvN_succ_def] at hs
    have hrel := hs.2 c
    rw [he1, he2] at hrel
    exact hrel

/-- Step targets of a target-sound DFA are state indices. -/
theorem step_lt (d : Dfa) (htgt : TargetsOk d) (p c t : Nat)
    (h : step d p c = some t) : t < d.states.length := by
  obtain ⟨rt, hm, _, hv⟩ := charMap_get_mem _ _ _ h
  have := targetsOk_transAt d htgt p rt hm
  rw [hv] at this
  exact this

end RegexDfa

namespace RegexDfa

/-! ### Soundness of the refinement: blocks and splitters are unions of
equivalence classes -/

theorem contains_iff_mem (l : List Nat) (x : Nat) : l.contains x = true ↔ x ∈ l := by
  simp

/-- A set of states closed under observational equivalence. -/
def SetSat (d : Dfa) (S : List Nat) : Prop :=
  ∀ p ∈ S, ∀ q, q < d.states.length → eqv d q p → q ∈ S

/-- Every member of the collection is closed under equivalence. -/
def AllSat (d : Dfa) (L : List (List Nat)) : Prop := ∀ S ∈ L, SetSat d S

theorem splitSet_sat (d : Dfa) (part other : List Nat)
    (hbd : ∀ x ∈ part, x < d.states.length)
    (hpart : SetSat d part) (hoth : SetSat d other)
    (yy : List Nat × List Nat) (h : splitSet part other = some yy) :
    SetSat d yy.1 ∧ SetSat d yy.2 := by
  obtain ⟨h1, h2⟩ := splitSet_eq_some part other yy h
  constructor
  · rw [h1]
    intro p hp q hq heq
    rw [List.mem_filter] at hp ⊢
    refine ⟨hpart p hp.1 q hq heq, ?_⟩
    rw [contains_iff_mem] at hp ⊢
    exact hoth p hp.2 q hq heq
  · rw [h2]
    intro p hp q hq heq
    rw [List.mem_filter] at hp
    have hpmem : p ∈ part := hp.1
    have hpno : p ∉ other := by
      have h2' := hp.2
      rw [Bool.not_eq_true', ← Bool.not_eq_true, contains_iff_mem] at h2'
      exact h2'
    rw [List.mem_filter]
    refine ⟨hpart p hpmem q hq heq, ?_⟩
    rw [Bool.not_eq_true', ← Bool.not_eq_true, contains_iff_mem]
    intro hqo
    exact hpno (hoth q hqo p (hbd p hpmem) (eqv_symm d q p heq))

end RegexDfa

namespace RegexDfa

/-- All members of all sets are state indices. -/
def AllBdd (d : Dfa) (L : List (List Nat)) : Prop :=
  ∀ S ∈ L, ∀ x ∈ S, x < d.states.length

theorem mem_insertDist (W : List (List Nat)) (x y : List Nat)
    (h : y ∈ insertDist W x) : y ∈ W ∨ y = x := by
  rw [insertDist] at h
  split_ifs at h with hc
  · exact Or.inl h
  · rcases List.mem_append.mp h with hm | hm
    · exact Or.inl hm
    · right
      simpa using hm

/-- The worklist after one splitting pass holds only closed sets when the
inputs are closed. -/
theorem splitAgainst_sat_snd (d : Dfa) (s : List Nat) (hs : SetSat d s) :
    ∀ parts dists, AllBdd d parts → AllSat d parts → AllSat d dists →
      AllSat d (splitAgainst s parts dists).2 := by
  intro parts
  induction parts with
  | nil => intro dists _ _ hd; exact hd
  | cons y rest ih =>
      intro dists hbd hp hd
      rw [splitAgainst]
      cases hsp : splitSet y s with
      | none =>
          exact ih _ (fun S hS => hbd S (List.mem_cons_of_mem y hS))
            (fun S hS => hp S (List.mem_cons_of_mem y hS)) hd
      | some yy =>
          dsimp only
          have hpieces := splitSet_sat d y s (hbd y (List.mem_cons_self y rest))
            (hp y (List.mem_cons_self y rest)) hs yy hsp
          refine ih _ (fun S hS => hbd S (List.mem_cons_of_mem y hS))
            (fun S hS => hp S (List.mem_cons_of_mem y hS)) ?_
          intro S hS
          split_ifs at hS with h1 h2
          · rcases mem_insertDist _ _ _ hS with hS' | hS'
            · rcases mem_insertDist _ _ _ hS' with hS'' | hS''
              · exact hd S (List.mem_of_mem_filter hS'')
              · rw [hS'']
                exact hpieces.1
            · rw [hS']
              exact hpieces.2
          · rcases mem_insertDist _ _ _ hS with hS' | hS'
            · exact hd S hS'
            · rw [hS']
              exact hpieces.1
          · rcases mem_insertDist _ _ _ hS with hS' | hS'
            · exact hd S hS'
            · rw [hS']
              exact hpieces.2

/-- A refined partition keeps all classes closed. -/
theorem refinePartition_sat (d : Dfa) (parts : List (List Nat)) (s : List Nat)
    (hbd : AllBdd d parts) (hp : AllSat d parts) (hs : SetSat d s) :
    AllSat d (refinePartition parts s) := by
  intro q hq
  obtain ⟨p, hpm, hcase⟩ := refinePartition_pieces parts s q hq
  have hbp := hbd p hpm
  have hsp := hp p hpm
  rcases hcase with hc | hc | hc
  · rw [hc]; exact hsp
  · rw [hc]
    intro a ha b hbn heq
    rw [List.mem_filter] at ha ⊢
    refine ⟨hsp a ha.1 b hbn heq, ?_⟩
    have ha2 := ha.2
    rw [contains_iff_mem] at ha2 ⊢
    exact hs a ha2 b hbn heq
  · rw [hc]
    intro a ha b hbn heq
    rw [List.mem_filter] at ha
    have hano : a ∉ s := by
      have h2' := ha.2
      rw [Bool.not_eq_true', ← Bool.not_eq_true, contains_iff_mem] at h2'
      exact h2'
    rw [List.mem_filter]
    refine ⟨hsp a ha.1 b hbn heq, ?_⟩
    rw [Bool.not_eq_true', ← Bool.not_eq_true, contains_iff_mem]
    intro hbs
    exact hano (hs b hbs a (hbp a ha.1) (eqv_symm d b a heq))

theorem refinePartition_bdd (d : Dfa) (parts : List (List Nat)) (s : List Nat)
    (hbd : AllBdd d parts) : AllBdd d (refinePartition parts s) := by
  intro q hq
  obtain ⟨p, hpm, hsub⟩ := refinePartition_sub parts s q hq
  intro x hx
  exact hbd p hpm x (hsub x hx)

/-! ### The reversed transitions and the splitter sets -/

theorem mem_dfaRevTransAux (t : Nat) :
    ∀ (l : List DfaState) (idx : Nat) (rt : CharRange × Nat),
      rt ∈ dfaRevTransAux t idx l ↔
        ∃ j, ∃ hj : j < l.length, (rt.1, t) ∈ l[j].transitions ∧ rt.2 = idx + j := by
  intro l
  induction l with
  | nil => intro idx rt; simp [dfaRevTransAux]
  | cons st rest ih =>
      intro idx rt
      rw [dfaRevTransAux, List.mem_append]
      constructor
      · intro h
        rcases h with h | h
        · rw [List.mem_filterMap] at h
          obtain ⟨e, he, hf⟩ := h
          split_ifs at hf with ht
          · have hinj := Option.some.inj hf
            refine ⟨0, by simp, ?_, ?_⟩
            · rw [List.getElem_cons_zero]
              have h1 : rt.1 = e.1 := by rw [← hinj]
              have h2 : (rt.1, t) = e := by
                rw [h1, ← ht]
              rw [h2]
              exact he
            · rw [← hinj]
              dsimp only
              omega
        · obtain ⟨j, hj, hm, hrt2⟩ := (ih (idx + 1) rt).mp h
          refine ⟨j + 1, by simp only [List.length_cons]; omega, ?_, by omega⟩
          rw [List.getElem_cons_succ]
          exact hm
      · intro h
        obtain ⟨j, hj, hm, hrt2⟩ := h
        cases j with
        | zero =>
            left
            rw [List.mem_filterMap]
            rw [List.getElem_cons_zero] at hm
            refine ⟨(rt.1, t), hm, ?_⟩
            rw [if_pos rfl]
            have h3 : rt = (rt.1, idx) := by
              rw [Prod.ext_iff]
              exact ⟨rfl, by omega⟩
            rw [← h3]
        | succ j =>
            right
            rw [List.getElem_cons_succ] at hm
            refine (ih (idx + 1) rt).mpr ⟨j, ?_, hm, by omega⟩
            simp only [List.length_cons] at hj
            omega

theorem mem_reversedTransFrom (d : Dfa) (t : Nat) (rt : CharRange × Nat) :
    rt ∈ Dfa.reversedTransFrom d t ↔
      rt.2 < d.states.length ∧ (rt.1, t) ∈ transAt d rt.2 := by
  rw [Dfa.reversedTransFrom, mem_dfaRevTransAux]
  constructor
  · intro h
    obtain ⟨j, hj, hm, hrt2⟩ := h
    have hj' : rt.2 = j := by omega
    refine ⟨by omega, ?_⟩
    rw [transAt, hj', List.getD_eq_getElem d.states default hj]
    exact hm
  · intro h
    obtain ⟨hlt, hm⟩ := h
    refine ⟨rt.2, hlt, ?_, by omega⟩
    rw [transAt, List.getD_eq_getElem d.states default hlt] at hm
    exact hm

theorem revPairs_mem (d : Dfa) (dist : List Nat) (rt : CharRange × Nat) :
    rt ∈ dist.flatMap (fun t => Dfa.reversedTransFrom d t) ↔
      ∃ t ∈ dist, rt.2 < d.states.length ∧ (rt.1, t) ∈ transAt d rt.2 := by
  rw [List.mem_flatMap]
  constructor
  · intro h
    obtain ⟨t, htd, hm⟩ := h
    rw [mem_reversedTransFrom] at hm
    exact ⟨t, htd, hm⟩
  · intro h
    obtain ⟨t, htd, hm⟩ := h
    refine ⟨t, htd, ?_⟩
    rw [mem_reversedTransFrom]
    exact hm

/-- Membership in a splitter set of a distinguisher: exactly the states that
step into the distinguisher on the atom's characters. -/
theorem revSets_vals_mem (d : Dfa) (hdet : Dfa.Det d) (dist : List Nat)
    (α : CharRange) (vals : List Nat) (h : (α, vals) ∈ Dfa.reversedTransSets d dist)
    (c : Nat) (hc1 : α.start ≤ c) (hc2 : c ≤ α.stop) (q : Nat) :
    q ∈ vals ↔ q < d.states.length ∧ ∃ t, step d q c = some t ∧ t ∈ dist := by
  rw [Dfa.reversedTransSets] at h
  rw [refineSets_target_iff _ _ _ h c hc1 hc2 q]
  constructor
  · intro hx
    obtain ⟨rt, hrt, hcc, hv⟩ := hx
    rw [revPairs_mem] at hrt
    obtain ⟨t, htd, hlt, hm⟩ := hrt
    rw [hv] at hlt hm
    refine ⟨hlt, t, ?_, htd⟩
    have := charMap_get_det (transAt d q) (det_transAt d hdet q) c (rt.1, t) hm hcc
    exact this
  · intro hx
    obtain ⟨hq, t, hst, htd⟩ := hx
    obtain ⟨e, hm, hcc, hv⟩ := charMap_get_mem _ _ _ hst
    refine ⟨(e.1, q), ?_, hcc, rfl⟩
    rw [revPairs_mem]
    refine ⟨t, htd, hq, ?_⟩
    have : (e.1, t) = e := by
      rw [Prod.ext_iff]
      exact ⟨rfl, hv.symm⟩
    rw [this]
    exact hm

/-- Distinguisher splitter sets are closed under equivalence when the
distinguisher itself is. -/
theorem revSets_vals_sat (d : Dfa) (hdet : Dfa.Det d) (htgt : TargetsOk d)
    (dist : List Nat) (hdist : SetSat d dist) :
    ∀ s ∈ (Dfa.reversedTransSets d dist).map (fun x => x.2), SetSat d s := by
  intro s hs
  rw [List.mem_map] at hs
  obtain ⟨av, hav, hse⟩ := hs
  have hmem : (av.1, av.2) ∈ Dfa.reversedTransSets d dist := by
    rw [Prod.mk.eta]
    exact hav
  have hbounds : av.1.start ≤ av.1.stop := by
    have hmem2 := hmem
    rw [Dfa.reversedTransSets] at hmem2
    obtain ⟨hα, _⟩ := refineSets_mem_elim _ _ _ hmem2
    exact (atomsOf_spec _ (sorted_refineBounds _) _ hα).2.2.1
  rw [← hse]
  intro p hp q hq heq
  rw [revSets_vals_mem d hdet dist av.1 av.2 hmem av.1.start le_rfl hbounds] at hp ⊢
  obtain ⟨hpn, t, hst, htd⟩ := hp
  rcases eqv_step d q p heq av.1.start with ⟨hq1, hq2⟩ | ⟨t1, t2, hq1, hq2, heqt⟩
  · rw [hq2] at hst
    cases hst
  · rw [hq2] at hst
    have ht2 : t2 = t := Option.some.inj hst
    rw [ht2] at heqt
    have ht1n : t1 < d.states.length := step_lt d htgt q av.1.start t1 hq1
    exact ⟨hq, t1, hq1, hdist t htd t1 ht1n heqt⟩

end RegexDfa

namespace RegexDfa

/-! ### Saturation of the initial partition -/

/-- Any never-accepting valid state is in the never class. -/
theorem mem_accept_never_class (d : Dfa) (q : Nat) (hq : q < d.states.length)
    (hacc : acceptAt d q = Accept.never) : q ∈ (Dfa.accept_partition d).1 := by
  have hfin := apAssocAux_inv d d.states 0 [] (by simp) (Nat.zero_le _)
    (by simp) (by simp) (by simp)
  obtain ⟨kv, hkv, hik⟩ := hfin.2.1 q hq
  have hkey : kv.1 = Accept.never := by
    rw [← (hfin.1 kv hkv q hik).2, hacc]
  rw [Dfa.accept_partition]
  simp only
  have hsome : (List.find? (fun kv => kv.1 == Accept.never)
      (apAssocAux [] 0 d.states)).isSome = true := by
    rw [List.find?_isSome]
    exact ⟨kv, hkv, by simp [hkey]⟩
  cases hf : List.find? (fun kv => kv.1 == Accept.never) (apAssocAux [] 0 d.states) with
  | none => rw [hf] at hsome; simp at hsome
  | some kv0 =>
      have hkey0 : kv0.1 = Accept.never := by
        have hh := List.find?_some hf
        simpa using hh
      have heq : kv = kv0 := assoc_key_unique hfin.2.2 kv hkv kv0
        (List.mem_of_find?_eq_some hf) (by rw [hkey, hkey0])
      simp only [Option.map_some', Option.getD_some]
      rw [← heq]
      exact hik

/-- The never class is closed under equivalence. -/
theorem accept_nevers_sat (d : Dfa) : SetSat d (Dfa.accept_partition d).1 := by
  intro p hp q hq heq
  have hnev := (accept_partition_nevers d p hp).2
  exact mem_accept_never_class d q hq (by rw [eqv_accept d q p heq, hnev])

/-- The non-never accept classes are closed under equivalence. -/
theorem accept_others_sat (d : Dfa) :
    ∀ v ∈ (Dfa.accept_partition d).2, SetSat d v := by
  have hfin := apAssocAux_inv d d.states 0 [] (by simp) (Nat.zero_le _)
    (by simp) (by simp) (by simp)
  intro v hv
  obtain ⟨kv, hkv, hsnd, hkey, hprop⟩ := accept_partition_others d v hv
  intro p hp q hq heq
  have hap : acceptAt d p = kv.1 := (hprop p hp).2
  have haq : acceptAt d q = kv.1 := by rw [eqv_accept d q p heq, hap]
  obtain ⟨kv', hkv', hqm⟩ := hfin.2.1 q hq
  have hkey' : kv'.1 = kv.1 := by
    rw [← (hfin.1 kv' hkv' q hqm).2, haq]
  have heqkv : kv' = kv := assoc_key_unique hfin.2.2 kv' hkv' kv hkv hkey'
  rw [← hsnd, ← heqkv]
  exact hqm

/-- Membership in a reject splitter set: exactly the never states rejecting
the atom's characters. -/
theorem rejectSets_vals_mem (d : Dfa) (nevers : List Nat) (α : CharRange)
    (vals : List Nat)
    (h : (α, vals) ∈ refineSets (nevers.flatMap (fun idx => Dfa.rejects d idx)))
    (c : Nat) (hc1 : α.start ≤ c) (hc2 : c ≤ α.stop) (q : Nat) :
    q ∈ vals ↔ q ∈ nevers ∧ validScalar c ∧ step d q c = none := by
  rw [refineSets_target_iff _ _ _ h c hc1 hc2 q]
  constructor
  · intro hx
    obtain ⟨rt, hrt, hcc, hv⟩ := hx
    rw [List.mem_flatMap] at hrt
    obtain ⟨idx, hidx, hm⟩ := hrt
    have hri := (rejects_mem_iff d idx c q).mp ⟨rt, hm, hcc, hv⟩
    refine ⟨by rw [hri.1]; exact hidx, hri.2.1, ?_⟩
    rw [step, hri.1]
    exact hri.2.2
  · intro hx
    obtain ⟨hqn, hvs, hnone⟩ := hx
    obtain ⟨rt, hm, hcc, hv⟩ := (rejects_mem_iff d q c q).mpr ⟨rfl, hvs, hnone⟩
    exact ⟨rt, List.mem_flatMap.mpr ⟨q, hqn, hm⟩, hcc, hv⟩

/-- Reject splitter sets are closed under equivalence when the never set
is. -/
theorem rejectSets_sat (d : Dfa) (nevers : List Nat) (hnev : SetSat d nevers) :
    ∀ s ∈ (refineSets (nevers.flatMap (fun idx => Dfa.rejects d idx))).map
        (fun x => x.2), SetSat d s := by
  intro s hs
  rw [List.mem_map] at hs
  obtain ⟨av, hav, hse⟩ := hs
  have hmem : (av.1, av.2) ∈ refineSets
      (nevers.flatMap (fun idx => Dfa.rejects d idx)) := by
    rw [Prod.mk.eta]
    exact hav
  have hbounds : av.1.start ≤ av.1.stop := by
    obtain ⟨hα, _⟩ := refineSets_mem_elim _ _ _ hmem
    exact (atomsOf_spec _ (sorted_refineBounds _) _ hα).2.2.1
  rw [← hse]
  intro p hp q hq heq
  rw [rejectSets_vals_mem d nevers av.1 av.2 hmem av.1.start le_rfl hbounds] at hp ⊢
  obtain ⟨hpn, hvs, hnone⟩ := hp
  refine ⟨hnev p hpn q hq heq, hvs, ?_⟩
  rcases eqv_step d q p heq av.1.start with ⟨hq1, _⟩ | ⟨t1, t2, hq1, hq2, _⟩
  · exact hq1
  · rw [hq2] at hnone
    cases hnone

theorem foldl_refine_sat (d : Dfa) (sets : List (List Nat))
    (hsets : ∀ s ∈ sets, SetSat d s) :
    ∀ parts, AllBdd d parts → AllSat d parts →
      AllBdd d (sets.foldl refinePartition parts) ∧
        AllSat d (sets.foldl refinePartition parts) := by
  induction sets with
  | nil => intro parts hbd hsat; exact ⟨hbd, hsat⟩
  | cons s ss ih =>
      intro parts hbd hsat
      rw [List.foldl_cons]
      refine ih (fun s' hs' => hsets s' (List.mem_cons_of_mem s hs')) _ ?_ ?_
      · exact refinePartition_bdd d parts s hbd
      · exact refinePartition_sat d parts s hbd hsat
          (hsets s (List.mem_cons_self s ss))

/-- The reject refinement of a closed never set produces closed classes. -/
theorem reject_partition_sat (d : Dfa) (nevers : List Nat)
    (hnev : SetSat d nevers) (hbd : ∀ i ∈ nevers, i < d.states.length) :
    AllSat d (Dfa.reject_partition d nevers) := by
  rw [Dfa.reject_partition]
  by_cases hne : nevers.isEmpty
  · rw [if_pos hne]
    intro S hS
    cases hS
  · rw [if_neg hne]
    refine (foldl_refine_sat d _ (rejectSets_sat d nevers hnev) [nevers] ?_ ?_).2
    · intro S hS
      rw [List.mem_singleton] at hS
      rw [hS]
      exact hbd
    · intro S hS
      rw [List.mem_singleton] at hS
      rw [hS]
      exact hnev

/-- The initial partition of the minimizer is made of closed classes. -/
theorem initParts_sat (d : Dfa) :
    AllSat d ((Dfa.accept_partition d).2
      ++ Dfa.reject_partition d (Dfa.accept_partition d).1) := by
  intro S hS
  rcases List.mem_append.mp hS with hm | hm
  · exact accept_others_sat d S hm
  · exact reject_partition_sat d _ (accept_nevers_sat d)
      (fun i hi => (accept_partition_nevers d i hi).1) S hm

theorem mem_foldl_insertDist :
    ∀ (l : List (List Nat)) (acc : List (List Nat)) (x : List Nat),
      x ∈ List.foldl insertDist acc l → x ∈ acc ∨ x ∈ l := by
  intro l
  induction l with
  | nil => intro acc x h; exact Or.inl h
  | cons y l ih =>
      intro acc x h
      rw [List.foldl_cons] at h
      rcases ih _ x h with hm | hm
      · rcases mem_insertDist acc y x hm with hm' | hm'
        · exact Or.inl hm'
        · right
          rw [hm']
          exact List.mem_cons_self y l
      · exact Or.inr (List.mem_cons_of_mem y hm)

/-! ### Saturation through the main loop -/

theorem foldl_splitAgainst_sat (d : Dfa) :
    ∀ (sets : List (List Nat)), (∀ s ∈ sets, SetSat d s) →
      ∀ P W, AllBdd d P → AllSat d P → AllSat d W →
        AllBdd d (List.foldl (fun pd s => splitAgainst s pd.1 pd.2) (P, W) sets).1 ∧
        AllSat d (List.foldl (fun pd s => splitAgainst s pd.1 pd.2) (P, W) sets).1 ∧
        AllSat d (List.foldl (fun pd s => splitAgainst s pd.1 pd.2) (P, W) sets).2 := by
  intro sets
  induction sets with
  | nil => intro _ P W hbd hsat hw; exact ⟨hbd, hsat, hw⟩
  | cons s ss ih =>
      intro hsets P W hbd hsat hw
      rw [List.foldl_cons]
      have hs := hsets s (List.mem_cons_self s ss)
      have hfst : (splitAgainst s P W).1 = refinePartition P s := splitAgainst_fst s P W
      have hres := ih (fun s' hs' => hsets s' (List.mem_cons_of_mem s hs'))
        (splitAgainst s P W).1 (splitAgainst s P W).2
        (by rw [hfst]; exact refinePartition_bdd d P s hbd)
        (by rw [hfst]; exact refinePartition_sat d P s hbd hsat hs)
        (splitAgainst_sat_snd d s hs P W hbd hsat hw)
      exact hres

theorem minimizeLoop_sat (d : Dfa) (hdet : Dfa.Det d) (htgt : TargetsOk d) :
    ∀ fuel P W, AllBdd d P → AllSat d P → AllSat d W →
      AllSat d (minimizeLoop d fuel P W) := by
  intro fuel
  induction fuel with
  | zero => intro P W _ hsat _; exact hsat
  | succ fuel ih =>
      intro P W hbd hsat hw
      cases W with
      | nil => exact hsat
      | cons dist rest =>
          have hdist : SetSat d dist := hw dist (List.mem_cons_self dist rest)
          have hsets := revSets_vals_sat d hdet htgt dist hdist
          have hres := foldl_splitAgainst_sat d _ hsets P rest hbd hsat
            (fun S hS => hw S (List.mem_cons_of_mem dist hS))
          exact ih _ _ hres.1 hres.2.1 hres.2.2

/-- Soundness: every class the minimizer computes is closed under
observational equivalence. -/
theorem minimizePartition_sat (d : Dfa) (hdet : Dfa.Det d) (htgt : TargetsOk d) :
    AllSat d (Dfa.minimizePartition d) := by
  rw [Dfa.minimizePartition]
  have hinv := initParts_inv d
  refine minimizeLoop_sat d hdet htgt _ _ _ ?_ (initParts_sat d) ?_
  · intro S hS x hx
    exact hinv.1 S hS x hx
  · intro S hS
    rcases mem_foldl_insertDist _ _ _ hS with hm | hm
    · cases hm
    · exact initParts_sat d S hm

end RegexDfa

namespace RegexDfa

/-! ### Completeness: the worklist always holds a witness for any pending
split -/

/-- The optional state lands in the set. -/
def inO (o : Option Nat) (S : List Nat) : Prop := ∃ t, o = some t ∧ t ∈ S

theorem inO_some (t : Nat) (S : List Nat) : inO (some t) S ↔ t ∈ S := by
  rw [inO]
  constructor
  · intro h
    obtain ⟨t', he, hm⟩ := h
    rw [← Option.some.inj he] at hm
    exact hm
  · intro h
    exact ⟨t, rfl, h⟩

theorem inO_none (S : List Nat) : ¬ inO none S := by
  intro h
  obtain ⟨t, he, _⟩ := h
  cases he

/-- The two optional states are both absent or both in one class of `P`. -/
def SameBlkO (P : List (List Nat)) (o1 o2 : Option Nat) : Prop :=
  (o1 = none ∧ o2 = none) ∨
    ∃ t1 t2 B, B ∈ P ∧ o1 = some t1 ∧ o2 = some t2 ∧ t1 ∈ B ∧ t2 ∈ B

/-- The completeness invariant: any two states of one class whose successors
are not visibly together are separated by some worklist set. -/
def Compl (d : Dfa) (P W : List (List Nat)) : Prop :=
  ∀ B ∈ P, ∀ p ∈ B, ∀ q ∈ B, ∀ c,
    ¬ SameBlkO P (step d p c) (step d q c) →
      ∃ S ∈ W, ¬ (inO (step d p c) S ↔ inO (step d q c) S)

/-- Worklist refinement preserves distinguishing power. -/
def DistPres (Win Wout : List (List Nat)) : Prop :=
  ∀ S ∈ Win, ∀ o1 o2 : Option Nat, ¬(inO o1 S ↔ inO o2 S) →
    ∃ S' ∈ Wout, ¬(inO o1 S' ↔ inO o2 S')

theorem distPres_refl (W : List (List Nat)) : DistPres W W :=
  fun S hS _ _ h => ⟨S, hS, h⟩

theorem distPres_trans {W1 W2 W3 : List (List Nat)}
    (h1 : DistPres W1 W2) (h2 : DistPres W2 W3) : DistPres W1 W3 := by
  intro S hS o1 o2 h
  obtain ⟨S', hS', h'⟩ := h1 S hS o1 o2 h
  exact h2 S' hS' o1 o2 h'

/-- A set's distinguishing power passes to one of its two split halves. -/
theorem split_distinguish (y s : List Nat) (o1 o2 : Option Nat)
    (h : ¬(inO o1 y ↔ inO o2 y)) :
    ¬(inO o1 (y.filter (fun z => s.contains z)) ↔
        inO o2 (y.filter (fun z => s.contains z))) ∨
    ¬(inO o1 (y.filter (fun z => !s.contains z)) ↔
        inO o2 (y.filter (fun z => !s.contains z))) := by
  have key : ∀ (oa ob : Option Nat), inO oa y → ¬ inO ob y →
      (¬(inO oa (y.filter (fun z => s.contains z)) ↔
          inO ob (y.filter (fun z => s.contains z)))) ∨
      (¬(inO oa (y.filter (fun z => !s.contains z)) ↔
          inO ob (y.filter (fun z => !s.contains z)))) := by
    intro oa ob ha hb
    obtain ⟨t1, he1, ht1⟩ := ha
    have hbf : ∀ l : List Nat, (∀ x ∈ l, x ∈ y) → ¬ inO ob l := by
      intro l hl hc
      obtain ⟨t2, he2, ht2⟩ := hc
      exact hb ⟨t2, he2, hl t2 ht2⟩
    by_cases hts : s.contains t1 = true
    · left
      intro hiff
      have h1 : inO oa (y.filter (fun z => s.contains z)) := by
        refine ⟨t1, he1, ?_⟩
        rw [List.mem_filter]
        exact ⟨ht1, hts⟩
      exact hbf _ (fun x hx => List.mem_of_mem_filter hx) (hiff.mp h1)
    · right
      intro hiff
      have h1 : inO oa (y.filter (fun z => !s.contains z)) := by
        refine ⟨t1, he1, ?_⟩
        rw [List.mem_filter]
        refine ⟨ht1, ?_⟩
        rw [Bool.not_eq_true] at hts
        rw [hts]
        rfl
      exact hbf _ (fun x hx => List.mem_of_mem_filter hx) (hiff.mp h1)
  by_cases h1 : inO o1 y
  · by_cases h2 : inO o2 y
    · exact absurd (iff_of_true h1 h2) h
    · exact key o1 o2 h1 h2
  · by_cases h2 : inO o2 y
    · rcases key o2 o1 h2 h1 with hk | hk
      · left
        intro hiff
        exact hk hiff.symm
      · right
        intro hiff
        exact hk hiff.symm
    · exact absurd (iff_of_false h1 h2) h

/-- `splitSet` fails exactly on all-or-nothing overlaps. -/
theorem splitSet_none_cond (p s : List Nat) (h : splitSet p s = none) :
    (∀ x ∈ p, x ∈ s) ∨ (∀ x ∈ p, x ∉ s) := by
  by_cases hany : p.any (fun x => s.contains x) = true
  · by_cases hall : p.all (fun x => s.contains x) = true
    · left
      intro x hx
      rw [List.all_eq_true] at hall
      have hcx := hall x hx
      rwa [contains_iff_mem] at hcx
    · exfalso
      have hcond : (p.any (fun x => s.contains x)
          && !p.all (fun x => s.contains x)) = true := by
        rw [Bool.not_eq_true] at hall
        rw [hany, hall]
        rfl
      rw [splitSet, if_pos hcond] at h
      cases h
  · right
    intro x hx hxs
    apply hany
    rw [List.any_eq_true]
    exact ⟨x, hx, by rw [contains_iff_mem]; exact hxs⟩

theorem containsL_iff_mem {α : Type} [BEq α] [LawfulBEq α] (l : List α) (x : α) :
    l.contains x = true ↔ x ∈ l := by
  simp

theorem subset_insertDist (W : List (List Nat)) (x y : List Nat)
    (h : y ∈ W) : y ∈ insertDist W x := by
  rw [insertDist]
  split_ifs
  · exact h
  · exact List.mem_append.mpr (Or.inl h)

theorem mem_insertDist_self (W : List (List Nat)) (x : List Nat) :
    x ∈ insertDist W x := by
  rw [insertDist]
  split_ifs with hc
  · exact (containsL_iff_mem W x).mp hc
  · exact List.mem_append.mpr (Or.inr (List.mem_singleton.mpr rfl))

/-- Sets already in the worklist keep their distinguishing power through one
splitting pass. -/
theorem splitAgainst_distPres (s : List Nat) :
    ∀ parts dists, DistPres dists (splitAgainst s parts dists).2 := by
  intro parts
  induction parts with
  | nil => intro dists; exact distPres_refl dists
  | cons y rest ih =>
      intro dists
      rw [splitAgainst]
      cases hsp : splitSet y s with
      | none => exact ih dists
      | some yy =>
          dsimp only
          refine distPres_trans ?_ (ih _)
          obtain ⟨hy1, hy2⟩ := splitSet_eq_some y s yy hsp
          intro S hS o1 o2 hdist
          split_ifs with h1 h2
          · by_cases hSy : S = y
            · have hdy : ¬(inO o1 y ↔ inO o2 y) := by
                rw [← hSy]
                exact hdist
              rcases split_distinguish y s o1 o2 hdy with hk | hk
              · refine ⟨yy.1, ?_, by rw [hy1]; exact hk⟩
                exact subset_insertDist _ _ _ (mem_insertDist_self _ _)
              · exact ⟨yy.2, mem_insertDist_self _ _, by rw [hy2]; exact hk⟩
            · refine ⟨S, ?_, hdist⟩
              refine subset_insertDist _ _ _ (subset_insertDist _ _ _ ?_)
              rw [List.mem_filter]
              refine ⟨hS, ?_⟩
              simp [hSy]
          · exact ⟨S, subset_insertDist _ _ _ hS, hdist⟩
          · exact ⟨S, subset_insertDist _ _ _ hS, hdist⟩

end RegexDfa

namespace RegexDfa

theorem contains_false_iff (l : List Nat) (x : Nat) :
    l.contains x = false ↔ x ∉ l := by
  rw [← Bool.not_eq_true, contains_iff_mem]

/-- When a split pass separates two states of one class, the worklist gains a
set telling them apart. -/
theorem splitAgainst_m3 (s : List Nat) :
    ∀ parts dists, ∀ y ∈ parts, ∀ t1 ∈ y, ∀ t2 ∈ y, t1 ∈ s → t2 ∉ s →
      ∃ S' ∈ (splitAgainst s parts dists).2, ¬((t1 ∈ S') ↔ (t2 ∈ S')) := by
  intro parts
  induction parts with
  | nil => intro dists y hy; cases hy
  | cons y0 rest ih =>
      intro dists y hy t1 ht1 t2 ht2 hs1 hs2
      rw [splitAgainst]
      rcases List.mem_cons.mp hy with hyy | hyy
      · subst hyy
        cases hsp : splitSet y s with
        | none =>
            rcases splitSet_none_cond y s hsp with hall | hnone
            · exact absurd (hall t2 ht2) hs2
            · exact absurd hs1 (hnone t1 ht1)
        | some yy =>
            dsimp only
            obtain ⟨hy1, hy2⟩ := splitSet_eq_some y s yy hsp
            have ht1y1 : t1 ∈ yy.1 := by
              rw [hy1, List.mem_filter]
              exact ⟨ht1, (contains_iff_mem s t1).mpr hs1⟩
            have ht2y1 : t2 ∉ yy.1 := by
              rw [hy1, List.mem_filter]
              intro hc
              exact hs2 ((contains_iff_mem s t2).mp hc.2)
            have ht2y2 : t2 ∈ yy.2 := by
              rw [hy2, List.mem_filter]
              refine ⟨ht2, ?_⟩
              rw [(contains_false_iff s t2).mpr hs2]
              rfl
            have ht1y2 : t1 ∉ yy.2 := by
              rw [hy2, List.mem_filter]
              intro hc
              have hc2 := hc.2
              rw [Bool.not_eq_true', contains_false_iff] at hc2
              exact hc2 hs1
            split_ifs with h1 h2
            · obtain ⟨S', hS', hd'⟩ := splitAgainst_distPres s rest _ yy.1
                (subset_insertDist _ _ _ (mem_insertDist_self _ _)) (some t1) (some t2)
                (by rw [inO_some, inO_some]; intro hiff; exact ht2y1 (hiff.mp ht1y1))
              refine ⟨S', hS', ?_⟩
              rw [inO_some, inO_some] at hd'
              exact hd'
            · obtain ⟨S', hS', hd'⟩ := splitAgainst_distPres s rest _ yy.1
                (mem_insertDist_self _ _) (some t1) (some t2)
                (by rw [inO_some, inO_some]; intro hiff; exact ht2y1 (hiff.mp ht1y1))
              refine ⟨S', hS', ?_⟩
              rw [inO_some, inO_some] at hd'
              exact hd'
            · obtain ⟨S', hS', hd'⟩ := splitAgainst_distPres s rest _ yy.2
                (mem_insertDist_self _ _) (some t1) (some t2)
                (by rw [inO_some, inO_some]; intro hiff; exact ht1y2 (hiff.mpr ht2y2))
              refine ⟨S', hS', ?_⟩
              rw [inO_some, inO_some] at hd'
              exact hd'
      · cases hsp : splitSet y0 s with
        | none => exact ih dists y hyy t1 ht1 t2 ht2 hs1 hs2
        | some yy =>
            dsimp only
            exact ih _ y hyy t1 ht1 t2 ht2 hs1 hs2

theorem foldl_splitAgainst_fst :
    ∀ (sets : List (List Nat)) (pd : List (List Nat) × List (List Nat)),
      (List.foldl (fun pd s => splitAgainst s pd.1 pd.2) pd sets).1 =
        sets.foldl refinePartition pd.1 := by
  intro sets
  induction sets with
  | nil => intro pd; rfl
  | cons s ss ih =>
      intro pd
      rw [List.foldl_cons, List.foldl_cons, ih, splitAgainst_fst]

theorem foldl_distPres (sets : List (List Nat)) :
    ∀ pd : List (List Nat) × List (List Nat),
      DistPres pd.2 (List.foldl (fun pd s => splitAgainst s pd.1 pd.2) pd sets).2 := by
  induction sets with
  | nil => intro pd; exact distPres_refl pd.2
  | cons s ss ih =>
      intro pd
      rw [List.foldl_cons]
      exact distPres_trans (splitAgainst_distPres s pd.1 pd.2)
        (ih (splitAgainst s pd.1 pd.2))

theorem foldl_refine_sub (sets : List (List Nat)) :
    ∀ parts, ∀ q ∈ sets.foldl refinePartition parts, ∃ p ∈ parts, ∀ x ∈ q, x ∈ p := by
  induction sets with
  | nil => intro parts q hq; exact ⟨q, hq, fun x hx => hx⟩
  | cons s ss ih =>
      intro parts q hq
      rw [List.foldl_cons] at hq
      obtain ⟨p1, hp1, hsub1⟩ := ih _ q hq
      obtain ⟨p, hp, hsub⟩ := refinePartition_sub parts s p1 hp1
      exact ⟨p, hp, fun x hx => hsub x (hsub1 x hx)⟩

theorem refinePartition_cases (parts : List (List Nat)) (s : List Nat) :
    ∀ B ∈ refinePartition parts s, ∃ p ∈ parts,
      (splitSet p s = none ∧ B = p) ∨
        ∃ yy, splitSet p s = some yy ∧ (B = yy.1 ∨ B = yy.2) := by
  intro B hB
  rw [refinePartition, List.mem_flatMap] at hB
  obtain ⟨p, hp, hB⟩ := hB
  cases hsp : splitSet p s with
  | none =>
      rw [hsp] at hB
      simp only [List.mem_singleton] at hB
      exact ⟨p, hp, Or.inl ⟨hsp, hB⟩⟩
  | some yy =>
      rw [hsp] at hB
      simp only [List.mem_cons, List.not_mem_nil, or_false] at hB
      exact ⟨p, hp, Or.inr ⟨yy, hsp, hB⟩⟩

theorem refinePartition_all_or_none (parts : List (List Nat)) (s : List Nat) :
    ∀ B ∈ refinePartition parts s, (∀ x ∈ B, x ∈ s) ∨ (∀ x ∈ B, x ∉ s) := by
  intro B hB
  obtain ⟨p, hp, hcase⟩ := refinePartition_cases parts s B hB
  rcases hcase with ⟨hsp, hBe⟩ | ⟨yy, hsp, hBe⟩
  · rcases splitSet_none_cond p s hsp with hall | hnone
    · left
      intro x hx
      exact hall x (by rw [hBe] at hx; exact hx)
    · right
      intro x hx
      exact hnone x (by rw [hBe] at hx; exact hx)
  · obtain ⟨hy1, hy2⟩ := splitSet_eq_some p s yy hsp
    rcases hBe with hBe | hBe
    · left
      intro x hx
      rw [hBe, hy1, List.mem_filter] at hx
      exact (contains_iff_mem s x).mp hx.2
    · right
      intro x hx
      rw [hBe, hy2, List.mem_filter] at hx
      have hx2 := hx.2
      rw [Bool.not_eq_true', contains_false_iff] at hx2
      exact hx2

/-- Two states left together by all the splits agree on membership in every
splitter. -/
theorem foldl_split_const (sets : List (List Nat)) :
    ∀ parts B, B ∈ sets.foldl refinePartition parts →
      ∀ p ∈ B, ∀ q ∈ B, ∀ s ∈ sets, (p ∈ s ↔ q ∈ s) := by
  induction sets with
  | nil => intro parts B _ p _ q _ s hs; cases hs
  | cons s0 ss ih =>
      intro parts B hB p hp q hq s hs
      rw [List.foldl_cons] at hB
      rcases List.mem_cons.mp hs with he | hm
      · subst he
        obtain ⟨B1, hB1, hsub⟩ := foldl_refine_sub ss _ B hB
        rcases refinePartition_all_or_none parts s B1 hB1 with hall | hnone
        · exact iff_of_true (hall p (hsub p hp)) (hall q (hsub q hq))
        · exact iff_of_false (hnone p (hsub p hp)) (hnone q (hsub q hq))
      · exact ih _ B hB p hp q hq s hm

/-- When the splitting passes separate two states, the final worklist tells
them apart. -/
theorem foldl_sep (sets : List (List Nat)) :
    ∀ (pd : List (List Nat) × List (List Nat)) (t1 t2 : Nat),
      (∃ B ∈ pd.1, t1 ∈ B ∧ t2 ∈ B) →
      ¬(∃ B' ∈ (List.foldl (fun pd s => splitAgainst s pd.1 pd.2) pd sets).1,
          t1 ∈ B' ∧ t2 ∈ B') →
      ∃ S' ∈ (List.foldl (fun pd s => splitAgainst s pd.1 pd.2) pd sets).2,
        ¬((t1 ∈ S') ↔ (t2 ∈ S')) := by
  induction sets with
  | nil => intro pd t1 t2 hin hout; exact absurd hin hout
  | cons s ss ih =>
      intro pd t1 t2 hin hout
      rw [List.foldl_cons] at hout ⊢
      by_cases hmid : ∃ B1 ∈ (splitAgainst s pd.1 pd.2).1, t1 ∈ B1 ∧ t2 ∈ B1
      · exact ih (splitAgainst s pd.1 pd.2) t1 t2 hmid hout
      · obtain ⟨B, hB, ht1, ht2⟩ := hin
        have hdiff : ¬(t1 ∈ s ↔ t2 ∈ s) := by
          intro hiff
          apply hmid
          rw [splitAgainst_fst]
          cases hsp : splitSet B s with
          | none =>
              refine ⟨B, ?_, ht1, ht2⟩
              rw [refinePartition, List.mem_flatMap]
              refine ⟨B, hB, ?_⟩
              rw [hsp]
              exact List.mem_singleton.mpr rfl
          | some yy =>
              obtain ⟨hy1, hy2⟩ := splitSet_eq_some B s yy hsp
              by_cases hts : t1 ∈ s
              · refine ⟨yy.1, ?_, ?_, ?_⟩
                · rw [refinePartition, List.mem_flatMap]
                  refine ⟨B, hB, ?_⟩
                  rw [hsp]
                  exact List.mem_cons_self _ _
                · rw [hy1, List.mem_filter]
                  exact ⟨ht1, (contains_iff_mem s t1).mpr hts⟩
                · rw [hy1, List.mem_filter]
                  exact ⟨ht2, (contains_iff_mem s t2).mpr (hiff.mp hts)⟩
              · have hts2 : t2 ∉ s := fun hc => hts (hiff.mpr hc)
                refine ⟨yy.2, ?_, ?_, ?_⟩
                · rw [refinePartition, List.mem_flatMap]
                  refine ⟨B, hB, ?_⟩
                  rw [hsp]
                  exact List.mem_cons_of_mem _ (List.mem_cons_self _ _)
                · rw [hy2, List.mem_filter]
                  refine ⟨ht1, ?_⟩
                  rw [(contains_false_iff s t1).mpr hts]
                  rfl
                · rw [hy2, List.mem_filter]
                  refine ⟨ht2, ?_⟩
                  rw [(contains_false_iff s t2).mpr hts2]
                  rfl
        by_cases hts : t1 ∈ s
        · have hts2 : t2 ∉ s := fun hc => hdiff (iff_of_true hts hc)
          obtain ⟨S'', hS'', hd⟩ := splitAgainst_m3 s pd.1 pd.2 B hB t1 ht1 t2 ht2 hts hts2
          obtain ⟨S', hS', hd'⟩ := foldl_distPres ss (splitAgainst s pd.1 pd.2) S'' hS''
            (some t1) (some t2) (by rw [inO_some, inO_some]; exact hd)
          refine ⟨S', hS', ?_⟩
          rw [inO_some, inO_some] at hd'
          exact hd'
        · have hts1 : t2 ∈ s := by
            by_contra hc
            exact hdiff (iff_of_false hts hc)
          obtain ⟨S'', hS'', hd⟩ := splitAgainst_m3 s pd.1 pd.2 B hB t2 ht2 t1 ht1 hts1 hts
          obtain ⟨S', hS', hd'⟩ := foldl_distPres ss (splitAgainst s pd.1 pd.2) S'' hS''
            (some t1) (some t2)
            (by rw [inO_some, inO_some]; intro hiff; exact hd hiff.symm)
          refine ⟨S', hS', ?_⟩
          rw [inO_some, inO_some] at hd'
          exact hd'

end RegexDfa

namespace RegexDfa

/-- After all splits for a distinguisher, stepping into it is constant on each
class. -/
theorem dist_step_iff (d : Dfa) (hdet : Dfa.Det d) (dist : List Nat)
    (P W : List (List Nat)) (B' : List Nat)
    (hB' : B' ∈ (List.foldl (fun pd s => splitAgainst s pd.1 pd.2) (P, W)
        ((Dfa.reversedTransSets d dist).map (fun x => x.2))).1)
    (p : Nat) (hp : p ∈ B') (hpn : p < d.states.length)
    (q : Nat) (hq : q ∈ B') (hqn : q < d.states.length) (c : Nat) :
    inO (step d p c) dist ↔ inO (step d q c) dist := by
  have hconst : ∀ s ∈ (Dfa.reversedTransSets d dist).map (fun x => x.2),
      (p ∈ s ↔ q ∈ s) := by
    rw [foldl_splitAgainst_fst] at hB'
    exact fun s hs => foldl_split_const _ _ B' hB' p hp q hq s hs
  have key : ∀ a b : Nat, a < d.states.length → b < d.states.length →
      (∀ s ∈ (Dfa.reversedTransSets d dist).map (fun x => x.2), (a ∈ s ↔ b ∈ s)) →
      inO (step d a c) dist → inO (step d b c) dist := by
    intro a b han hbn hc hin
    obtain ⟨t, hst, htd⟩ := hin
    obtain ⟨e, hm, hcc, hv⟩ := charMap_get_mem _ _ _ hst
    have hpair : (e.1, a) ∈ dist.flatMap (fun t => Dfa.reversedTransFrom d t) := by
      rw [revPairs_mem]
      refine ⟨t, htd, han, ?_⟩
      have he : (e.1, t) = e := by
        rw [Prod.ext_iff]
        exact ⟨rfl, hv.symm⟩
      rw [he]
      exact hm
    obtain ⟨αv, hαv, hc1, hc2⟩ := refineSets_cover _ c (e.1, a) hpair hcc
    have hmem : (αv.1, αv.2) ∈ Dfa.reversedTransSets d dist := by
      rw [Dfa.reversedTransSets, Prod.mk.eta]
      exact hαv
    have hvals := revSets_vals_mem d hdet dist αv.1 αv.2 hmem c hc1 hc2
    have hain : a ∈ αv.2 := (hvals a).mpr ⟨han, t, hst, htd⟩
    have hsets : αv.2 ∈ (Dfa.reversedTransSets d dist).map (fun x => x.2) := by
      rw [List.mem_map]
      refine ⟨αv, ?_, rfl⟩
      rw [Dfa.reversedTransSets]
      exact hαv
    have hbin : b ∈ αv.2 := (hc αv.2 hsets).mp hain
    obtain ⟨_, t', hst', htd'⟩ := (hvals b).mp hbin
    exact ⟨t', hst', htd'⟩
  constructor
  · exact key p q hpn hqn hconst
  · exact key q p hqn hpn (fun s hs => (hconst s hs).symm)

/-- One iteration of the main loop preserves the completeness invariant. -/
theorem processDist_compl (d : Dfa) (hdet : Dfa.Det d)
    (P : List (List Nat)) (hinv : PartInvP d P) (dist : List Nat)
    (rest : List (List Nat))
    (hcompl : Compl d P (dist :: rest)) :
    Compl d (processDistinguisher d dist P rest).1
      (processDistinguisher d dist P rest).2 := by
  intro B' hB' p hp q hq c hnsame
  have hB'2 : B' ∈ ((Dfa.reversedTransSets d dist).map
      (fun x => x.2)).foldl refinePartition P := by
    have hfst := foldl_splitAgainst_fst
      ((Dfa.reversedTransSets d dist).map (fun x => x.2)) (P, rest)
    rw [← hfst]
    exact hB'
  obtain ⟨B, hB, hsub⟩ := foldl_refine_sub _ P B' hB'2
  have hpB := hsub p hp
  have hqB := hsub q hq
  have hpn : p < d.states.length := hinv.1 B hB p hpB
  have hqn : q < d.states.length := hinv.1 B hB q hqB
  by_cases hold : SameBlkO P (step d p c) (step d q c)
  · rcases hold with ⟨h1, h2⟩ | ⟨t1, t2, B0, hB0, he1, he2, ht1, ht2⟩
    · exact absurd (Or.inl ⟨h1, h2⟩) hnsame
    · have hnoc : ¬ ∃ B1 ∈ (List.foldl (fun pd s => splitAgainst s pd.1 pd.2)
          (P, rest) ((Dfa.reversedTransSets d dist).map (fun x => x.2))).1,
          t1 ∈ B1 ∧ t2 ∈ B1 := by
        intro hcon
        obtain ⟨B1, hB1, hm1, hm2⟩ := hcon
        exact hnsame (Or.inr ⟨t1, t2, B1, hB1, he1, he2, hm1, hm2⟩)
      obtain ⟨S', hS', hd⟩ := foldl_sep _ (P, rest) t1 t2 ⟨B0, hB0, ht1, ht2⟩ hnoc
      refine ⟨S', hS', ?_⟩
      rw [he1, he2, inO_some, inO_some]
      exact hd
  · obtain ⟨S, hS, hd⟩ := hcompl B hB p hpB q hqB c hold
    rcases List.mem_cons.mp hS with he | hm
    · exfalso
      apply hd
      rw [he]
      exact dist_step_iff d hdet dist P rest B' hB' p hp hpn q hq hqn c
    · obtain ⟨S', hS', hd'⟩ := foldl_distPres _ (P, rest) S hm _ _ hd
      exact ⟨S', hS', hd'⟩

end RegexDfa

namespace RegexDfa

/-- The initial partition satisfies the counting invariant. -/
theorem initParts_invQ (d : Dfa) :
    PartInvQ d.states.length ((Dfa.accept_partition d).2
      ++ Dfa.reject_partition d (Dfa.accept_partition d).1) := by
  have hnd := apAssocAux_nodup d.states 0 [] (by simp) (by simp)
  obtain ⟨hb0, hu0, hpw0, hcov0⟩ := initParts_inv d
  refine ⟨?_, hpw0⟩
  intro p hp
  refine ⟨?_, ?_, hb0 p hp⟩
  · rcases List.mem_append.mp hp with hp2 | hp2
    · rw [Dfa.accept_partition] at hp2
      dsimp only at hp2
      rw [List.mem_map] at hp2
      obtain ⟨kv, hkv, hsnd⟩ := hp2
      rw [← hsnd]
      exact (hnd kv (List.mem_of_mem_filter hkv)).1
    · rw [Dfa.reject_partition] at hp2
      by_cases hne : (Dfa.accept_partition d).1.isEmpty
      · rw [if_pos hne] at hp2
        simp at hp2
      · rw [if_neg hne] at hp2
        have hstart : ∀ q ∈ [(Dfa.accept_partition d).1], q ≠ [] := by
          intro q hq
          rw [List.mem_singleton.mp hq]
          intro hnil
          rw [hnil] at hne
          exact hne rfl
        dsimp only at hp2
        exact foldl_refine_nonempty _ _ hstart p hp2
  · rcases List.mem_append.mp hp with hp2 | hp2
    · rw [Dfa.accept_partition] at hp2
      dsimp only at hp2
      rw [List.mem_map] at hp2
      obtain ⟨kv, hkv, hsnd⟩ := hp2
      rw [← hsnd]
      exact (hnd kv (List.mem_of_mem_filter hkv)).2
    · rw [Dfa.reject_partition] at hp2
      by_cases hne : (Dfa.accept_partition d).1.isEmpty
      · rw [if_pos hne] at hp2
        simp at hp2
      · rw [if_neg hne] at hp2
        have hnevnd : (Dfa.accept_partition d).1.Nodup := by
          rw [Dfa.accept_partition]
          dsimp only
          cases hf : List.find? (fun kv => kv.1 == Accept.never)
              (apAssocAux [] 0 d.states) with
          | none => simp
          | some kv0 =>
              simp only [Option.map_some', Option.getD_some]
              exact (hnd kv0 (List.mem_of_find?_eq_some hf)).2
        have hstart : ∀ q ∈ [(Dfa.accept_partition d).1], q.Nodup := by
          intro q hq
          rw [List.mem_singleton.mp hq]
          exact hnevnd
        dsimp only at hp2
        exact foldl_refine_nodup _ _ hstart p hp2

/-! ### Termination measure of the main loop -/

theorem insertDist_length (W : List (List Nat)) (x : List Nat) :
    (insertDist W x).length ≤ W.length + 1 := by
  rw [insertDist]
  split_ifs
  · omega
  · simp

theorem filter_ne_length (W : List (List Nat)) (y : List Nat) (h : y ∈ W) :
    (W.filter (fun z => z ≠ y)).length < W.length := by
  apply List.length_filter_lt_length_iff_exists.mpr
  exact ⟨y, h, by simp⟩

theorem splitAgainst_snd_length (s : List Nat) :
    ∀ parts dists,
      (splitAgainst s parts dists).2.length + parts.length ≤
        dists.length + (splitAgainst s parts dists).1.length := by
  intro parts
  induction parts with
  | nil => intro dists; exact Nat.le_refl _
  | cons y rest ih =>
      intro dists
      rw [splitAgainst]
      cases hsp : splitSet y s with
      | none =>
          dsimp only
          have hrec := ih dists
          simp only [List.length_cons]
          omega
      | some yy =>
          dsimp only
          split_ifs with h1 h2
          · have hf : (dists.filter (fun z => z ≠ y)).length < dists.length :=
              filter_ne_length dists y ((containsL_iff_mem dists y).mp h1)
            have i1 := insertDist_length (dists.filter (fun z => z ≠ y)) yy.1
            have i2 := insertDist_length
              (insertDist (dists.filter (fun z => z ≠ y)) yy.1) yy.2
            have hrec := ih (insertDist
              (insertDist (dists.filter (fun z => z ≠ y)) yy.1) yy.2)
            simp only [List.length_cons]
            omega
          · have i1 := insertDist_length dists yy.1
            have hrec := ih (insertDist dists yy.1)
            simp only [List.length_cons]
            omega
          · have i1 := insertDist_length dists yy.2
            have hrec := ih (insertDist dists yy.2)
            simp only [List.length_cons]
            omega

theorem foldl_splitAgainst_length (sets : List (List Nat)) :
    ∀ pd : List (List Nat) × List (List Nat),
      (List.foldl (fun pd s => splitAgainst s pd.1 pd.2) pd sets).2.length
          + pd.1.length ≤
        pd.2.length
          + (List.foldl (fun pd s => splitAgainst s pd.1 pd.2) pd sets).1.length := by
  induction sets with
  | nil => intro pd; exact Nat.le_refl _
  | cons s ss ih =>
      intro pd
      rw [List.foldl_cons]
      have h1 := splitAgainst_snd_length s pd.1 pd.2
      have h2 := ih (splitAgainst s pd.1 pd.2)
      omega

theorem refinePartition_length (parts : List (List Nat)) (s : List Nat) :
    parts.length ≤ (refinePartition parts s).length := by
  induction parts with
  | nil => exact Nat.le_refl _
  | cons y rest ih =>
      rw [refinePartition, List.flatMap_cons]
      have hrest : rest.flatMap (fun part =>
          match splitSet part s with
          | some yy => [yy.1, yy.2]
          | none => [part]) = refinePartition rest s := rfl
      rw [hrest, List.length_append]
      cases hsp : splitSet y s with
      | none =>
          dsimp only
          simp only [List.length_cons, List.length_nil]
          omega
      | some yy =>
          dsimp only
          simp only [List.length_cons, List.length_nil]
          omega

theorem foldl_refine_length (sets : List (List Nat)) :
    ∀ parts : List (List Nat),
      parts.length ≤ (sets.foldl refinePartition parts).length := by
  induction sets with
  | nil => intro parts; exact Nat.le_refl _
  | cons s ss ih =>
      intro parts
      rw [List.foldl_cons]
      exact le_trans (refinePartition_length parts s) (ih _)

/-! ### Stability of the final partition -/

theorem minimizeLoop_stable (d : Dfa) (hdet : Dfa.Det d) :
    ∀ fuel P W, PartInvP d P → PartInvQ d.states.length P → Compl d P W →
      W.length + 2 * d.states.length ≤ fuel + 2 * P.length →
      ∀ B ∈ minimizeLoop d fuel P W, ∀ p ∈ B, ∀ q ∈ B, ∀ c,
        SameBlkO (minimizeLoop d fuel P W) (step d p c) (step d q c) := by
  intro fuel
  induction fuel with
  | zero =>
      intro P W hinv hqinv hcompl hmeas
      have hPlen : P.length ≤ d.states.length :=
        parts_length_le _ P hqinv.1 hqinv.2
      have hW : W = [] := by
        cases W with
        | nil => rfl
        | cons w ws =>
            exfalso
            simp only [List.length_cons] at hmeas
            omega
      subst hW
      intro B hB p hp q hq2 c
      by_contra hn
      obtain ⟨S, hS, _⟩ := hcompl B hB p hp q hq2 c hn
      cases hS
  | succ fuel ih =>
      intro P W hinv hqinv hcompl hmeas
      cases W with
      | nil =>
          intro B hB p hp q hq2 c
          by_contra hn
          obtain ⟨S, hS, _⟩ := hcompl B hB p hp q hq2 c hn
          cases hS
      | cons dist rest =>
          have hinv' : PartInvP d (processDistinguisher d dist P rest).1 :=
            processDistinguisher_inv d dist P rest hinv
          have hqinv' : PartInvQ d.states.length
              (processDistinguisher d dist P rest).1 := by
            rw [processDistinguisher]
            exact foldl_splitAgainst_invQ _ _ (P, rest) hqinv
          have hcompl' := processDist_compl d hdet P hinv dist rest hcompl
          have hlen : (processDistinguisher d dist P rest).2.length + P.length ≤
              rest.length + (processDistinguisher d dist P rest).1.length := by
            rw [processDistinguisher]
            exact foldl_splitAgainst_length _ (P, rest)
          have hplen : P.length ≤ (processDistinguisher d dist P rest).1.length := by
            rw [processDistinguisher, foldl_splitAgainst_fst]
            exact foldl_refine_length _ P
          have hmeas' : (processDistinguisher d dist P rest).2.length
              + 2 * d.states.length ≤
              fuel + 2 * (processDistinguisher d dist P rest).1.length := by
            simp only [List.length_cons] at hmeas
            omega
          exact ih _ _ hinv' hqinv' hcompl' hmeas'

end RegexDfa

namespace RegexDfa

theorem mem_foldl_insertDist_full :
    ∀ (l acc : List (List Nat)) (x : List Nat), x ∈ l ∨ x ∈ acc →
      x ∈ List.foldl insertDist acc l := by
  intro l
  induction l with
  | nil =>
      intro acc x h
      rcases h with h | h
      · cases h
      · exact h
  | cons y l ih =>
      intro acc x h
      rw [List.foldl_cons]
      rcases h with h | h
      · rcases List.mem_cons.mp h with he | hm
        · subst he
          exact ih _ x (Or.inr (mem_insertDist_self acc x))
        · exact ih _ x (Or.inl hm)
      · exact ih _ x (Or.inr (subset_insertDist acc y x h))

/-- Initially every pending split is witnessed: the worklist holds all the
classes. -/
theorem initial_compl (d : Dfa) (htgt : TargetsOk d) :
    Compl d ((Dfa.accept_partition d).2
        ++ Dfa.reject_partition d (Dfa.accept_partition d).1)
      (((Dfa.accept_partition d).2
        ++ Dfa.reject_partition d (Dfa.accept_partition d).1).foldl insertDist []) := by
  intro B hB p hp q hq c hnsame
  cases hsp : step d p c with
  | none =>
      cases hsq : step d q c with
      | none => exact absurd (Or.inl ⟨hsp, hsq⟩) hnsame
      | some t2 =>
          have ht2n : t2 < d.states.length := step_lt d htgt q c t2 hsq
          obtain ⟨B2, hB2, hm2⟩ := (initParts_inv d).2.2.2 t2 ht2n
          refine ⟨B2, mem_foldl_insertDist_full _ _ B2 (Or.inl hB2), ?_⟩
          intro hiff
          exact inO_none B2 (hiff.mpr ⟨t2, rfl, hm2⟩)
  | some t1 =>
      have ht1n : t1 < d.states.length := step_lt d htgt p c t1 hsp
      obtain ⟨B1, hB1, hm1⟩ := (initParts_inv d).2.2.2 t1 ht1n
      by_cases hq2 : inO (step d q c) B1
      · obtain ⟨t2, hsq, hm2⟩ := hq2
        exact absurd (Or.inr ⟨t1, t2, B1, hB1, hsp, hsq, hm1, hm2⟩) hnsame
      · refine ⟨B1, mem_foldl_insertDist_full _ _ B1 (Or.inl hB1), ?_⟩
        intro hiff
        exact hq2 (hiff.mp ⟨t1, rfl, hm1⟩)

theorem foldl_insertDist_length :
    ∀ (l acc : List (List Nat)),
      (List.foldl insertDist acc l).length ≤ acc.length + l.length := by
  intro l
  induction l with
  | nil => intro acc; simp
  | cons y l ih =>
      intro acc
      rw [List.foldl_cons]
      have h1 := insertDist_length acc y
      have h2 := ih (insertDist acc y)
      simp only [List.length_cons]
      omega

/-- The partition the minimizer returns is stable: successors of states in one
class are in one class. -/
theorem minimizePartition_stable (d : Dfa) (hdet : Dfa.Det d) (htgt : TargetsOk d) :
    ∀ B ∈ Dfa.minimizePartition d, ∀ p ∈ B, ∀ q ∈ B, ∀ c,
      SameBlkO (Dfa.minimizePartition d) (step d p c) (step d q c) := by
  have hinv := initParts_inv d
  have hqinv := initParts_invQ d
  have hcompl := initial_compl d htgt
  have hwlen := foldl_insertDist_length ((Dfa.accept_partition d).2
    ++ Dfa.reject_partition d (Dfa.accept_partition d).1) []
  have hplen : ((Dfa.accept_partition d).2
      ++ Dfa.reject_partition d (Dfa.accept_partition d).1).length
      ≤ d.states.length := parts_length_le _ _ hqinv.1 hqinv.2
  rw [Dfa.minimizePartition]
  exact minimizeLoop_stable d hdet _ _ _ hinv hqinv hcompl
    (by simp only [List.length_nil] at hwlen; omega)

end RegexDfa

namespace RegexDfa

/-- States left in one class by the minimizer are observationally
equivalent. -/
theorem minimizePartition_eqv (d : Dfa) (hdet : Dfa.Det d) (htgt : TargetsOk d) :
    ∀ B ∈ Dfa.minimizePartition d, ∀ p ∈ B, ∀ q ∈ B, eqv d p q := by
  have hstab := minimizePartition_stable d hdet htgt
  have haccu := (minimizePartition_inv d).2.1
  intro B hB p hp q hq n
  induction n generalizing B p q with
  | zero => exact trivial
  | succ n ihn =>
      rw [eqvN_succ_def]
      refine ⟨haccu B hB p hp q hq, fun c => ?_⟩
      rcases hstab B hB p hp q hq c with ⟨h1, h2⟩ | ⟨t1, t2, B0, hB0, he1, he2, ht1, ht2⟩
      · rw [h1, h2]
        exact trivial
      · rw [he1, he2]
        exact ihn B0 hB0 t1 ht1 t2 ht2

/-- Equivalent states are never separated: classes are indexed consistently. -/
theorem minimizePartition_distinct (d : Dfa) (hdet : Dfa.Det d) (htgt : TargetsOk d)
    (i j : Nat) (hi : i < (Dfa.minimizePartition d).length)
    (hj : j < (Dfa.minimizePartition d).length)
    (p : Nat) (hp : p ∈ (Dfa.minimizePartition d)[i])
    (q : Nat) (hq : q ∈ (Dfa.minimizePartition d)[j])
    (heq : eqv d p q) : i = j := by
  have hsat := minimizePartition_sat d hdet htgt
  have hinv := minimizePartition_inv d
  have hpn : p < d.states.length :=
    hinv.1 _ (List.getElem_mem hi) p hp
  have hpj : p ∈ (Dfa.minimizePartition d)[j] :=
    hsat _ (List.getElem_mem hj) q hq p hpn heq
  by_contra hne
  have hpw := hinv.2.2.1
  rw [List.pairwise_iff_getElem] at hpw
  rcases Nat.lt_or_ge i j with hlt | hge
  · exact hpw i j hi hj hlt p hp hpj
  · have hlt : j < i := by omega
    exact hpw j i hj hi hlt p hpj hp

/-- A partition into singletons covering `n` states has exactly `n` classes. -/
theorem singleton_partition_length (n : Nat) (parts : List (List Nat))
    (hall : ∀ p ∈ parts, p ≠ [] ∧ p.Nodup ∧ ∀ s ∈ p, s < n)
    (hpw : parts.Pairwise (fun p q => ∀ x ∈ p, x ∉ q))
    (hcov : ∀ s, s < n → ∃ p ∈ parts, s ∈ p)
    (hsing : ∀ B ∈ parts, ∀ p ∈ B, ∀ q ∈ B, p = q) :
    parts.length = n := by
  have hflat_nd : parts.flatten.Nodup := by
    rw [List.nodup_flatten]
    constructor
    · intro l hl
      exact (hall l hl).2.1
    · refine List.Pairwise.imp ?_ hpw
      intro p q hpq x hxp hxq
      exact hpq x hxp hxq
  have hflat_bd : ∀ x ∈ parts.flatten, x < n := by
    intro x hx
    rw [List.mem_flatten] at hx
    obtain ⟨l, hl, hxl⟩ := hx
    exact (hall l hl).2.2 x hxl
  have hflat_cov : ∀ x, x < n → x ∈ parts.flatten := by
    intro x hx
    obtain ⟨p, hp, hxp⟩ := hcov x hx
    rw [List.mem_flatten]
    exact ⟨p, hp, hxp⟩
  have hlen1 : ∀ B ∈ parts, B.length = 1 := by
    intro B hB
    obtain ⟨hne, hnd, _⟩ := hall B hB
    cases B with
    | nil => exact absurd rfl hne
    | cons b l =>
        cases l with
        | nil => rfl
        | cons b2 l2 =>
            exfalso
            have hbe : b = b2 := hsing _ hB b (List.mem_cons_self _ _) b2
              (List.mem_cons_of_mem b (List.mem_cons_self _ _))
            rw [List.nodup_cons] at hnd
            exact hnd.1 (by rw [hbe]; exact List.mem_cons_self _ _)
  have hflat_len : parts.flatten.length = parts.length := by
    rw [List.length_flatten]
    have hrep : parts.map List.length = List.replicate parts.length 1 := by
      rw [List.eq_replicate_iff]
      refine ⟨by rw [List.length_map], ?_⟩
      intro b hb
      rw [List.mem_map] at hb
      obtain ⟨p, hp, hpl⟩ := hb
      rw [← hpl]
      exact hlen1 p hp
    rw [hrep, List.sum_replicate]
    simp
  have hflat_n : parts.flatten.length = n := by
    have h1 : parts.flatten.toFinset.card = parts.flatten.length :=
      List.toFinset_card_of_nodup hflat_nd
    have h2 : parts.flatten.toFinset = Finset.range n := by
      refine Finset.ext fun x => ?_
      rw [List.mem_toFinset, Finset.mem_range]
      exact ⟨hflat_bd x, hflat_cov x⟩
    rw [h2, Finset.card_range] at h1
    omega
  omega

end RegexDfa

namespace RegexDfa

/-! ### Transfer to the minimized automaton -/

theorem minimize_num_states_eq (d : Dfa) :
    (Dfa.minimize d).num_states = (Dfa.minimizePartition d).length := by
  rw [Dfa.minimize, Dfa.num_states]
  simp [List.length_map]

theorem headD_mem_of_ne_nil (l : List Nat) (h : l ≠ []) : l.headD 0 ∈ l := by
  cases l with
  | nil => exact absurd rfl h
  | cons a t => exact List.mem_cons_self a t

theorem minimize_states_getD (d : Dfa) (i : Nat)
    (hi : i < (Dfa.minimizePartition d).length) :
    (Dfa.minimize d).states.getD i default =
      { transitions := CharMap.normalize
          ((transAt d ((Dfa.minimizePartition d)[i].headD 0)).map
            (fun rt => (rt.1, (Dfa.old_state_to_new d).getD rt.2 0))),
        accept := acceptAt d ((Dfa.minimizePartition d)[i].headD 0) } := by
  rw [Dfa.minimize]
  dsimp only
  rw [List.getD_eq_getElem _ default (by rw [List.length_map]; exact hi),
    List.getElem_map]

theorem old_state_to_new_mem_eq (d : Dfa) (j : Nat)
    (hj : j < (Dfa.minimizePartition d).length) (s : Nat)
    (hs : s ∈ (Dfa.minimizePartition d)[j]) (hsn : s < d.states.length) :
    (Dfa.old_state_to_new d).getD s 0 = j := by
  rw [Dfa.old_state_to_new]
  have h := oldToNewAux_mem (Dfa.minimizePartition d) 0
    (List.replicate d.states.length 0) s j (Dfa.minimizePartition d)[j]
    (List.getElem?_eq_getElem hj) hs
    (by rw [List.length_replicate]; exact hsn)
    (minimizePartition_inv d).2.2.1
  rw [h]
  omega

/-- The block index of any valid state is a valid new-state index, and the
state sits in that block. -/
theorem old_state_to_new_block (d : Dfa) (s : Nat) (hs : s < d.states.length) :
    ∃ hj : (Dfa.old_state_to_new d).getD s 0 < (Dfa.minimizePartition d).length,
      s ∈ (Dfa.minimizePartition d)[(Dfa.old_state_to_new d).getD s 0] := by
  obtain ⟨B, hB, hsB⟩ := (minimizePartition_inv d).2.2.2 s hs
  obtain ⟨j, hj, hBj⟩ := List.mem_iff_getElem.mp hB
  have heq : (Dfa.old_state_to_new d).getD s 0 = j :=
    old_state_to_new_mem_eq d j hj s (by rw [hBj]; exact hsB) hs
  rw [heq]
  exact ⟨hj, by rw [hBj]; exact hsB⟩

/-- The minimized automaton keeps deterministic transition maps. -/
theorem minimize_det (d : Dfa) (hdet : Dfa.Det d) : Dfa.Det (Dfa.minimize d) := by
  intro st hst
  rw [Dfa.minimize] at hst
  dsimp only at hst
  rw [List.mem_map] at hst
  obtain ⟨part, hpart, hste⟩ := hst
  rw [← hste]
  dsimp only
  obtain ⟨i, hi, hpe⟩ := List.mem_iff_getElem.mp hpart
  exact detMap_normalize _ (detMap_map (transAt d (part.headD 0))
    (fun x => (Dfa.old_state_to_new d).getD x 0) (det_transAt d hdet _))

/-- The minimized automaton keeps its targets in range. -/
theorem minimize_targetsOk (d : Dfa) : TargetsOk (Dfa.minimize d) := by
  have hlen : (Dfa.minimize d).states.length = (Dfa.minimizePartition d).length := by
    rw [Dfa.minimize]
    dsimp only
    rw [List.length_map]
  intro st hst rt hrt
  rw [Dfa.minimize] at hst
  dsimp only at hst
  rw [List.mem_map] at hst
  obtain ⟨part, hpart, hste⟩ := hst
  rw [← hste] at hrt
  dsimp only at hrt
  obtain ⟨rt0, hm0, hv0⟩ := normalize_values _ rt hrt
  rw [List.mem_map] at hm0
  obtain ⟨e, he, hee⟩ := hm0
  have hv : rt.2 = (Dfa.old_state_to_new d).getD e.2 0 := by
    rw [hv0, ← hee]
  rw [hlen, hv]
  by_cases hen : e.2 < d.states.length
  · obtain ⟨hj, _⟩ := old_state_to_new_block d e.2 hen
    exact hj
  · have hz : (Dfa.old_state_to_new d).getD e.2 0 = 0 := by
      rw [Dfa.old_state_to_new]
      rw [oldToNewAux_not_mem]
      · rw [List.getD_eq_default]
        rw [List.length_replicate]
        omega
      · intro p hp hcon
        exact hen ((minimizePartition_inv d).1 p hp e.2 hcon)
    rw [hz]
    rw [List.length_pos]
    exact List.ne_nil_of_mem hpart

end RegexDfa

namespace RegexDfa

theorem minimize_transAt (d : Dfa) (i : Nat)
    (hi : i < (Dfa.minimizePartition d).length) :
    transAt (Dfa.minimize d) i = CharMap.normalize
      ((transAt d ((Dfa.minimizePartition d)[i].headD 0)).map
        (fun rt => (rt.1, (Dfa.old_state_to_new d).getD rt.2 0))) := by
  rw [transAt, minimize_states_getD d i hi]

theorem minimize_acceptAt (d : Dfa) (i : Nat)
    (hi : i < (Dfa.minimizePartition d).length) :
    acceptAt (Dfa.minimize d) i =
      acceptAt d ((Dfa.minimizePartition d)[i].headD 0) := by
  rw [acceptAt, minimize_states_getD d i hi]

/-- The block map is a functional bisimulation: stepping commutes with it. -/
theorem minimize_step_hom (d : Dfa) (hdet : Dfa.Det d) (htgt : TargetsOk d)
    (p : Nat) (hp : p < d.states.length) (c : Nat) :
    step (Dfa.minimize d) ((Dfa.old_state_to_new d).getD p 0) c =
      (step d p c).map (fun t => (Dfa.old_state_to_new d).getD t 0) := by
  obtain ⟨hj, hpj⟩ := old_state_to_new_block d p hp
  have hBne : (Dfa.minimizePartition d)[(Dfa.old_state_to_new d).getD p 0] ≠ [] :=
    ((minimizePartition_invQ d).1 _ (List.getElem_mem hj)).1
  have hrepmem := headD_mem_of_ne_nil _ hBne
  have hrepn : (Dfa.minimizePartition d)[(Dfa.old_state_to_new d).getD p 0].headD 0
      < d.states.length :=
    (minimizePartition_inv d).1 _ (List.getElem_mem hj) _ hrepmem
  have hL : step (Dfa.minimize d) ((Dfa.old_state_to_new d).getD p 0) c =
      (step d ((Dfa.minimizePartition d)[(Dfa.old_state_to_new d).getD p 0].headD 0) c).map
        (fun t => (Dfa.old_state_to_new d).getD t 0) := by
    rw [step, minimize_transAt d _ hj]
    have hdm : DetMap ((transAt d
        ((Dfa.minimizePartition d)[(Dfa.old_state_to_new d).getD p 0].headD 0)).map
        (fun rt => (rt.1, (Dfa.old_state_to_new d).getD rt.2 0))) :=
      detMap_map _ (fun x => (Dfa.old_state_to_new d).getD x 0) (det_transAt d hdet _)
    rw [get_normalize _ hdm]
    exact charMap_get_map _ (fun x => (Dfa.old_state_to_new d).getD x 0) c
  rw [hL]
  have hstab := minimizePartition_stable d hdet htgt _ (List.getElem_mem hj)
    p hpj _ hrepmem c
  rcases hstab with ⟨h1, h2⟩ | ⟨t1, t2, B0, hB0, he1, he2, ht1, ht2⟩
  · rw [h1, h2]
  · rw [he1, he2]
    obtain ⟨j0, hj0, hB0e⟩ := List.mem_iff_getElem.mp hB0
    have ht1n : t1 < d.states.length := step_lt d htgt p c t1 he1
    have ht2n : t2 < d.states.length := step_lt d htgt _ c t2 he2
    have e1 := old_state_to_new_mem_eq d j0 hj0 t1 (by rw [hB0e]; exact ht1) ht1n
    have e2 := old_state_to_new_mem_eq d j0 hj0 t2 (by rw [hB0e]; exact ht2) ht2n
    rw [Option.map_some', Option.map_some', e1, e2]

/-- The block map preserves the accept condition. -/
theorem minimize_accept_hom (d : Dfa) (_hdet : Dfa.Det d) (_htgt : TargetsOk d)
    (p : Nat) (hp : p < d.states.length) :
    acceptAt (Dfa.minimize d) ((Dfa.old_state_to_new d).getD p 0) = acceptAt d p := by
  obtain ⟨hj, hpj⟩ := old_state_to_new_block d p hp
  rw [minimize_acceptAt d _ hj]
  have hBne : (Dfa.minimizePartition d)[(Dfa.old_state_to_new d).getD p 0] ≠ [] :=
    ((minimizePartition_invQ d).1 _ (List.getElem_mem hj)).1
  exact (minimizePartition_inv d).2.1 _ (List.getElem_mem hj) _
    (headD_mem_of_ne_nil _ hBne) p hpj

/-- Equivalence of image states pulls back along the block map. -/
theorem minimize_eqvN_pullback (d : Dfa) (hdet : Dfa.Det d) (htgt : TargetsOk d) :
    ∀ m p q, p < d.states.length → q < d.states.length →
      eqvN (Dfa.minimize d) m ((Dfa.old_state_to_new d).getD p 0)
        ((Dfa.old_state_to_new d).getD q 0) → eqvN d m p q := by
  intro m
  induction m with
  | zero => intro p q _ _ _; exact trivial
  | succ m ih =>
      intro p q hpn hqn h
      rw [eqvN_succ_def] at h ⊢
      refine ⟨?_, fun c => ?_⟩
      · have h1 := h.1
        rw [minimize_accept_hom d hdet htgt p hpn,
          minimize_accept_hom d hdet htgt q hqn] at h1
        exact h1
      · have h2 := h.2 c
        rw [minimize_step_hom d hdet htgt p hpn c,
          minimize_step_hom d hdet htgt q hqn c] at h2
        cases hsp : step d p c with
        | none =>
            cases hsq : step d q c with
            | none => exact trivial
            | some t2 =>
                rw [hsp, hsq] at h2
                exact (h2 : False).elim
        | some t1 =>
            cases hsq : step d q c with
            | none =>
                rw [hsp, hsq] at h2
                exact (h2 : False).elim
            | some t2 =>
                rw [hsp, hsq] at h2
                have ht1n := step_lt d htgt p c t1 hsp
                have ht2n := step_lt d htgt q c t2 hsq
                exact ih t1 t2 ht1n ht2n h2

/-- Distinct states of the minimized automaton are inequivalent. -/
theorem minimize_states_not_eqv (d : Dfa) (hdet : Dfa.Det d) (htgt : TargetsOk d)
    (i j : Nat) (hi : i < (Dfa.minimizePartition d).length)
    (hj : j < (Dfa.minimizePartition d).length)
    (heq : eqv (Dfa.minimize d) i j) : i = j := by
  have hBi : (Dfa.minimizePartition d)[i] ≠ [] :=
    ((minimizePartition_invQ d).1 _ (List.getElem_mem hi)).1
  have hBj : (Dfa.minimizePartition d)[j] ≠ [] :=
    ((minimizePartition_invQ d).1 _ (List.getElem_mem hj)).1
  have hrepi := headD_mem_of_ne_nil _ hBi
  have hrepj := headD_mem_of_ne_nil _ hBj
  have hrin : (Dfa.minimizePartition d)[i].headD 0 < d.states.length :=
    (minimizePartition_inv d).1 _ (List.getElem_mem hi) _ hrepi
  have hrjn : (Dfa.minimizePartition d)[j].headD 0 < d.states.length :=
    (minimizePartition_inv d).1 _ (List.getElem_mem hj) _ hrepj
  have hmi := old_state_to_new_mem_eq d i hi _ hrepi hrin
  have hmj := old_state_to_new_mem_eq d j hj _ hrepj hrjn
  have heqv : eqv d ((Dfa.minimizePartition d)[i].headD 0)
      ((Dfa.minimizePartition d)[j].headD 0) := by
    intro m
    apply minimize_eqvN_pullback d hdet htgt m _ _ hrin hrjn
    rw [hmi, hmj]
    exact heq m
  exact minimizePartition_distinct d hdet htgt i j hi hj _ hrepi _ hrepj heqv

/-- On deterministic, target-sound automata, minimization is idempotent on the
state count. -/
theorem minimize_idem_det (d : Dfa) (hdet : Dfa.Det d) (htgt : TargetsOk d) :
    (Dfa.minimize (Dfa.minimize d)).num_states = (Dfa.minimize d).num_states := by
  have hdet' := minimize_det d hdet
  have htgt' := minimize_targetsOk d
  have hsl : (Dfa.minimize d).states.length = (Dfa.minimizePartition d).length :=
    minimize_num_states_eq d
  have hsing : ∀ B ∈ Dfa.minimizePartition (Dfa.minimize d),
      ∀ p ∈ B, ∀ q ∈ B, p = q := by
    intro B hB p hp q hq
    have heqv := minimizePartition_eqv (Dfa.minimize d) hdet' htgt' B hB p hp q hq
    have hpn := (minimizePartition_inv (Dfa.minimize d)).1 B hB p hp
    have hqn := (minimizePartition_inv (Dfa.minimize d)).1 B hB q hq
    rw [hsl] at hpn hqn
    exact minimize_states_not_eqv d hdet htgt p q hpn hqn heqv
  have hq' := minimizePartition_invQ (Dfa.minimize d)
  have hcov' := (minimizePartition_inv (Dfa.minimize d)).2.2.2
  have hlen := singleton_partition_length (Dfa.minimize d).states.length _
    hq'.1 hq'.2 hcov' hsing
  rw [minimize_num_states_eq (Dfa.minimize d), hlen]
  rw [Dfa.num_states]

end RegexDfa

namespace RegexDfa

/-- C4 (amended): minimization is idempotent on the state count for every DFA
value with deterministic transition maps and in-range targets — the class the
determinizer produces: `minimize (minimize D)` has exactly as many states as
`minimize D`.  For arbitrary `Dfa` values (overlapping transition ranges are
representable) the second run never increases the state count, but can
strictly decrease it. -/
theorem minimize_minimize_num_states :
    (∀ d : Dfa, (Dfa.minimize (Dfa.minimize d)).num_states ≤
        (Dfa.minimize d).num_states) ∧
      ∀ d : Dfa, Dfa.Det d → TargetsOk d →
        (Dfa.minimize (Dfa.minimize d)).num_states =
          (Dfa.minimize d).num_states :=
  ⟨fun d => minimize_num_states_le (Dfa.minimize d),
   fun d hdet htgt => minimize_idem_det d hdet htgt⟩

/-- Witness: `dfaShrink` is deterministic with in-range targets, and the
idempotence branch of the claim applies to it. -/
theorem minimize_minimize_num_states_witness :
    Dfa.Det dfaShrink ∧ TargetsOk dfaShrink ∧
      (Dfa.minimize (Dfa.minimize dfaShrink)).num_states =
        (Dfa.minimize dfaShrink).num_states :=
  ⟨by decide, by decide,
    minimize_minimize_num_states.2 dfaShrink (by decide) (by decide)⟩

end RegexDfa
